import Mathlib

/-!
Verification of the bisque parse-tree engine.

The development shallowly embeds the core of the library:

* `Node`/`Store` model the pointer-threaded tree: every page element carries
  `parent`, `previousElement`/`nextElement` (document-order chain),
  `previousSibling`/`nextSibling`, and (for tags) an ordered `contents` list,
  exactly as in `element/tag_core/page_element.py` and `tag.py`.
  Object identity in Python becomes `Nat` node ids; `x is y` becomes id
  equality; attribute assignment becomes a pointwise store update.
* The structural mutators (`extract`, `insert`, `replace_with`, `decompose`),
  the traversal helpers (`_last_descendant`, `descendants`) and the query
  loop of `_find_all` are translated operation by operation from the source;
  unbounded `while` loops take an explicit fuel argument, and operations that
  can raise in Python return `Option`/`Except`.
* `PTree`/`storeOf` build the canonical store of a pure document tree, with
  node ids assigned in pre-order, which realises the invariants I1-I4 of the
  specification; universally quantified claims about "a tree" are read over
  these stores via the `At` relation locating subtrees.
* `BaseSoupStrainer._matches`/`search_tag` (from `soup_strainer.py`) and the
  builder's `handle_endtag`/`_popToTag`/`endData` path (from `main.py`) are
  embedded separately.
-/

namespace Bisque

/-- Kind of a page element: a `Tag` or a `NavigableString` text node. -/
inductive Kind where
  | tagK : Kind
  | textK : Kind
deriving DecidableEq, Repr

/-- One page element, as stored in the parse tree.  Mirrors the pydantic
fields of `BaseTag` / `BaseNavigableString`: `name`, `attrs`, `contents`,
`parent`, `previous_element`, `next_element`, `previous_sibling`,
`next_sibling`, `decomposed`; `value` is the string payload of a text node. -/
structure Node where
  kind : Kind := Kind.textK
  name : String := ""
  attrs : List (String × String) := []
  value : String := ""
  contents : List Nat := []
  parent : Option Nat := none
  previousElement : Option Nat := none
  nextElement : Option Nat := none
  previousSibling : Option Nat := none
  nextSibling : Option Nat := none
  decomposed : Bool := false
deriving DecidableEq, Repr

instance : Inhabited Node := ⟨{}⟩

/-- The object heap: node ids to node records. -/
def Store : Type := Nat → Node

/-- Pointwise store update: Python attribute assignment on the object `i`. -/
def upd (s : Store) (i : Nat) (f : Node → Node) : Store :=
  fun j => if j = i then f (s j) else s j

@[simp] theorem upd_same (s : Store) (i : Nat) (f : Node → Node) :
    upd s i f i = f (s i) := by simp [upd]

@[simp] theorem upd_other (s : Store) (i : Nat) (f : Node → Node) (j : Nat)
    (h : j ≠ i) : upd s i f j = s j := by simp [upd, h]

/-- A pure document tree: a tag with a name, attributes and an ordered list
of children, or a text node. -/
inductive PTree where
  | tagN : String → List (String × String) → List PTree → PTree
  | textN : String → PTree
deriving Repr

mutual
/-- Number of nodes in a tree. -/
def size : PTree → Nat
  | .textN _ => 1
  | .tagN _ _ cs => 1 + sizeL cs
/-- Number of nodes in a forest. -/
def sizeL : List PTree → Nat
  | [] => 0
  | c :: cs => size c + sizeL cs
end

/-- Pre-order positions of the roots of a forest laid out starting at `q`. -/
def childPositions : List PTree → Nat → List Nat
  | [], _ => []
  | c :: cs, q => q :: childPositions cs (q + size c)

/-- `previous_element` of the node at pre-order position `p`. -/
def prevOf (p : Nat) : Option Nat := if p = 0 then none else some (p - 1)

mutual
/-- Lay out a tree in pre-order starting at position `p`, with the given
`parent`, `previous_sibling` and `next_sibling` context.  Every record's
`previous_element` is its predecessor position and its `next_element` the
successor position (the very last node of the document is fixed up in
`storeOf`). -/
def layout : PTree → Nat → Option Nat → Option Nat → Option Nat → List Node
  | .textN v, p, par, ps, ns =>
      [{ kind := Kind.textK, value := v, parent := par,
         previousElement := prevOf p, nextElement := some (p + 1),
         previousSibling := ps, nextSibling := ns }]
  | .tagN nm a cs, p, par, ps, ns =>
      { kind := Kind.tagK, name := nm, attrs := a,
        contents := childPositions cs (p + 1), parent := par,
        previousElement := prevOf p, nextElement := some (p + 1),
        previousSibling := ps, nextSibling := ns } :: layoutL cs (p + 1) p none
/-- Lay out a forest of siblings starting at position `p` under parent
`par`; `ps` is the position of the sibling preceding the first tree. -/
def layoutL : List PTree → Nat → Nat → Option Nat → List Node
  | [], _, _, _ => []
  | c :: cs, p, par, ps =>
      layout c p (some par) ps (if cs.isEmpty then none else some (p + size c))
        ++ layoutL cs (p + size c) par (some p)
end

/-- The canonical store of a document tree: pre-order node ids, document
chain `i ↦ i+1`, the last node's `next_element` cleared. -/
def storeOf (t : PTree) : Store := fun i =>
  let n := (layout t 0 none none none).getD i default
  if i + 1 = size t then { n with nextElement := none } else n

/-! ### Structure of the canonical layout -/

theorem size_pos : ∀ u : PTree, 1 ≤ size u
  | .textN _ => by simp [size]
  | .tagN _ _ _ => by simp [size]

mutual
theorem layout_length : ∀ (u : PTree) (p : Nat) (par ps ns : Option Nat),
    (layout u p par ps ns).length = size u
  | .textN v, p, par, ps, ns => by simp [layout, size]
  | .tagN nm a cs, p, par, ps, ns => by
      simp [layout, size, layoutL_length cs (p + 1) p none, Nat.add_comm]
theorem layoutL_length : ∀ (cs : List PTree) (p par : Nat) (ps : Option Nat),
    (layoutL cs p par ps).length = sizeL cs
  | [], _, _, _ => by simp [layoutL, sizeL]
  | c :: cs, p, par, ps => by
      simp [layoutL, sizeL, layout_length c, layoutL_length cs]
end

theorem childPositions_length : ∀ (cs : List PTree) (q : Nat),
    (childPositions cs q).length = cs.length
  | [], _ => by simp [childPositions]
  | c :: cs, q => by simp [childPositions, childPositions_length cs]

theorem childPositions_get : ∀ (cs : List PTree) (q i : Nat), i < cs.length →
    (childPositions cs q)[i]? = some (q + sizeL (cs.take i))
  | [], _, _, h => by simp at h
  | c :: cs, q, 0, _ => by simp [childPositions, sizeL]
  | c :: cs, q, i + 1, h => by
      have ih := childPositions_get cs (q + size c) i (by simpa using h)
      simp [childPositions, ih, List.take_succ_cons, sizeL, Nat.add_assoc]

theorem childPositions_get_none : ∀ (cs : List PTree) (q i : Nat),
    cs.length ≤ i → (childPositions cs q)[i]? = none
  | cs, q, i, h => by
      rw [List.getElem?_eq_none]
      simpa [childPositions_length] using h

theorem sizeL_take_succ : ∀ (cs : List PTree) (i : Nat) (c : PTree),
    cs[i]? = some c → sizeL (cs.take (i + 1)) = sizeL (cs.take i) + size c
  | [], i, c, h => by simp at h
  | d :: cs, 0, c, h => by
      simp at h
      simp [sizeL, h]
  | d :: cs, i + 1, c, h => by
      have ih := sizeL_take_succ cs i c (by simpa using h)
      simp [List.take_succ_cons, sizeL, ih, Nat.add_assoc]

theorem sizeL_take_le : ∀ (cs : List PTree) (i : Nat),
    sizeL (cs.take i) ≤ sizeL cs
  | [], i => by simp [sizeL]
  | d :: cs, 0 => by simp [sizeL]
  | d :: cs, i + 1 => by
      have ih := sizeL_take_le cs i
      simp [List.take_succ_cons, sizeL]
      omega

theorem sizeL_take_add_size_le : ∀ (cs : List PTree) (i : Nat) (c : PTree),
    cs[i]? = some c → sizeL (cs.take i) + size c ≤ sizeL cs
  | cs, i, c, h => by
      have h1 := sizeL_take_succ cs i c h
      have h2 := sizeL_take_le cs (i + 1)
      omega

/-- The node record at the root of a laid-out subtree. -/
def rootRec : PTree → Nat → Option Nat → Option Nat → Option Nat → Node
  | .textN v, p, par, ps, ns =>
      { kind := Kind.textK, value := v, parent := par,
        previousElement := prevOf p, nextElement := some (p + 1),
        previousSibling := ps, nextSibling := ns }
  | .tagN nm a cs, p, par, ps, ns =>
      { kind := Kind.tagK, name := nm, attrs := a,
        contents := childPositions cs (p + 1), parent := par,
        previousElement := prevOf p, nextElement := some (p + 1),
        previousSibling := ps, nextSibling := ns }

theorem layout_text (v : String) (p : Nat) (par ps ns : Option Nat) :
    layout (.textN v) p par ps ns = [rootRec (.textN v) p par ps ns] := by
  simp [layout, rootRec]

theorem layout_tag (nm : String) (a : List (String × String)) (cs : List PTree)
    (p : Nat) (par ps ns : Option Nat) :
    layout (.tagN nm a cs) p par ps ns =
      rootRec (.tagN nm a cs) p par ps ns :: layoutL cs (p + 1) p none := by
  simp [layout, rootRec]

theorem layoutL_nil (p par : Nat) (ps : Option Nat) : layoutL [] p par ps = [] := by
  simp [layoutL]

theorem layoutL_cons (c : PTree) (cs : List PTree) (p par : Nat) (ps : Option Nat) :
    layoutL (c :: cs) p par ps =
      layout c p (some par) ps (if cs.isEmpty then none else some (p + size c))
        ++ layoutL cs (p + size c) par (some p) := by
  simp [layoutL]

theorem layout_zero : ∀ (u : PTree) (p : Nat) (par ps ns : Option Nat),
    (layout u p par ps ns)[0]? = some (rootRec u p par ps ns)
  | .textN v, p, par, ps, ns => by simp [layout_text]
  | .tagN nm a cs, p, par, ps, ns => by simp [layout_tag]

theorem childPositions_zero (cs : List PTree) (q : Nat) :
    (childPositions cs q)[0]? = if cs.isEmpty then none else some q := by
  cases cs with
  | nil => simp [childPositions]
  | cons c cs => simp [childPositions]

/-- `At t d p par ps ns u`: in the document `t`, the subtree `u` sits at
pre-order position `p`, at depth `d`, with parent position `par` and
sibling positions `ps`/`ns`. -/
inductive At (t : PTree) :
    Nat → Nat → Option Nat → Option Nat → Option Nat → PTree → Prop
  | root : At t 0 0 none none none t
  | child {d p : Nat} {par ps ns : Option Nat} {nm : String}
      {a : List (String × String)} {cs : List PTree} {i c : Nat} {u : PTree} :
      At t d p par ps ns (.tagN nm a cs) →
      cs[i]? = some u →
      (childPositions cs (p + 1))[i]? = some c →
      At t (d + 1) c (some p)
        (if i = 0 then none else (childPositions cs (p + 1))[i - 1]?)
        ((childPositions cs (p + 1))[i + 1]?)
        u

/-- Lookup inside a laid-out forest: the `i`-th tree of the forest occupies
the slice starting at relative offset `sizeL (cs.take i)`. -/
theorem layoutL_slice : ∀ (cs : List PTree) (P par : Nat) (ps0 : Option Nat)
    (i : Nat) (u : PTree), cs[i]? = some u → ∀ q, q < size u →
    (layoutL cs P par ps0)[sizeL (cs.take i) + q]? =
      (layout u (P + sizeL (cs.take i)) (some par)
        (if i = 0 then ps0 else (childPositions cs P)[i - 1]?)
        ((childPositions cs P)[i + 1]?))[q]?
  | [], _, _, _, i, u, h, _, _ => by simp at h
  | c :: cs, P, par, ps0, 0, u, h, q, hq => by
      have hcu : c = u := by simpa using h
      subst hcu
      have hlen : q < (layout c P (some par) ps0
          (if cs.isEmpty then none else some (P + size c))).length := by
        rw [layout_length]; exact hq
      rw [layoutL_cons]
      simp only [List.take_zero, sizeL, Nat.zero_add, Nat.add_zero]
      rw [List.getElem?_append, if_pos hlen]
      have hns : (childPositions (c :: cs) P)[0 + 1]? =
          if cs.isEmpty then none else some (P + size c) := by
        simp [childPositions, childPositions_zero]
      rw [hns]
      simp
  | c :: cs, P, par, ps0, i + 1, u, h, q, hq => by
      simp only [List.getElem?_cons_succ] at h
      have ih := layoutL_slice cs (P + size c) par (some P) i u h q hq
      rw [layoutL_cons]
      have hskip : (layout c P (some par) ps0
          (if cs.isEmpty then none else some (P + size c))).length = size c := by
        rw [layout_length]
      rw [List.take_succ_cons]
      have harith : sizeL (c :: cs.take i) + q =
          size c + (sizeL (cs.take i) + q) := by simp [sizeL]; omega
      rw [harith, List.getElem?_append, if_neg (by omega), hskip]
      have hsub : size c + (sizeL (cs.take i) + q) - size c =
          sizeL (cs.take i) + q := by omega
      rw [hsub, ih]
      have hps : (if i = 0 then some P else (childPositions cs (P + size c))[i - 1]?) =
          (if i + 1 = 0 then ps0 else (childPositions (c :: cs) P)[i + 1 - 1]?) := by
        cases i with
        | zero => simp [childPositions]
        | succ j => simp [childPositions]
      have hns : (childPositions cs (P + size c))[i + 1]? =
          (childPositions (c :: cs) P)[i + 1 + 1]? := by
        simp [childPositions]
      rw [hps, hns]
      have hpos : P + size c + sizeL (cs.take i) =
          P + sizeL (c :: cs.take i) := by simp [sizeL]; omega
      rw [hpos]

/-- The global layout list of a document. -/
def glist (t : PTree) : List Node := layout t 0 none none none

/-- The subtree located by `At` occupies the document slice `[p, p + size u)`,
and its slice of the global layout is its own layout. -/
theorem At.slice {t : PTree} {d p : Nat} {par ps ns : Option Nat} {u : PTree}
    (h : At t d p par ps ns u) : ∀ q, q < size u →
    (glist t)[p + q]? = (layout u p par ps ns)[q]? := by
  induction h with
  | root => intro q hq; simp [glist]
  | @child d' p' par' ps' ns' nm a cs i c u' hpar hcs hcp ih =>
      intro q hq
      have hilt : i < cs.length := by
        by_contra hge
        rw [List.getElem?_eq_none (by omega)] at hcs
        simp at hcs
      have hc : c = p' + 1 + sizeL (cs.take i) := by
        rw [childPositions_get cs (p' + 1) i hilt] at hcp
        simp at hcp
        omega
      have hbound : sizeL (cs.take i) + q < sizeL cs := by
        have := sizeL_take_add_size_le cs i u' hcs
        omega
      have hq2 : sizeL (cs.take i) + q + 1 < size (PTree.tagN nm a cs) := by
        simp [size]; omega
      have ihx := ih (sizeL (cs.take i) + q + 1) hq2
      rw [layout_tag, List.getElem?_cons_succ] at ihx
      rw [layoutL_slice cs (p' + 1) p' none i u' hcs q hq] at ihx
      have hpos : p' + (sizeL (cs.take i) + q + 1) = c + q := by omega
      rw [hpos] at ihx
      have hpp : p' + 1 + sizeL (cs.take i) = c := by omega
      rw [hpp] at ihx
      exact ihx

theorem At.size_le {t : PTree} {d p : Nat} {par ps ns : Option Nat} {u : PTree}
    (h : At t d p par ps ns u) : p + size u ≤ size t := by
  induction h with
  | root => omega
  | @child d' p' par' ps' ns' nm a cs i c u' hpar hcs hcp ih =>
      have hilt : i < cs.length := by
        by_contra hge
        rw [List.getElem?_eq_none (by omega)] at hcs
        simp at hcs
      have hc : c = p' + 1 + sizeL (cs.take i) := by
        rw [childPositions_get cs (p' + 1) i hilt] at hcp
        simp at hcp
        omega
      have hb := sizeL_take_add_size_le cs i u' hcs
      have : size (PTree.tagN nm a cs) = 1 + sizeL cs := by simp [size]
      omega

theorem At.pos_lt {t : PTree} {d p : Nat} {par ps ns : Option Nat} {u : PTree}
    (h : At t d p par ps ns u) : p < size t := by
  have h1 := h.size_le
  have h2 := size_pos u
  omega

/-- The record of the global layout at the position located by `At`. -/
theorem At.glist_rec {t : PTree} {d p : Nat} {par ps ns : Option Nat} {u : PTree}
    (h : At t d p par ps ns u) :
    (glist t)[p]? = some (rootRec u p par ps ns) := by
  have := h.slice 0 (size_pos u)
  rw [Nat.add_zero] at this
  rw [this, layout_zero]

theorem storeOf_def (t : PTree) (i : Nat) :
    storeOf t i =
      (if i + 1 = size t then
        { (glist t).getD i default with nextElement := none }
      else (glist t).getD i default) := rfl

/-- The full record of the canonical store at a located position. -/
theorem At.store_rec {t : PTree} {d p : Nat} {par ps ns : Option Nat} {u : PTree}
    (h : At t d p par ps ns u) :
    storeOf t p =
      (if p + 1 = size t then { rootRec u p par ps ns with nextElement := none }
       else rootRec u p par ps ns) := by
  rw [storeOf_def]
  have hx : (glist t).getD p default = rootRec u p par ps ns := by
    rw [List.getD_eq_getElem?_getD, h.glist_rec]
    rfl
  rw [hx]

/-- The contents list of a located tag. -/
theorem At.contents_eq {t : PTree} {d p : Nat} {par ps ns : Option Nat}
    {nm : String} {a : List (String × String)} {cs : List PTree}
    (h : At t d p par ps ns (.tagN nm a cs)) :
    (storeOf t p).contents = childPositions cs (p + 1) := by
  rw [h.store_rec]
  split <;> simp [rootRec]

theorem At.contents_text_eq {t : PTree} {d p : Nat} {par ps ns : Option Nat}
    {v : String} (h : At t d p par ps ns (.textN v)) :
    (storeOf t p).contents = [] := by
  rw [h.store_rec]
  split <;> simp [rootRec]

theorem At.kind_eq {t : PTree} {d p : Nat} {par ps ns : Option Nat} {u : PTree}
    (h : At t d p par ps ns u) :
    (storeOf t p).kind =
      (match u with | .tagN _ _ _ => Kind.tagK | .textN _ => Kind.textK) := by
  rw [h.store_rec]
  cases u <;> split <;> simp [rootRec]

theorem At.parent_eq {t : PTree} {d p : Nat} {par ps ns : Option Nat} {u : PTree}
    (h : At t d p par ps ns u) : (storeOf t p).parent = par := by
  rw [h.store_rec]
  cases u <;> split <;> simp [rootRec]

theorem At.prevSib_eq {t : PTree} {d p : Nat} {par ps ns : Option Nat} {u : PTree}
    (h : At t d p par ps ns u) : (storeOf t p).previousSibling = ps := by
  rw [h.store_rec]
  cases u <;> split <;> simp [rootRec]

theorem At.nextSib_eq {t : PTree} {d p : Nat} {par ps ns : Option Nat} {u : PTree}
    (h : At t d p par ps ns u) : (storeOf t p).nextSibling = ns := by
  rw [h.store_rec]
  cases u <;> split <;> simp [rootRec]

theorem At.decomposed_eq {t : PTree} {d p : Nat} {par ps ns : Option Nat} {u : PTree}
    (h : At t d p par ps ns u) : (storeOf t p).decomposed = false := by
  rw [h.store_rec]
  cases u <;> split <;> simp [rootRec]

mutual
/-- Every record of a laid-out subtree carries the document-chain fields
determined by its absolute position. -/
theorem layout_prevNext : ∀ (u : PTree) (p : Nat) (par ps ns : Option Nat)
    (q : Nat), q < size u →
    ∃ nd, (layout u p par ps ns)[q]? = some nd ∧
      nd.previousElement = prevOf (p + q) ∧ nd.nextElement = some (p + q + 1)
  | .textN v, p, par, ps, ns, q, hq => by
      have hq0 : q = 0 := by simp [size] at hq; omega
      subst hq0
      exact ⟨rootRec (.textN v) p par ps ns, by simp [layout_text],
        by simp [rootRec], by simp [rootRec]⟩
  | .tagN nm a cs, p, par, ps, ns, q, hq => by
      match q with
      | 0 =>
          exact ⟨rootRec (.tagN nm a cs) p par ps ns, by simp [layout_tag],
            by simp [rootRec], by simp [rootRec]⟩
      | q + 1 =>
          have hq' : q < sizeL cs := by simp [size] at hq; omega
          obtain ⟨nd, h1, h2, h3⟩ := layoutL_prevNext cs (p + 1) p none q hq'
          refine ⟨nd, ?_, ?_, ?_⟩
          · rw [layout_tag, List.getElem?_cons_succ]; exact h1
          · rw [h2]; congr 1; omega
          · rw [h3]; congr 1; omega
theorem layoutL_prevNext : ∀ (cs : List PTree) (P par : Nat) (ps : Option Nat)
    (q : Nat), q < sizeL cs →
    ∃ nd, (layoutL cs P par ps)[q]? = some nd ∧
      nd.previousElement = prevOf (P + q) ∧ nd.nextElement = some (P + q + 1)
  | [], _, _, _, q, hq => by simp [sizeL] at hq
  | c :: cs, P, par, ps, q, hq => by
      by_cases hlt : q < size c
      · obtain ⟨nd, h1, h2, h3⟩ := layout_prevNext c P (some par) ps
          (if cs.isEmpty then none else some (P + size c)) q hlt
        refine ⟨nd, ?_, h2, h3⟩
        rw [layoutL_cons, List.getElem?_append, if_pos]
        · exact h1
        · rw [layout_length]; exact hlt
      · have hq2 : q - size c < sizeL cs := by simp [sizeL] at hq; omega
        obtain ⟨nd, h1, h2, h3⟩ := layoutL_prevNext cs (P + size c) par (some P)
          (q - size c) hq2
        refine ⟨nd, ?_, ?_, ?_⟩
        · rw [layoutL_cons, List.getElem?_append, if_neg (by rw [layout_length]; omega)]
          rw [layout_length]
          exact h1
        · rw [h2]; congr 1; omega
        · rw [h3]; congr 1; omega
end

theorem glist_prevNext (t : PTree) (q : Nat) (hq : q < size t) :
    ∃ nd, (glist t)[q]? = some nd ∧
      nd.previousElement = prevOf q ∧ nd.nextElement = some (q + 1) := by
  obtain ⟨nd, h1, h2, h3⟩ := layout_prevNext t 0 none none none q hq
  exact ⟨nd, h1, by simpa using h2, by simpa using h3⟩

/-- `previous_element` of the canonical store is position minus one. -/
theorem storeOf_prevEl (t : PTree) (q : Nat) (hq : q < size t) :
    (storeOf t q).previousElement = prevOf q := by
  obtain ⟨nd, h1, h2, _⟩ := glist_prevNext t q hq
  rw [storeOf_def, List.getD_eq_getElem?_getD, h1]
  split <;> simpa using h2

/-- `next_element` of the canonical store is position plus one, or `None`
at the last node of the document. -/
theorem storeOf_nextEl (t : PTree) (q : Nat) (hq : q < size t) :
    (storeOf t q).nextElement =
      (if q + 1 = size t then none else some (q + 1)) := by
  obtain ⟨nd, h1, _, h3⟩ := glist_prevNext t q hq
  rw [storeOf_def, List.getD_eq_getElem?_getD, h1]
  split
  · simp
  · simpa using h3

/-! ### The linkage engine

Translations of `BasePageElement._last_descendant`, `extract`, `insert`,
`replace_with` and `BaseTag.decompose`.  Unbounded `while` loops carry a
fuel argument; operations that can raise (`Tag.index` raising `ValueError`,
attribute access on `None`) return `Option`/`Except`. -/

/-- The `while isinstance(last_child, Tag) and last_child.contents:` loop of
`_last_descendant`: descend into the last child while there is one. -/
def lastDescendantLoop (s : Store) : Nat → Nat → Nat
  | 0, i => i
  | fuel + 1, i =>
      if (s i).kind = Kind.tagK ∧ (s i).contents ≠ [] then
        lastDescendantLoop s fuel ((s i).contents.getLast?.getD 0)
      else i

/-- `BasePageElement._last_descendant(is_initialized, accept_self)`
(page_element.py lines 279-294).  With `is_initialized` and a next sibling
present the result is `next_sibling.previous_element` (possibly `None`);
otherwise the last-child walk, which always lands on a node. -/
def lastDescendant (s : Store) (fuel : Nat) (isInit acceptSelf : Bool) (i : Nat) :
    Option Nat :=
  let lastChild : Option Nat :=
    if isInit = true ∧ (s i).nextSibling ≠ none then
      match (s i).nextSibling with
      | some sib => (s sib).previousElement
      | none => none
    else some (lastDescendantLoop s fuel i)
  if acceptSelf = false ∧ lastChild = some i then none else lastChild

/-- The ancestor walk of `insert` (page_element.py lines 356-363): starting
at the insertion parent itself, return the first `next_sibling` found while
climbing the `parent` chain, or `None` at the root. -/
def ancestorNextSibling (s : Store) : Nat → Option Nat → Option Nat
  | _, none => none
  | 0, some _ => none
  | fuel + 1, some p =>
      match (s p).nextSibling with
      | some ns => some ns
      | none => ancestorNextSibling s fuel (s p).parent

/-- The `while current is not stopNode:` loop of `descendants`
(tag.py lines 970-973): follow `next_element` from `cur`, collecting nodes,
until `stop` (exclusive).  `none` models both fuel exhaustion and the
`AttributeError` Python would raise after yielding a `None` current. -/
def chainUntil (s : Store) : Nat → Option Nat → Option Nat → Option (List Nat)
  | 0, _, _ => none
  | fuel + 1, cur, stop =>
      if cur = stop then some []
      else
        match cur with
        | none => none
        | some c => (chainUntil s fuel (s c).nextElement stop).map (c :: ·)

/-- `BaseTag.descendants` (tag.py lines 960-973): empty contents yield the
empty sequence, else follow `next_element` from `contents[0]` up to
`stop = self._last_descendant().next_element`, exclusive. -/
def descendants (s : Store) (fuel : Nat) (i : Nat) : Option (List Nat) :=
  if (s i).contents.length = 0 then some []
  else
    match lastDescendant s fuel true true i with
    | none => none
    | some ld => chainUntil s fuel (some ((s i).contents.headD 0)) ((s ld).nextElement)

/-- `extract`, document-chain repair, first half (page_element.py lines
255-259): `if self.previous_element is not None and self.previous_element
is not next_element: self.previous_element.next_element = next_element`. -/
def extGuard1 (s : Store) (selfId : Nat) (nextEl : Option Nat) : Store :=
  match (s selfId).previousElement with
  | some pe =>
      if some pe ≠ nextEl then upd s pe (fun n => { n with nextElement := nextEl })
      else s
  | none => s

/-- `extract`, document-chain repair, second half (lines 260-261):
`if next_element is not None and next_element is not self.previous_element:
next_element.previous_element = self.previous_element`. -/
def extGuard2 (s : Store) (selfId : Nat) (nextEl : Option Nat) : Store :=
  match nextEl with
  | some ne =>
      if some ne ≠ (s selfId).previousElement then
        upd s ne (fun n => { n with previousElement := (s selfId).previousElement })
      else s
  | none => s

/-- `extract`, sibling-chain repair, first half (lines 266-270). -/
def extGuard3 (s : Store) (selfId : Nat) : Store :=
  match (s selfId).previousSibling with
  | some ps =>
      if some ps ≠ (s selfId).nextSibling then
        upd s ps (fun n => { n with nextSibling := (s selfId).nextSibling })
      else s
  | none => s

/-- `extract`, sibling-chain repair, second half (lines 271-275). -/
def extGuard4 (s : Store) (selfId : Nat) : Store :=
  match (s selfId).nextSibling with
  | some ns =>
      if some ns ≠ (s selfId).previousSibling then
        upd s ns (fun n => { n with previousSibling := (s selfId).previousSibling })
      else s
  | none => s

/-- `BasePageElement.extract` (page_element.py lines 235-277).  `none`
models the `ValueError` of `Tag.index` (element not in its parent's
contents) and the unreachable `None._last_descendant` access. -/
def extract (fuel : Nat) (s : Store) (selfId : Nat) : Option Store :=
  let step1 : Option Store :=
    match (s selfId).parent with
    | none => some s
    | some p =>
        match (s p).contents.findIdx? (· = selfId) with
        | none => none
        | some i => some (upd s p fun n => { n with contents := n.contents.eraseIdx i })
  match step1 with
  | none => none
  | some s =>
    match lastDescendant s fuel true true selfId with
    | none => none
    | some lastChild =>
      let nextEl := (s lastChild).nextElement
      let s := extGuard1 s selfId nextEl
      let s := extGuard2 s selfId nextEl
      let s := upd s selfId (fun n => { n with previousElement := none })
      let s := upd s lastChild (fun n => { n with nextElement := none })
      let s := upd s selfId (fun n => { n with parent := none })
      let s := extGuard3 s selfId
      let s := extGuard4 s selfId
      some (upd s selfId (fun n => { n with previousSibling := none, nextSibling := none }))

/-- An argument to `insert`: an existing node, or a bare Python string
(which `insert` converts to a `NavigableString` before linking). -/
inductive InsArg where
  | snode : Nat → InsArg
  | sstr : String → InsArg
deriving DecidableEq, Repr

/-- The `ValueError`s `insert` can raise: a `None` child, the tag itself as
child, and `Tag.index` failure during the already-parented adjustment. -/
inductive InsErr where
  | noneChild : InsErr
  | selfChild : InsErr
  | indexErr : InsErr
deriving DecidableEq, Repr

/-- `insert`, line 338: `new_child.parent = self`. -/
def insLink1 (s : Store) (selfId newChild : Nat) : Store :=
  upd s newChild (fun n => { n with parent := some selfId })

/-- `insert`, lines 339-349: link `previous_sibling`/`previous_element`
of the new child (and `next_sibling` of the child before it). -/
def insLink2 (fuel : Nat) (s : Store) (selfId position newChild : Nat) : Store :=
  if position = 0 then
    upd s newChild
      (fun n => { n with previousSibling := none,
                         previousElement := some selfId })
  else
    let previousChild := (s selfId).contents.getD (position - 1) 0
    let s := upd s newChild
      (fun n => { n with previousSibling := some previousChild })
    let s := upd s previousChild
      (fun n => { n with nextSibling := some newChild })
    upd s newChild (fun n =>
      { n with previousElement :=
          lastDescendant s fuel false true previousChild })

/-- `insert`, lines 348-349: `if new_child.previous_element is not None:
new_child.previous_element.next_element = new_child`. -/
def insLink3 (s : Store) (newChild : Nat) : Store :=
  match (s newChild).previousElement with
  | some pe => upd s pe (fun n => { n with nextElement := some newChild })
  | none => s

/-- `insert`, lines 353-375: link `next_sibling` of the new child and
`next_element` of its last descendant (the append case walks the ancestor
chain for the node that follows in the document). -/
def insLink4 (fuel : Nat) (s : Store) (selfId position newChild tail : Nat) :
    Store :=
  if position ≥ (s selfId).contents.length then
    let s := upd s newChild (fun n => { n with nextSibling := none })
    let pns := ancestorNextSibling s fuel (some selfId)
    upd s tail (fun n => { n with nextElement := pns })
  else
    let nextChild := (s selfId).contents.getD position 0
    let s := upd s newChild (fun n => { n with nextSibling := some nextChild })
    let s := upd s nextChild
      (fun n => { n with previousSibling := some newChild })
    upd s tail (fun n => { n with nextElement := some nextChild })

/-- `insert`, lines 377-380: fix `previous_element` of the node after the
new child's last descendant. -/
def insLink5 (s : Store) (tail : Nat) : Store :=
  match (s tail).nextElement with
  | some ne => upd s ne (fun n => { n with previousElement := some tail })
  | none => s

/-- `insert`, line 381: `self.contents.insert(position, new_child)`. -/
def insLink6 (s : Store) (selfId position newChild : Nat) : Store :=
  upd s selfId (fun n =>
    { n with contents := n.contents.insertIdx position newChild })

/-- `BasePageElement.insert` (page_element.py lines 296-381), assembled
from the stages above in source order.  `fresh` is the id allocated when a
bare string is converted to a `NavigableString`.
The `isinstance(new_child, Bisque)` branch cannot fire: no node of the
model is a document-inside-a-document.  `position` is the supplied
(nonnegative) index; after `min` and the same-parent adjustment it is at
most the length of `contents`, so `List.insertIdx` agrees with Python's
`list.insert`. -/
def insert (fuel : Nat) (s : Store) (selfId : Nat) (position : Nat)
    (arg : Option InsArg) (fresh : Nat) : Except InsErr Store :=
  match arg with
  | none => .error .noneChild
  | some a =>
      let bad : Bool := match a with | .snode c => c = selfId | .sstr _ => false
      if bad then .error .selfChild
      else
        let s := match a with
          | .snode _ => s
          | .sstr v => upd s fresh (fun _ => { kind := Kind.textK, value := v })
        let newChild := match a with | .snode c => c | .sstr _ => fresh
        let position := min position (s selfId).contents.length
        let step : Except InsErr (Store × Nat) :=
          match (s newChild).parent with
          | none => .ok (s, position)
          | some par =>
              let posE : Except InsErr Nat :=
                if par = selfId then
                  match (s selfId).contents.findIdx? (· = newChild) with
                  | some ci => .ok (if ci < position then position - 1 else position)
                  | none => .error .indexErr
                else .ok position
              match posE with
              | .error e => .error e
              | .ok pos2 =>
                  match extract fuel s newChild with
                  | none => .error .indexErr
                  | some s2 => .ok (s2, pos2)
        match step with
        | .error e => .error e
        | .ok (s, position) =>
            let s := insLink1 s selfId newChild
            let s := insLink2 fuel s selfId position newChild
            let s := insLink3 s newChild
            let tail := (lastDescendant s fuel false true newChild).getD newChild
            let s := insLink4 fuel s selfId position newChild tail
            let s := insLink5 s tail
            .ok (insLink6 s selfId position newChild)

/-- `BasePageElement.append` (page_element.py lines 383-388): insert at the
end of `contents`. -/
def appendNode (fuel : Nat) (s : Store) (selfId : Nat) (arg : Option InsArg)
    (fresh : Nat) : Except InsErr Store :=
  insert fuel s selfId (s selfId).contents.length arg fresh

/-- The `ValueError`s of `replace_with`: unattached node, a replacement that
is the parent, index failure, or a failure inside the nested `insert`. -/
inductive RwErr where
  | noParent : RwErr
  | parentReplacement : RwErr
  | indexErr : RwErr
  | insErr : InsErr → RwErr
deriving DecidableEq, Repr

/-- The `for idx, replace_with in enumerate(args, start=my_index)` loop of
`replace_with`: insert each replacement at consecutive positions. -/
def insertSeq (fuel : Nat) (s : Store) (par : Nat) (start : Nat) :
    List Nat → Except InsErr Store
  | [] => .ok s
  | a :: rest =>
      match insert fuel s par start (some (.snode a)) 0 with
      | .error e => .error e
      | .ok s2 => insertSeq fuel s2 par (start + 1) rest

/-- `BasePageElement.replace_with` (page_element.py lines 182-203). -/
def replaceWith (fuel : Nat) (s : Store) (selfId : Nat) (args : List Nat) :
    Except RwErr Store :=
  match (s selfId).parent with
  | none => .error .noParent
  | some oldParent =>
      if args = [selfId] then .ok s
      else if args.any (fun x => some x = (s selfId).parent) then
        .error .parentReplacement
      else
        match (s oldParent).contents.findIdx? (· = selfId) with
        | none => .error .indexErr
        | some myIndex =>
            match extract fuel s selfId with
            | none => .error .indexErr
            | some s2 =>
                match insertSeq fuel s2 oldParent myIndex args with
                | .error e => .error (.insErr e)
                | .ok s3 => .ok s3

/-- One iteration of the `decompose` loop (tag.py lines 355-366) on a node
record.  For a `Tag`, `clear()` is `BaseTag.clear`, which extracts the
members of the (just-emptied) `contents` list — a no-op — so only
`contents` and `decomposed` change.  For a `NavigableString`, `clear()` is
`self.__dict__.clear()`, wiping every field, after which the
`isinstance(i, Entity)` branch re-sets `contents` and `decomposed`. -/
def decomposeStep (nd : Node) : Node :=
  match nd.kind with
  | Kind.tagK => { nd with contents := [], decomposed := true }
  | Kind.textK => { kind := Kind.textK, contents := [], decomposed := true }

/-- The `while i is not None:` loop of `decompose`: capture `next_element`,
then clear the node, then continue along the captured chain. -/
def decomposeLoop (s : Store) : Nat → Option Nat → Store
  | _, none => s
  | 0, some _ => s
  | fuel + 1, some i =>
      let nxt := (s i).nextElement
      decomposeLoop (upd s i decomposeStep) fuel nxt

/-- `BaseTag.decompose` (tag.py lines 343-366): extract, then walk the
`next_element` chain clearing and marking every node. -/
def decompose (fuel : Nat) (s : Store) (selfId : Nat) : Option Store :=
  match extract fuel s selfId with
  | none => none
  | some s2 => some (decomposeLoop s2 fuel (some selfId))

/-- `BasePageElement.has_decomposed` (page_element.py lines 819-825). -/
def hasDecomposed (s : Store) (i : Nat) : Bool := (s i).decomposed

/-! ### Traversal characterizations over the canonical store -/

theorem childPositions_ge : ∀ (cs : List PTree) (q i c : Nat),
    (childPositions cs q)[i]? = some c → q ≤ c := by
  intro cs q i c h
  have hilt : i < cs.length := by
    by_contra hge
    rw [childPositions_get_none cs q i (by omega)] at h
    simp at h
  rw [childPositions_get cs q i hilt] at h
  simp at h
  omega

theorem childPositions_findIdx : ∀ (cs : List PTree) (q i c : Nat),
    (childPositions cs q)[i]? = some c →
    (childPositions cs q).findIdx? (· = c) = some i
  | [], q, i, c, h => by simp [childPositions] at h
  | e :: cs, q, 0, c, h => by
      simp [childPositions] at h
      simp [childPositions, List.findIdx?_cons, h]
  | e :: cs, q, i + 1, c, h => by
      simp only [childPositions, List.getElem?_cons_succ] at h
      have hge := childPositions_ge cs (q + size e) i c h
      have hqc : ¬(q = c) := by have := size_pos e; omega
      have ih := childPositions_findIdx cs (q + size e) i c h
      simp [childPositions, List.findIdx?_cons, hqc, ih]

/-- `s` agrees with the canonical store of `t` on the fields read by the
last-descendant walk (`kind` and `contents`) over the range `[lo, hi)`. -/
def AgreeKC (s : Store) (t : PTree) (lo hi : Nat) : Prop :=
  ∀ x, lo ≤ x → x < hi →
    (s x).kind = (storeOf t x).kind ∧ (s x).contents = (storeOf t x).contents

theorem agreeKC_mono {s : Store} {t : PTree} {lo hi lo' hi' : Nat}
    (h : AgreeKC s t lo hi) (h1 : lo ≤ lo') (h2 : hi' ≤ hi) :
    AgreeKC s t lo' hi' := by
  intro x hx1 hx2
  exact h x (by omega) (by omega)

theorem agreeKC_refl (t : PTree) (lo hi : Nat) : AgreeKC (storeOf t) t lo hi := by
  intro x _ _
  exact ⟨rfl, rfl⟩

/-- The last-descendant walk from a located subtree root ends on the last
node of the subtree slice, position `p + size u - 1`. -/
theorem lastDescLoop_at : ∀ (fuel : Nat) {t : PTree} {d p : Nat}
    {par ps ns : Option Nat} {u : PTree} (s : Store),
    At t d p par ps ns u → size u ≤ fuel → AgreeKC s t p (p + size u) →
    lastDescendantLoop s fuel p = p + size u - 1
  | 0, t, d, p, par, ps, ns, u, s, h, hf, _ => by
      have := size_pos u
      omega
  | fuel + 1, t, d, p, par, ps, ns, u, s, h, hf, hkc => by
      have hself := hkc p (le_refl p) (by have := size_pos u; omega)
      cases u with
      | textN v =>
          rw [lastDescendantLoop]
          rw [if_neg]
          · simp [size]
          · rw [hself.1, h.kind_eq]
            simp
      | tagN nm a cs0 =>
        cases cs0 with
        | nil =>
          rw [lastDescendantLoop]
          rw [if_neg]
          · simp [size, sizeL]
          · rw [hself.2, h.contents_eq]
            simp [childPositions]
        | cons c0 cs' =>
          have hkind : (s p).kind = Kind.tagK := by rw [hself.1, h.kind_eq]
          have hcont : (s p).contents = childPositions (c0 :: cs') (p + 1) := by
            rw [hself.2, h.contents_eq]
          rw [lastDescendantLoop, if_pos]
          swap
          · constructor
            · exact hkind
            · rw [hcont]; simp [childPositions]
          · set cs := c0 :: cs' with hcs
            have hn : cs.length = cs'.length + 1 := by simp [hcs]
            have hlt : cs.length - 1 < cs.length := by omega
            obtain ⟨ulast, hulast⟩ : ∃ x, cs[cs.length - 1]? = some x := by
              rw [List.getElem?_eq_getElem hlt]
              exact ⟨_, rfl⟩
            have hcpl := childPositions_get cs (p + 1) (cs.length - 1)
              (by omega)
            have hL := At.child h hulast hcpl
            have htake : cs.take cs.length = cs := by simp
            have hsucc := sizeL_take_succ cs (cs.length - 1) ulast hulast
            have hind : cs.length - 1 + 1 = cs.length := by omega
            rw [hind, htake] at hsucc
            have hgl : (s p).contents.getLast?.getD 0 =
                p + 1 + sizeL (cs.take (cs.length - 1)) := by
              rw [hcont]
              rw [List.getLast?_eq_getElem?]
              rw [childPositions_length]
              have : cs.length - 1 < cs.length := by omega
              rw [childPositions_get cs (p + 1) (cs.length - 1) this]
              rfl
            rw [hgl]
            have hszu : size (PTree.tagN nm a cs) = 1 + sizeL cs := by simp [size]
            have hfu : size ulast ≤ fuel := by
              have h1 := sizeL_take_add_size_le cs (cs.length - 1) ulast hulast
              omega
            have hend : p + 1 + sizeL (cs.take (cs.length - 1)) + size ulast =
                p + size (PTree.tagN nm a cs) := by omega
            have := lastDescLoop_at fuel s hL hfu
              (agreeKC_mono hkc (by omega) (by omega))
            rw [this]
            omega

/-- A located node with a next sibling: the sibling sits right after the
subtree slice, and is itself a valid position. -/
theorem At.nextSib_pos {t : PTree} {d p : Nat} {par ps ns : Option Nat}
    {u : PTree} (h : At t d p par ps ns u) : ∀ nsp, ns = some nsp →
    nsp = p + size u ∧ nsp < size t := by
  induction h with
  | root => intro nsp hns; simp at hns
  | @child d' p' par' ps' ns' nm a cs i c u' hpar hcs hcp ih =>
      intro nsp hns
      have hilt : i < cs.length := by
        by_contra hge
        rw [List.getElem?_eq_none (by omega)] at hcs
        simp at hcs
      have hlen : i + 1 < cs.length := by
        by_contra hge
        rw [childPositions_get_none cs (p' + 1) (i + 1) (by omega)] at hns
        simp at hns
      obtain ⟨u2, hu2⟩ : ∃ x, cs[i + 1]? = some x := by
        rw [List.getElem?_eq_getElem hlen]
        exact ⟨_, rfl⟩
      have hA2 := At.child hpar hu2 hns
      have hc : c = p' + 1 + sizeL (cs.take i) := by
        rw [childPositions_get cs (p' + 1) i hilt] at hcp
        simp at hcp
        omega
      have hnspv : nsp = p' + 1 + sizeL (cs.take (i + 1)) := by
        rw [childPositions_get cs (p' + 1) (i + 1) hlen] at hns
        simp at hns
        omega
      have hsucc := sizeL_take_succ cs i u' hcs
      exact ⟨by omega, hA2.pos_lt⟩

/-- `_last_descendant` with `accept_self` (the only form the mutators use)
on a located subtree returns the last position of its slice, on any store
agreeing with the canonical one on the fields the walk reads. -/
theorem lastDescendant_at {t : PTree} {d p : Nat} {par ps ns : Option Nat}
    {u : PTree} (s : Store) (fuel : Nat) (b : Bool)
    (h : At t d p par ps ns u) (hf : size u ≤ fuel)
    (hkc : AgreeKC s t p (p + size u))
    (hns0 : (s p).nextSibling = ns)
    (hpe : ∀ nsp, ns = some nsp →
      (s nsp).previousElement = (storeOf t nsp).previousElement) :
    lastDescendant s fuel b true p = some (p + size u - 1) := by
  unfold lastDescendant
  by_cases hcond : b = true ∧ (s p).nextSibling ≠ none
  · rw [if_pos hcond]
    obtain ⟨nsp, hnsp⟩ : ∃ nsp, ns = some nsp := by
      cases hv : ns with
      | none => rw [hns0, hv] at hcond; simp at hcond
      | some x => exact ⟨x, rfl⟩
    obtain ⟨hv, hlt⟩ := h.nextSib_pos nsp hnsp
    have hfin : (s nsp).previousElement = some (p + size u - 1) := by
      rw [hpe nsp hnsp, storeOf_prevEl t nsp hlt, prevOf,
        if_neg (show ¬nsp = 0 by have := size_pos u; omega)]
      congr 1
      omega
    simp only [hns0, hnsp, hfin]
    simp
  · rw [if_neg hcond]
    rw [lastDescLoop_at fuel s h hf hkc]
    simp

/-- The ancestor walk of `insert` from a located node returns the next
position after the node's subtree slice — the next node of the document in
pre-order — or `None` when the subtree is a suffix of the document.  `s`
must agree with the canonical store on the `next_sibling`/`parent` fields
of positions up to `p` (the walk only visits `p` and its ancestors, all of
which precede `p` in pre-order). -/
theorem ancestorNextSib_at {t : PTree} {d p : Nat} {par ps ns : Option Nat}
    {u : PTree} (h : At t d p par ps ns u) :
    ∀ (fuel : Nat) (s : Store), d < fuel →
    (∀ x, x ≤ p → (s x).nextSibling = (storeOf t x).nextSibling ∧
        (s x).parent = (storeOf t x).parent) →
    ancestorNextSibling s fuel (some p) =
      (if p + size u = size t then none else some (p + size u)) := by
  induction h with
  | root =>
      intro fuel s hfuel hagree
      obtain ⟨f, rfl⟩ : ∃ f, fuel = f + 1 := ⟨fuel - 1, by omega⟩
      rw [ancestorNextSibling]
      have h0 := hagree 0 (Nat.le_refl 0)
      rw [h0.1, (At.root (t := t)).nextSib_eq, h0.2, (At.root (t := t)).parent_eq]
      rw [if_pos (by omega)]
      cases f <;> rfl
  | @child d' p' par' ps' ns' nm a cs i c u' hpar hcs hcp ih =>
      intro fuel s hfuel hagree
      obtain ⟨f, rfl⟩ : ∃ f, fuel = f + 1 := ⟨fuel - 1, by omega⟩
      have hAc := At.child hpar hcs hcp
      have hilt : i < cs.length := by
        by_contra hge
        rw [List.getElem?_eq_none (by omega)] at hcs
        simp at hcs
      have hc : c = p' + 1 + sizeL (cs.take i) := by
        rw [childPositions_get cs (p' + 1) i hilt] at hcp
        simp at hcp
        omega
      rw [ancestorNextSibling]
      have hcc := hagree c (Nat.le_refl c)
      rw [hcc.1, hAc.nextSib_eq, hcc.2, hAc.parent_eq]
      cases hnsv : (childPositions cs (p' + 1))[i + 1]? with
      | some nsp =>
          obtain ⟨hv, hlt⟩ := hAc.nextSib_pos nsp hnsv
          rw [if_neg (by omega)]
          exact congrArg some hv
      | none =>
          have hgeL : cs.length ≤ i + 1 := by
            by_contra hge
            rw [childPositions_get cs (p' + 1) (i + 1) (by omega)] at hnsv
            simp at hnsv
          have hieq : i + 1 = cs.length := by omega
          have hsucc := sizeL_take_succ cs i u' hcs
          have htake : cs.take (i + 1) = cs := by
            rw [hieq]; simp
          rw [htake] at hsucc
          have hanc := ih f s (by omega)
            (fun x hx => hagree x (by omega))
          rw [hanc]
          have hsz : c + size u' = p' + size (PTree.tagN nm a cs) := by
            simp [size]; omega
          rw [hsz]

/-- The document-chain loop stops immediately when the current node is the
stop node. -/
theorem chainUntil_self (s : Store) (fuel : Nat) (stop : Option Nat)
    (hf : 0 < fuel) : chainUntil s fuel stop stop = some [] := by
  obtain ⟨f, rfl⟩ : ∃ f, fuel = f + 1 := ⟨fuel - 1, by omega⟩
  rw [chainUntil.eq_def]
  simp

/-- Following `next_element` over a block of consecutive positions
`[a, a + k)` on a store whose chain is `x ↦ x + 1` (with `None` at `N`),
stopping at the value that the chain takes after the block, yields exactly
`range' a k`. -/
theorem chainUntil_range : ∀ (k : Nat) (s : Store) (a N : Nat)
    (stopv : Option Nat) (fuel : Nat), 1 ≤ k → a + k ≤ N → k < fuel →
    (∀ x, a ≤ x → x < a + k →
      (s x).nextElement = if x + 1 = N then none else some (x + 1)) →
    stopv = (if a + k = N then none else some (a + k)) →
    chainUntil s fuel (some a) stopv = some (List.range' a k)
  | 0, _, _, _, _, _, h1, _, _, _, _ => by omega
  | 1, s, a, N, stopv, fuel, h1, h2, h3, hnext, hstop => by
      obtain ⟨f, rfl⟩ : ∃ f, fuel = f + 1 := ⟨fuel - 1, by omega⟩
      obtain ⟨f2, rfl⟩ : ∃ f2, f = f2 + 1 := ⟨f - 1, by omega⟩
      rw [chainUntil]
      have hne : ¬((some a : Option Nat) = stopv) := by
        rw [hstop]
        split
        · simp
        · intro hcon
          simp at hcon
      rw [if_neg hne]
      show (chainUntil s (f2 + 1) (s a).nextElement stopv).map (a :: ·) =
        some (List.range' a 1)
      have hna := hnext a (Nat.le_refl a) (by omega)
      rw [hna, ← hstop, chainUntil_self s (f2 + 1) stopv (by omega)]
      rfl
  | k + 2, s, a, N, stopv, fuel, h1, h2, h3, hnext, hstop => by
      obtain ⟨f, rfl⟩ : ∃ f, fuel = f + 1 := ⟨fuel - 1, by omega⟩
      rw [chainUntil]
      have hne : ¬((some a : Option Nat) = stopv) := by
        rw [hstop]
        split
        · simp
        · intro hcon
          simp at hcon
      rw [if_neg hne]
      show (chainUntil s f (s a).nextElement stopv).map (a :: ·) =
        some (List.range' a (k + 2))
      have hna := hnext a (Nat.le_refl a) (by omega)
      rw [hna, if_neg (by omega)]
      have ih := chainUntil_range (k + 1) s (a + 1) N stopv f (by omega)
        (by omega) (by omega)
        (fun x hx1 hx2 => hnext x (by omega) (by omega))
        (by rw [hstop]; congr 2 <;> omega)
      rw [ih]
      simp [List.range'_succ]

/-! ### Pre-order labels: what `descendants` must enumerate -/

/-- The observable payload of a node: its kind, name, attributes and string
value — everything except the navigational pointers. -/
def nodeLabel (n : Node) : Kind × String × List (String × String) × String :=
  (n.kind, n.name, n.attrs, n.value)

mutual
/-- The labels of a subtree in pre-order (root first). -/
def preorderLabels : PTree → List (Kind × String × List (String × String) × String)
  | .textN v => [(Kind.textK, "", [], v)]
  | .tagN nm a cs => (Kind.tagK, nm, a, "") :: preorderLabelsL cs
/-- The labels of a forest in pre-order. -/
def preorderLabelsL : List PTree → List (Kind × String × List (String × String) × String)
  | [] => []
  | c :: cs => preorderLabels c ++ preorderLabelsL cs
end

mutual
theorem preorderLabels_length : ∀ u : PTree, (preorderLabels u).length = size u
  | .textN v => by simp [preorderLabels, size]
  | .tagN nm a cs => by
      simp [preorderLabels, size, preorderLabelsL_length cs, Nat.add_comm]
theorem preorderLabelsL_length : ∀ cs : List PTree,
    (preorderLabelsL cs).length = sizeL cs
  | [] => by simp [preorderLabelsL, sizeL]
  | c :: cs => by
      simp [preorderLabelsL, sizeL, preorderLabels_length c,
        preorderLabelsL_length cs]
end

mutual
/-- Each record of a laid-out subtree carries the pre-order label of the
corresponding tree node. -/
theorem layout_label : ∀ (u : PTree) (p : Nat) (par ps ns : Option Nat)
    (q : Nat), q < size u →
    ((layout u p par ps ns)[q]?).map nodeLabel = (preorderLabels u)[q]?
  | .textN v, p, par, ps, ns, q, hq => by
      have hq0 : q = 0 := by simp [size] at hq; omega
      subst hq0
      simp [layout_text, preorderLabels, rootRec, nodeLabel]
  | .tagN nm a cs, p, par, ps, ns, q, hq => by
      match q with
      | 0 => simp [layout_tag, preorderLabels, rootRec, nodeLabel]
      | q + 1 =>
          have hq' : q < sizeL cs := by simp [size] at hq; omega
          rw [layout_tag, List.getElem?_cons_succ]
          rw [show preorderLabels (.tagN nm a cs) =
            (Kind.tagK, nm, a, "") :: preorderLabelsL cs from by
              simp [preorderLabels]]
          rw [List.getElem?_cons_succ]
          exact layoutL_label cs (p + 1) p none q hq'
theorem layoutL_label : ∀ (cs : List PTree) (P par : Nat) (ps : Option Nat)
    (q : Nat), q < sizeL cs →
    ((layoutL cs P par ps)[q]?).map nodeLabel = (preorderLabelsL cs)[q]?
  | [], _, _, _, q, hq => by simp [sizeL] at hq
  | c :: cs, P, par, ps, q, hq => by
      rw [layoutL_cons]
      rw [show preorderLabelsL (c :: cs) =
        preorderLabels c ++ preorderLabelsL cs from by simp [preorderLabelsL]]
      by_cases hlt : q < size c
      · rw [List.getElem?_append_left (by rw [layout_length]; exact hlt)]
        rw [List.getElem?_append_left (by rw [preorderLabels_length]; exact hlt)]
        exact layout_label c P (some par) ps _ q hlt
      · have hq2 : q - size c < sizeL cs := by simp [sizeL] at hq; omega
        rw [List.getElem?_append_right (by rw [layout_length]; omega)]
        rw [List.getElem?_append_right (by rw [preorderLabels_length]; omega)]
        rw [layout_length, preorderLabels_length]
        exact layoutL_label cs (P + size c) par (some P) _ hq2
end

/-- The canonical store's label at offset `q` inside a located subtree is
the subtree's `q`-th pre-order label. -/
theorem At.label {t : PTree} {d p : Nat} {par ps ns : Option Nat} {u : PTree}
    (h : At t d p par ps ns u) (q : Nat) (hq : q < size u) :
    (preorderLabels u)[q]? = some (nodeLabel (storeOf t (p + q))) := by
  have hs := h.slice q hq
  have hl := layout_label u p par ps ns q hq
  rw [← hs] at hl
  have hplt : p + q < size t := by
    have := h.size_le
    omega
  obtain ⟨nd, hnd, _, _⟩ := glist_prevNext t (p + q) hplt
  rw [hnd] at hl
  rw [← hl]
  have : storeOf t (p + q) =
      (if p + q + 1 = size t then { nd with nextElement := none } else nd) := by
    rw [storeOf_def, List.getD_eq_getElem?_getD, hnd]
    split <;> rfl
  rw [this]
  split <;> simp [nodeLabel]

/-- C2: for every element with at least one child, `descendants` yields
exactly the nodes of its subtree — the document slice `(p, p + size)` —
in pre-order (their labels are the subtree's pre-order labels) and nothing
else; with empty `contents` the iteration is empty.  The iteration is
realized exactly as the source writes it: `stop` is
`self._last_descendant().next_element` and the walk follows `next_element`
from `contents[0]` until `stop`, exclusive (see `descendants`). -/
theorem c2_descendants_preorder {t : PTree} {d p : Nat} {par ps ns : Option Nat}
    {nm : String} {a : List (String × String)} {cs : List PTree} {fuel : Nat}
    (h : At t d p par ps ns (.tagN nm a cs)) (hfuel : size t < fuel) :
    (cs = [] → descendants (storeOf t) fuel p = some [])
    ∧ (cs ≠ [] →
        descendants (storeOf t) fuel p = some (List.range' (p + 1) (sizeL cs))
        ∧ (List.range' (p + 1) (sizeL cs)).map (fun j => nodeLabel (storeOf t j))
            = preorderLabelsL cs) := by
  have hsz : size (PTree.tagN nm a cs) = 1 + sizeL cs := by simp [size]
  have hle := h.size_le
  constructor
  · intro hnil
    subst hnil
    unfold descendants
    rw [if_pos]
    rw [h.contents_eq]
    simp [childPositions]
  · intro hne
    have hszL : 1 ≤ sizeL cs := by
      cases cs with
      | nil => exact absurd rfl hne
      | cons c0 cs' => have := size_pos c0; simp [sizeL]; omega
    have hld := lastDescendant_at (storeOf t) fuel true h (by omega)
      (agreeKC_refl t _ _) h.nextSib_eq (fun nsp _ => rfl)
    have hstop : (storeOf t (p + size (PTree.tagN nm a cs) - 1)).nextElement =
        (if p + 1 + sizeL cs = size t then none else some (p + 1 + sizeL cs)) := by
      rw [storeOf_nextEl t _ (by omega)]
      have hx : p + size (PTree.tagN nm a cs) - 1 + 1 = p + 1 + sizeL cs := by
        omega
      rw [hx]
    have hhead : (storeOf t p).contents.headD 0 = p + 1 := by
      rw [h.contents_eq]
      cases cs with
      | nil => exact absurd rfl hne
      | cons c0 cs' => simp [childPositions]
    have hclen : (storeOf t p).contents.length ≠ 0 := by
      rw [h.contents_eq, childPositions_length]
      cases cs with
      | nil => exact absurd rfl hne
      | cons c0 cs' => simp
    have hchain := chainUntil_range (sizeL cs) (storeOf t) (p + 1) (size t)
      (if p + 1 + sizeL cs = size t then none else some (p + 1 + sizeL cs))
      fuel hszL (by omega) (by omega)
      (fun x hx1 hx2 => by
        rw [storeOf_nextEl t x (by omega)])
      rfl
    constructor
    · unfold descendants
      rw [if_neg hclen, hld]
      show chainUntil (storeOf t) fuel (some ((storeOf t p).contents.headD 0))
        (storeOf t (p + size (PTree.tagN nm a cs) - 1)).nextElement =
        some (List.range' (p + 1) (sizeL cs))
      rw [hstop, hhead]
      exact hchain
    · apply List.ext_getElem?
      intro n
      by_cases hn : n < sizeL cs
      · have hr : (List.range' (p + 1) (sizeL cs))[n]? = some (p + 1 + n) := by
          simp [List.getElem?_range', hn]
        rw [List.getElem?_map, hr]
        have hlab := h.label (n + 1) (by omega)
        have hcons : (preorderLabels (PTree.tagN nm a cs))[n + 1]? =
            (preorderLabelsL cs)[n]? := by
          rw [show preorderLabels (PTree.tagN nm a cs) =
            (Kind.tagK, nm, a, "") :: preorderLabelsL cs from by
              simp [preorderLabels]]
          rw [List.getElem?_cons_succ]
        rw [hcons] at hlab
        have hpn : p + (n + 1) = p + 1 + n := by omega
        rw [hpn] at hlab
        rw [hlab]
        rfl
      · rw [List.getElem?_map]
        rw [List.getElem?_eq_none (by simpa using by omega : (List.range' (p + 1) (sizeL cs)).length ≤ n)]
        rw [List.getElem?_eq_none (by rw [preorderLabelsL_length]; omega)]
        rfl

/-! ### Projections of `insert` and `extract` on arbitrary stores -/

/-- `s'` differs from `s` only in document-order/sibling pointer fields:
`contents`, `parent` and all payload fields agree everywhere. -/
def PEq (s s' : Store) : Prop :=
  ∀ j, (s' j).contents = (s j).contents ∧ (s' j).parent = (s j).parent
    ∧ (s' j).kind = (s j).kind ∧ (s' j).name = (s j).name
    ∧ (s' j).attrs = (s j).attrs ∧ (s' j).value = (s j).value
    ∧ (s' j).decomposed = (s j).decomposed

theorem peq_refl (s : Store) : PEq s s := fun _ =>
  ⟨rfl, rfl, rfl, rfl, rfl, rfl, rfl⟩

theorem insLink2_peq (fuel : Nat) (s : Store) (selfId position newChild : Nat) :
    PEq s (insLink2 fuel s selfId position newChild) := by
  intro j
  unfold insLink2
  split
  · by_cases h : j = newChild <;> simp [upd, h]
  · by_cases h1 : j = newChild <;>
      by_cases h2 : j = (s selfId).contents.getD (position - 1) 0 <;>
      simp [upd, h1, h2] <;> (try (split_ifs <;> simp))

theorem insLink3_peq (s : Store) (newChild : Nat) :
    PEq s (insLink3 s newChild) := by
  unfold insLink3
  cases hv : (s newChild).previousElement with
  | none => exact peq_refl s
  | some pe =>
      intro j
      by_cases h : j = pe <;> simp [upd, h]

theorem insLink4_peq (fuel : Nat) (s : Store) (selfId position newChild tail : Nat) :
    PEq s (insLink4 fuel s selfId position newChild tail) := by
  intro j
  unfold insLink4
  split
  · by_cases h1 : j = newChild <;> by_cases h2 : j = tail <;>
      simp [upd, h1, h2] <;> (try (split_ifs <;> simp))
  · by_cases h1 : j = newChild <;>
      by_cases h2 : j = (s selfId).contents.getD position 0 <;>
      by_cases h3 : j = tail <;> simp [upd, h1, h2, h3] <;>
      (try (split_ifs <;> simp))

theorem insLink5_peq (s : Store) (tail : Nat) : PEq s (insLink5 s tail) := by
  unfold insLink5
  cases hv : (s tail).nextElement with
  | none => exact peq_refl s
  | some ne =>
      intro j
      by_cases h : j = ne <;> simp [upd, h]

theorem extGuard1_peq (s : Store) (selfId : Nat) (nextEl : Option Nat) :
    PEq s (extGuard1 s selfId nextEl) := by
  unfold extGuard1
  cases hv : (s selfId).previousElement with
  | none => exact peq_refl s
  | some pe =>
      by_cases hc : (some pe : Option Nat) ≠ nextEl
      · simp only [if_pos hc]
        intro j
        by_cases h : j = pe <;> simp [upd, h]
      · simp only [if_neg hc]
        exact peq_refl s

theorem extGuard2_peq (s : Store) (selfId : Nat) (nextEl : Option Nat) :
    PEq s (extGuard2 s selfId nextEl) := by
  unfold extGuard2
  cases hv : nextEl with
  | none => exact peq_refl s
  | some ne =>
      by_cases hc : (some ne : Option Nat) ≠ (s selfId).previousElement
      · simp only [if_pos hc]
        intro j
        by_cases h : j = ne <;> simp [upd, h]
      · simp only [if_neg hc]
        exact peq_refl s

theorem extGuard3_peq (s : Store) (selfId : Nat) :
    PEq s (extGuard3 s selfId) := by
  unfold extGuard3
  cases hv : (s selfId).previousSibling with
  | none => exact peq_refl s
  | some ps =>
      by_cases hc : (some ps : Option Nat) ≠ (s selfId).nextSibling
      · simp only [if_pos hc]
        intro j
        by_cases h : j = ps <;> simp [upd, h]
      · simp only [if_neg hc]
        exact peq_refl s

theorem extGuard4_peq (s : Store) (selfId : Nat) :
    PEq s (extGuard4 s selfId) := by
  unfold extGuard4
  cases hv : (s selfId).nextSibling with
  | none => exact peq_refl s
  | some ns =>
      by_cases hc : (some ns : Option Nat) ≠ (s selfId).previousSibling
      · simp only [if_pos hc]
        intro j
        by_cases h : j = ns <;> simp [upd, h]
      · simp only [if_neg hc]
        exact peq_refl s

theorem insLink1_proj (s : Store) (selfId newChild : Nat) : ∀ j,
    ((insLink1 s selfId newChild) j).parent =
      (if j = newChild then some selfId else (s j).parent)
    ∧ ((insLink1 s selfId newChild) j).contents = (s j).contents
    ∧ ((insLink1 s selfId newChild) j).kind = (s j).kind
    ∧ ((insLink1 s selfId newChild) j).name = (s j).name
    ∧ ((insLink1 s selfId newChild) j).attrs = (s j).attrs
    ∧ ((insLink1 s selfId newChild) j).value = (s j).value
    ∧ ((insLink1 s selfId newChild) j).decomposed = (s j).decomposed := by
  intro j
  unfold insLink1
  by_cases h : j = newChild <;> simp [upd, h]

theorem insLink6_proj (s : Store) (selfId position newChild : Nat) : ∀ j,
    ((insLink6 s selfId position newChild) j).contents =
      (if j = selfId then (s j).contents.insertIdx position newChild
       else (s j).contents)
    ∧ ((insLink6 s selfId position newChild) j).parent = (s j).parent
    ∧ ((insLink6 s selfId position newChild) j).kind = (s j).kind
    ∧ ((insLink6 s selfId position newChild) j).name = (s j).name
    ∧ ((insLink6 s selfId position newChild) j).attrs = (s j).attrs
    ∧ ((insLink6 s selfId position newChild) j).value = (s j).value
    ∧ ((insLink6 s selfId position newChild) j).decomposed = (s j).decomposed := by
  intro j
  unfold insLink6
  by_cases h : j = selfId <;> simp [upd, h]

/-- Inserting a detached node succeeds, splices it into the parent's
`contents` at the clamped position `min position len`, sets its `parent`,
and touches no other node's `contents`, `parent` or payload fields. -/
theorem insert_detached_proj (fuel : Nat) (s : Store)
    (selfId pos newChild fresh : Nat)
    (hpar : (s newChild).parent = none) (hself : newChild ≠ selfId) :
    ∃ s', insert fuel s selfId pos (some (.snode newChild)) fresh = .ok s'
      ∧ (s' selfId).contents =
          (s selfId).contents.insertIdx (min pos (s selfId).contents.length)
            newChild
      ∧ (∀ j, j ≠ selfId → (s' j).contents = (s j).contents)
      ∧ (∀ j, (s' j).parent =
          (if j = newChild then some selfId else (s j).parent))
      ∧ (∀ j, (s' j).kind = (s j).kind ∧ (s' j).name = (s j).name
          ∧ (s' j).attrs = (s j).attrs ∧ (s' j).value = (s j).value) := by
  unfold insert
  simp only [hpar, hself, if_neg, ite_false, reduceCtorEq, decide_False,
    Bool.false_eq_true]
  set P := pos ⊓ (s selfId).contents.length with hP
  set s1 := insLink1 s selfId newChild with hs1
  set s2 := insLink2 fuel s1 selfId P newChild with hs2
  set s3 := insLink3 s2 newChild with hs3
  set tl := (lastDescendant s3 fuel false true newChild).getD newChild with htl
  set s4 := insLink4 fuel s3 selfId P newChild tl with hs4
  set s5 := insLink5 s4 tl with hs5
  have h1 := insLink1_proj s selfId newChild
  have h2 := insLink2_peq fuel s1 selfId P newChild
  have h3 := insLink3_peq s2 newChild
  have h4 := insLink4_peq fuel s3 selfId P newChild tl
  have h5 := insLink5_peq s4 tl
  have h6 := insLink6_proj s5 selfId P newChild
  rw [← hs2] at h2
  rw [← hs3] at h3
  rw [← hs4] at h4
  rw [← hs5] at h5
  have hcont : ∀ j, (s5 j).contents = (s j).contents := fun j => by
    rw [(h5 j).1, (h4 j).1, (h3 j).1, (h2 j).1, (h1 j).2.1]
  have hparp : ∀ j, (s5 j).parent =
      (if j = newChild then some selfId else (s j).parent) := fun j => by
    rw [(h5 j).2.1, (h4 j).2.1, (h3 j).2.1, (h2 j).2.1, (h1 j).1]
  refine ⟨insLink6 s5 selfId P newChild, rfl, ?_, ?_, ?_, ?_⟩
  · rw [(h6 selfId).1, if_pos rfl, hcont selfId]
  · intro j hj
    rw [(h6 j).1, if_neg hj, hcont j]
  · intro j
    rw [(h6 j).2.1, hparp j]
  · intro j
    refine ⟨?_, ?_, ?_, ?_⟩
    · rw [(h6 j).2.2.1, (h5 j).2.2.1, (h4 j).2.2.1, (h3 j).2.2.1, (h2 j).2.2.1,
        (h1 j).2.2.1]
    · rw [(h6 j).2.2.2.1, (h5 j).2.2.2.1, (h4 j).2.2.2.1, (h3 j).2.2.2.1,
        (h2 j).2.2.2.1, (h1 j).2.2.2.1]
    · rw [(h6 j).2.2.2.2.1, (h5 j).2.2.2.2.1, (h4 j).2.2.2.2.1,
        (h3 j).2.2.2.2.1, (h2 j).2.2.2.2.1, (h1 j).2.2.2.2.1]
    · rw [(h6 j).2.2.2.2.2.1, (h5 j).2.2.2.2.2.1, (h4 j).2.2.2.2.2.1,
        (h3 j).2.2.2.2.2.1, (h2 j).2.2.2.2.2.1, (h1 j).2.2.2.2.2.1]

/-- Extracting an attached node succeeds, removes it from its parent's
`contents`, clears its `parent`, and touches no other node's `contents`,
`parent` or payload fields. -/
theorem extract_proj (fuel : Nat) (s : Store) (selfId p i : Nat)
    (hp : (s selfId).parent = some p)
    (hidx : (s p).contents.findIdx? (· = selfId) = some i)
    (hld : lastDescendant
      (upd s p fun n => { n with contents := n.contents.eraseIdx i })
      fuel true true selfId ≠ none) :
    ∃ s', extract fuel s selfId = some s'
      ∧ (∀ j, (s' j).contents =
          (if j = p then (s p).contents.eraseIdx i else (s j).contents))
      ∧ (∀ j, (s' j).parent = (if j = selfId then none else (s j).parent))
      ∧ (∀ j, (s' j).kind = (s j).kind ∧ (s' j).name = (s j).name
          ∧ (s' j).attrs = (s j).attrs ∧ (s' j).value = (s j).value) := by
  unfold extract
  simp only [hp, hidx]
  set sA := upd s p (fun n => { n with contents := n.contents.eraseIdx i })
    with hsA
  obtain ⟨ld, hldv⟩ : ∃ ld, lastDescendant sA fuel true true selfId = some ld := by
    cases hv : lastDescendant sA fuel true true selfId with
    | none => exact absurd hv hld
    | some x => exact ⟨x, rfl⟩
  simp only [hldv]
  set nextEl := (sA ld).nextElement with hnel
  set sB := extGuard1 sA selfId nextEl with hsB
  set sC := extGuard2 sB selfId nextEl with hsC
  set sD := upd sC selfId (fun n => { n with previousElement := none }) with hsD
  set sE := upd sD ld (fun n => { n with nextElement := none }) with hsE
  set sF := upd sE selfId (fun n => { n with parent := none }) with hsF
  set sG := extGuard3 sF selfId with hsG
  set sH := extGuard4 sG selfId with hsH
  have hA : ∀ j, (sA j).contents =
      (if j = p then (s p).contents.eraseIdx i else (s j).contents) ∧
      (sA j).parent = (s j).parent ∧ (sA j).kind = (s j).kind ∧
      (sA j).name = (s j).name ∧ (sA j).attrs = (s j).attrs ∧
      (sA j).value = (s j).value := by
    intro j
    rw [hsA]
    by_cases h : j = p <;> simp [upd, h]
  have hB := extGuard1_peq sA selfId nextEl
  have hC := extGuard2_peq sB selfId nextEl
  have hD : ∀ j, (sD j).contents = (sC j).contents ∧
      (sD j).parent = (sC j).parent ∧ (sD j).kind = (sC j).kind ∧
      (sD j).name = (sC j).name ∧ (sD j).attrs = (sC j).attrs ∧
      (sD j).value = (sC j).value := by
    intro j
    rw [hsD]
    by_cases h : j = selfId <;> simp [upd, h]
  have hE : ∀ j, (sE j).contents = (sD j).contents ∧
      (sE j).parent = (sD j).parent ∧ (sE j).kind = (sD j).kind ∧
      (sE j).name = (sD j).name ∧ (sE j).attrs = (sD j).attrs ∧
      (sE j).value = (sD j).value := by
    intro j
    rw [hsE]
    by_cases h : j = ld <;> simp [upd, h]
  have hF : ∀ j, (sF j).contents = (sE j).contents ∧
      (sF j).parent = (if j = selfId then none else (sE j).parent) ∧
      (sF j).kind = (sE j).kind ∧ (sF j).name = (sE j).name ∧
      (sF j).attrs = (sE j).attrs ∧ (sF j).value = (sE j).value := by
    intro j
    rw [hsF]
    by_cases h : j = selfId <;> simp [upd, h]
  have hG := extGuard3_peq sF selfId
  have hH := extGuard4_peq sG selfId
  rw [← hsB] at hB
  rw [← hsC] at hC
  rw [← hsG] at hG
  rw [← hsH] at hH
  refine ⟨upd sH selfId (fun n =>
    { n with previousSibling := none, nextSibling := none }), rfl, ?_, ?_, ?_⟩
  · intro j
    have hfin : ((upd sH selfId (fun n =>
        { n with previousSibling := none, nextSibling := none })) j).contents =
        (sH j).contents := by
      by_cases h : j = selfId <;> simp [upd, h]
    rw [hfin, (hH j).1, (hG j).1, (hF j).1, (hE j).1, (hD j).1, (hC j).1,
      (hB j).1, (hA j).1]
  · intro j
    have hfin : ((upd sH selfId (fun n =>
        { n with previousSibling := none, nextSibling := none })) j).parent =
        (sH j).parent := by
      by_cases h : j = selfId <;> simp [upd, h]
    rw [hfin, (hH j).2.1, (hG j).2.1, (hF j).2.1]
    by_cases h : j = selfId
    · rw [if_pos h, if_pos h]
    · rw [if_neg h, if_neg h, (hE j).2.1, (hD j).2.1, (hC j).2.1, (hB j).2.1,
        (hA j).2.1]
  · intro j
    have hfin : ((upd sH selfId (fun n =>
        { n with previousSibling := none, nextSibling := none })) j).kind =
          (sH j).kind ∧
        ((upd sH selfId (fun n =>
        { n with previousSibling := none, nextSibling := none })) j).name =
          (sH j).name ∧
        ((upd sH selfId (fun n =>
        { n with previousSibling := none, nextSibling := none })) j).attrs =
          (sH j).attrs ∧
        ((upd sH selfId (fun n =>
        { n with previousSibling := none, nextSibling := none })) j).value =
          (sH j).value := by
      by_cases h : j = selfId <;> simp [upd, h]
    refine ⟨?_, ?_, ?_, ?_⟩
    · rw [hfin.1, (hH j).2.2.1, (hG j).2.2.1, (hF j).2.2.1, (hE j).2.2.1,
        (hD j).2.2.1, (hC j).2.2.1, (hB j).2.2.1, (hA j).2.2.1]
    · rw [hfin.2.1, (hH j).2.2.2.1, (hG j).2.2.2.1, (hF j).2.2.2.1,
        (hE j).2.2.2.1, (hD j).2.2.2.1, (hC j).2.2.2.1, (hB j).2.2.2.1,
        (hA j).2.2.2.1]
    · rw [hfin.2.2.1, (hH j).2.2.2.2.1, (hG j).2.2.2.2.1, (hF j).2.2.2.2.1,
        (hE j).2.2.2.2.1, (hD j).2.2.2.2.1, (hC j).2.2.2.2.1, (hB j).2.2.2.2.1,
        (hA j).2.2.2.2.1]
    · rw [hfin.2.2.2, (hH j).2.2.2.2.2.1, (hG j).2.2.2.2.2.1,
        (hF j).2.2.2.2.2, (hE j).2.2.2.2.2, (hD j).2.2.2.2.2,
        (hC j).2.2.2.2.2.1, (hB j).2.2.2.2.2.1, (hA j).2.2.2.2.2]

theorem insertIdx_eq_take_cons_drop : ∀ (n : Nat) (l : List Nat) (x : Nat),
    n ≤ l.length → l.insertIdx n x = l.take n ++ x :: l.drop n
  | 0, l, x, _ => by simp [List.insertIdx_zero]
  | n + 1, [], x, h => by simp at h
  | n + 1, a :: l, x, h => by
      rw [List.insertIdx_succ_cons, insertIdx_eq_take_cons_drop n l x
        (by simpa using h)]
      simp

/-- The replacement loop of `replace_with`: inserting a list of detached,
pairwise-distinct nodes at consecutive positions starting at `start`
splices them, in argument order, into the parent's `contents` at `start`,
links each one's `parent`, and leaves every other node's `contents`,
`parent` and payload untouched. -/
theorem insertSeq_proj (fuel : Nat) : ∀ (args : List Nat) (s : Store)
    (q start : Nat),
    (∀ x ∈ args, (s x).parent = none ∧ x ≠ q) →
    args.Nodup →
    start ≤ (s q).contents.length →
    ∃ s', insertSeq fuel s q start args = .ok s'
      ∧ (∀ j, (s' j).contents = (if j = q then
           (s q).contents.take start ++ args ++ (s q).contents.drop start
         else (s j).contents))
      ∧ (∀ j, (s' j).parent = (if j ∈ args then some q else (s j).parent))
      ∧ (∀ j, (s' j).kind = (s j).kind ∧ (s' j).name = (s j).name
          ∧ (s' j).attrs = (s j).attrs ∧ (s' j).value = (s j).value)
  | [], s, q, start, hdet, hnd, hstart => by
      refine ⟨s, rfl, ?_, ?_, ?_⟩
      · intro j
        by_cases h : j = q
        · rw [if_pos h, h]
          simp
        · rw [if_neg h]
      · intro j
        simp
      · intro j
        exact ⟨rfl, rfl, rfl, rfl⟩
  | a :: rest, s, q, start, hdet, hnd, hstart => by
      obtain ⟨ha1, ha2⟩ := hdet a (List.mem_cons_self a rest)
      obtain ⟨s1, hok1, hcq1, hco1, hp1, hl1⟩ :=
        insert_detached_proj fuel s q start a 0 ha1 ha2
      have hmin : min start (s q).contents.length = start :=
        Nat.min_eq_left hstart
      rw [hmin] at hcq1
      have hnd1 : rest.Nodup := (List.nodup_cons.mp hnd).2
      have hna : a ∉ rest := (List.nodup_cons.mp hnd).1
      have hdet1 : ∀ x ∈ rest, (s1 x).parent = none ∧ x ≠ q := by
        intro x hx
        obtain ⟨hx1, hx2⟩ := hdet x (List.mem_cons_of_mem a hx)
        refine ⟨?_, hx2⟩
        rw [hp1 x, if_neg (by rintro rfl; exact hna hx)]
        exact hx1
      have hlen1 : start + 1 ≤ (s1 q).contents.length := by
        rw [hcq1, List.length_insertIdx start _ hstart]
        omega
      obtain ⟨s2, hok2, hc2, hp2, hl2⟩ :=
        insertSeq_proj fuel rest s1 q (start + 1) hdet1 hnd1 hlen1
      refine ⟨s2, ?_, ?_, ?_, ?_⟩
      · simp only [insertSeq, hok1, hok2]
      · intro j
        by_cases h : j = q
        · rw [if_pos h, h, hc2 q, if_pos rfl, hcq1]
          rw [insertIdx_eq_take_cons_drop start _ a hstart]
          have htk : ((s q).contents.take start ++ a :: (s q).contents.drop
              start).take (start + 1) = (s q).contents.take start ++ [a] := by
            rw [List.take_append_eq_append_take]
            have hlt : ((s q).contents.take start).length = start :=
              List.length_take_of_le hstart
            rw [List.take_of_length_le (by omega), hlt]
            have : start + 1 - start = 1 := by omega
            rw [this]
            simp
          have hdk : ((s q).contents.take start ++ a :: (s q).contents.drop
              start).drop (start + 1) = (s q).contents.drop start := by
            rw [List.drop_append_eq_append_drop]
            have hlt : ((s q).contents.take start).length = start :=
              List.length_take_of_le hstart
            rw [List.drop_eq_nil_of_le (by omega), hlt]
            have : start + 1 - start = 1 := by omega
            rw [this]
            simp
          rw [htk, hdk]
          simp
        · rw [if_neg h, hc2 j, if_neg h, hco1 j h]
      · intro j
        by_cases h : j ∈ a :: rest
        · rw [if_pos h]
          rcases List.mem_cons.mp h with rfl | hr
          · rw [hp2 j, if_neg (by exact fun hc => hna hc), hp1 j, if_pos rfl]
          · rw [hp2 j, if_pos hr]
        · rw [if_neg h]
          have h1 : j ∉ rest := fun hc => h (List.mem_cons_of_mem a hc)
          have h2 : ¬j = a := fun hc => h (hc ▸ List.mem_cons_self a rest)
          rw [hp2 j, if_neg h1, hp1 j, if_neg h2]
      · intro j
        obtain ⟨k1, n1, a1, v1⟩ := hl1 j
        obtain ⟨k2, n2, a2, v2⟩ := hl2 j
        exact ⟨k2.trans k1, n2.trans n1, a2.trans a1, v2.trans v1⟩

/-- The document `<g><p>n</p></g>`: `g ↦ 0`, `p ↦ 1`, `"n" ↦ 2`. -/
def exAnc : PTree :=
  PTree.tagN "g" [] [PTree.tagN "p" [] [PTree.textN "n"]]

/-- C3 counterexample: `insert` does not reject an ancestor of the
insertion target.  In `<g><p>n</p></g>`, node `0` (`g`) is an ancestor of
node `1` (`p`) — indeed its parent — yet `p.insert(0, g)` succeeds instead
of failing with a cycle error. -/
theorem c3_insert_counterexample :
    (storeOf exAnc 1).parent = some 0
    ∧ (insert 10 (storeOf exAnc) 1 0 (some (.snode 0)) 99).isOk = true := by
  constructor
  · decide
  · decide

/-- C3 as amended: a `None` child fails with the invalid-argument
`ValueError`; the insertion target itself as the child fails with the
self-insertion `ValueError`; an ancestor of the target is *not* rejected
(no cycle check exists — see the counterexample); and the supplied
position is clamped to `[0, len(contents)]`: a detached child always ends
up at index `min position len` of the target's `contents`. -/
theorem c3_insert_amended :
    (∀ (fuel : Nat) (s : Store) (selfId pos fresh : Nat),
      insert fuel s selfId pos none fresh = .error .noneChild)
    ∧ (∀ (fuel : Nat) (s : Store) (selfId pos fresh : Nat),
      insert fuel s selfId pos (some (.snode selfId)) fresh =
        .error .selfChild)
    ∧ (∀ (fuel : Nat) (s : Store) (selfId pos c fresh : Nat),
      (s c).parent = none → c ≠ selfId →
      ∃ s', insert fuel s selfId pos (some (.snode c)) fresh = .ok s'
        ∧ (s' selfId).contents = (s selfId).contents.insertIdx
            (min pos (s selfId).contents.length) c) := by
  refine ⟨?_, ?_, ?_⟩
  · intro fuel s selfId pos fresh
    rfl
  · intro fuel s selfId pos fresh
    unfold insert
    simp
  · intro fuel s selfId pos c fresh hdetached hnotself
    obtain ⟨s', hok, hc, _, _, _⟩ :=
      insert_detached_proj fuel s selfId pos c fresh hdetached hnotself
    exact ⟨s', hok, hc⟩

theorem c3_insert_amended_witness :
    (insert 10 (storeOf exAnc) 1 5 none 99 = .error .noneChild)
    ∧ (insert 10 (storeOf exAnc) 1 5 (some (.snode 1)) 99 = .error .selfChild)
    ∧ (∃ s', insert 10 (storeOf exAnc) 1 5 (some (.snode 7)) 99 = .ok s'
        ∧ (s' 1).contents = [2, 7]) := by
  refine ⟨c3_insert_amended.1 10 (storeOf exAnc) 1 5 99,
    c3_insert_amended.2.1 10 (storeOf exAnc) 1 5 99, ?_⟩
  obtain ⟨s', hok, hc⟩ := c3_insert_amended.2.2 10 (storeOf exAnc) 1 5 7 99
    (by decide) (by decide)
  refine ⟨s', hok, ?_⟩
  rw [hc]
  decide

/-- C4 counterexample: `replace_with` only rejects the node's immediate
parent, not arbitrary ancestors.  In `<g><p>n</p></g>`, node `0` (`g`) is
an ancestor of node `2` (`"n"`, whose parent is `1`), yet
`n.replace_with(g)` succeeds instead of failing. -/
theorem c4_replace_with_counterexample :
    (storeOf exAnc 2).parent = some 1
    ∧ (storeOf exAnc 1).parent = some 0
    ∧ (replaceWith 10 (storeOf exAnc) 2 [0]).isOk = true := by
  refine ⟨by decide, by decide, by decide⟩

/-- C4 as amended: `replace_with` fails with the no-parent `ValueError`
when the node is unattached; it fails with the self-replacement
`ValueError` only when some replacement *is the node's immediate parent*
(a more distant ancestor is accepted — see the counterexample); otherwise
it records the node's index in its parent, extracts it, and inserts the
replacements at consecutive positions starting at that index, in argument
order, leaving every other node's `contents` and payload unchanged. -/
theorem c4_replace_with_amended :
    (∀ (fuel : Nat) (s : Store) (selfId : Nat) (args : List Nat),
      (s selfId).parent = none →
      replaceWith fuel s selfId args = .error .noParent)
    ∧ (∀ (fuel : Nat) (s : Store) (selfId q : Nat) (args : List Nat),
      (s selfId).parent = some q → args ≠ [selfId] → q ∈ args →
      replaceWith fuel s selfId args = .error .parentReplacement)
    ∧ (∀ (fuel : Nat) (s : Store) (selfId q i : Nat) (args : List Nat),
      (s selfId).parent = some q → args ≠ [selfId] → q ∉ args →
      (s q).contents.findIdx? (· = selfId) = some i →
      lastDescendant
        (upd s q fun n => { n with contents := n.contents.eraseIdx i })
        fuel true true selfId ≠ none →
      (∀ x ∈ args, (s x).parent = none ∧ x ≠ q) →
      args.Nodup →
      ∃ s', replaceWith fuel s selfId args = .ok s'
        ∧ (s' q).contents =
            (s q).contents.take i ++ args ++ (s q).contents.drop (i + 1)
        ∧ (∀ j, j ≠ q → (s' j).contents = (s j).contents)
        ∧ (∀ j, (s' j).kind = (s j).kind ∧ (s' j).name = (s j).name
            ∧ (s' j).attrs = (s j).attrs ∧ (s' j).value = (s j).value)) := by
  refine ⟨?_, ?_, ?_⟩
  · intro fuel s selfId args h
    unfold replaceWith
    rw [h]
  · intro fuel s selfId q args hq hne hmem
    unfold replaceWith
    simp only [hq]
    rw [if_neg hne, if_pos (by rw [List.any_eq_true]; exact ⟨q, hmem, by simp⟩)]
  · intro fuel s selfId q i args hq hne hnmem hidx hld hdet hnd
    have hany : args.any (fun x => some x = some q) = false := by
      rw [List.any_eq_false]
      intro x hx hcon
      simp only [decide_eq_true_eq, Option.some_inj] at hcon
      exact hnmem (hcon ▸ hx)
    have hilt : i < (s q).contents.length :=
      (List.findIdx?_eq_some_iff_findIdx_eq.mp hidx).1
    obtain ⟨sE, hEok, hEc, hEp, hEl⟩ := extract_proj fuel s selfId q i hq hidx hld
    have hdetE : ∀ x ∈ args, (sE x).parent = none ∧ x ≠ q := by
      intro x hx
      obtain ⟨hx1, hx2⟩ := hdet x hx
      refine ⟨?_, hx2⟩
      rw [hEp x]
      split
      · rfl
      · exact hx1
    have hlenE : i ≤ (sE q).contents.length := by
      rw [hEc q, if_pos rfl, List.length_eraseIdx_of_lt hilt]
      omega
    obtain ⟨sF, hFok, hFc, hFp, hFl⟩ :=
      insertSeq_proj fuel args sE q i hdetE hnd hlenE
    have hA : ((s q).contents.take i).length = i :=
      List.length_take_of_le (le_of_lt hilt)
    have htk : (((s q).contents.take i) ++ (s q).contents.drop (i + 1)).take i
        = (s q).contents.take i := by
      rw [List.take_append_eq_append_take, List.take_of_length_le hA.le, hA,
        Nat.sub_self, List.take_zero, List.append_nil]
    have hdk : (((s q).contents.take i) ++ (s q).contents.drop (i + 1)).drop i
        = (s q).contents.drop (i + 1) := by
      rw [List.drop_append_eq_append_drop, List.drop_eq_nil_of_le hA.le, hA,
        Nat.sub_self, List.drop_zero, List.nil_append]
    refine ⟨sF, ?_, ?_, ?_, ?_⟩
    · unfold replaceWith
      simp only [hq]
      rw [if_neg hne,
        if_neg (by rw [hany]; exact Bool.false_ne_true)]
      simp only [hidx, hEok, hFok]
    · rw [hFc q, if_pos rfl, hEc q, if_pos rfl,
        List.eraseIdx_eq_take_drop_succ, htk, hdk]
    · intro j hj
      rw [hFc j, if_neg hj, hEc j, if_neg hj]
    · intro j
      exact ⟨by rw [(hFl j).1, (hEl j).1],
        by rw [(hFl j).2.1, (hEl j).2.1],
        by rw [(hFl j).2.2.1, (hEl j).2.2.1],
        by rw [(hFl j).2.2.2, (hEl j).2.2.2]⟩

/-- Witness for the amended C4 theorem on `<g><p>n</p></g>`: the detached
root errors with `noParent`; replacing `"n"` by its immediate parent `p`
errors with `parentReplacement`; replacing `"n"` by the detached-parent
node `g` succeeds and splices `g` into `p.contents` at the old index. -/
theorem c4_replace_with_amended_witness :
    (replaceWith 10 (storeOf exAnc) 0 [] = .error .noParent)
    ∧ (replaceWith 10 (storeOf exAnc) 2 [1] = .error .parentReplacement)
    ∧ (∃ s', replaceWith 10 (storeOf exAnc) 2 [0] = .ok s'
        ∧ (s' 1).contents = [0]) := by
  refine ⟨c4_replace_with_amended.1 10 (storeOf exAnc) 0 [] (by decide),
    c4_replace_with_amended.2.1 10 (storeOf exAnc) 2 1 [1] (by decide)
      (by decide) (by decide), ?_⟩
  obtain ⟨s', hok, hc, _, _⟩ := c4_replace_with_amended.2.2 10 (storeOf exAnc)
    2 1 0 [0] (by decide) (by decide) (by decide) (by decide) (by decide)
    (by decide) (by decide)
  refine ⟨s', hok, ?_⟩
  rw [hc]
  decide

/-- `insert` with a bare string (page_element.py lines 305-313) first
materialises a `NavigableString` record at the fresh id and then proceeds
exactly as if that node had been passed. -/
theorem insert_sstr_eq (fuel : Nat) (s : Store) (selfId pos fresh : Nat)
    (v : String) (hf : fresh ≠ selfId) :
    insert fuel s selfId pos (some (.sstr v)) fresh =
      insert fuel (upd s fresh (fun _ => { kind := Kind.textK, value := v }))
        selfId pos (some (.snode fresh)) fresh := by
  unfold insert
  simp [hf]

/-- Inserting a bare string at `pos`: the fresh text node is detached, so
the insertion succeeds, the fresh record is a text node carrying the
string, parented to the tag, and spliced into `contents`. -/
theorem insert_sstr_proj (fuel : Nat) (s : Store) (selfId pos fresh : Nat)
    (v : String) (hf : fresh ≠ selfId) :
    ∃ s', insert fuel s selfId pos (some (.sstr v)) fresh = .ok s'
      ∧ (s' fresh).kind = Kind.textK
      ∧ (s' fresh).value = v
      ∧ (s' fresh).parent = some selfId
      ∧ (s' selfId).contents =
          (s selfId).contents.insertIdx
            (min pos (s selfId).contents.length) fresh
      ∧ (∀ j, j ≠ selfId → j ≠ fresh → (s' j).contents = (s j).contents) := by
  set sU := upd s fresh (fun _ => { kind := Kind.textK, value := v }) with hsU
  have hpar : (sU fresh).parent = none := by
    rw [hsU, upd_same]
  obtain ⟨s', hok, hcs, hco, hp, hl⟩ :=
    insert_detached_proj fuel sU selfId pos fresh fresh hpar hf
  have hcu : (sU selfId).contents = (s selfId).contents := by
    rw [hsU, upd_other _ _ _ _ (Ne.symm hf)]
  refine ⟨s', ?_, ?_, ?_, ?_, ?_, ?_⟩
  · rw [insert_sstr_eq fuel s selfId pos fresh v hf, ← hsU]
    exact hok
  · rw [(hl fresh).1, hsU, upd_same]
  · rw [(hl fresh).2.2.2, hsU, upd_same]
  · rw [hp fresh, if_pos rfl]
  · rw [hcs, hcu]
  · intro j hj1 hj2
    rw [hco j hj1, hsU, upd_other _ _ _ _ hj2]

/-- C9: `insert` (and `append`, which delegates to it at position
`len(contents)`) converts a bare string argument into a `NavigableString`
text node before linking: the call equals first allocating a fresh text
record and inserting that node; the entry spliced into `contents` is that
fresh node id, whose record is a text node carrying the string; and
`append` puts it at the end of `contents`.  So `contents` only ever
receives node ids, never bare strings. -/
theorem c9_string_conversion :
    (∀ (fuel : Nat) (s : Store) (selfId pos fresh : Nat) (v : String),
      fresh ≠ selfId →
      insert fuel s selfId pos (some (.sstr v)) fresh =
        insert fuel
          (upd s fresh (fun _ => { kind := Kind.textK, value := v }))
          selfId pos (some (.snode fresh)) fresh)
    ∧ (∀ (fuel : Nat) (s : Store) (selfId pos fresh : Nat) (v : String),
      fresh ≠ selfId →
      ∃ s', insert fuel s selfId pos (some (.sstr v)) fresh = .ok s'
        ∧ (s' fresh).kind = Kind.textK ∧ (s' fresh).value = v
        ∧ (s' fresh).parent = some selfId
        ∧ (s' selfId).contents =
            (s selfId).contents.insertIdx
              (min pos (s selfId).contents.length) fresh)
    ∧ (∀ (fuel : Nat) (s : Store) (selfId fresh : Nat) (v : String),
      fresh ≠ selfId →
      ∃ s', appendNode fuel s selfId (some (.sstr v)) fresh = .ok s'
        ∧ (s' fresh).kind = Kind.textK ∧ (s' fresh).value = v
        ∧ (s' fresh).parent = some selfId
        ∧ (s' selfId).contents = (s selfId).contents ++ [fresh]) := by
  refine ⟨fun fuel s selfId pos fresh v hf =>
    insert_sstr_eq fuel s selfId pos fresh v hf, ?_, ?_⟩
  · intro fuel s selfId pos fresh v hf
    obtain ⟨s', hok, hk, hv, hp, hc, _⟩ :=
      insert_sstr_proj fuel s selfId pos fresh v hf
    exact ⟨s', hok, hk, hv, hp, hc⟩
  · intro fuel s selfId fresh v hf
    obtain ⟨s', hok, hk, hv, hp, hc, _⟩ :=
      insert_sstr_proj fuel s selfId (s selfId).contents.length fresh v hf
    refine ⟨s', hok, hk, hv, hp, ?_⟩
    rw [hc, Nat.min_self, List.insertIdx_length_self]

/-- Witness for C9 on `<g><p>n</p></g>`: appending the bare string `"hi"`
to the `p` tag (node 1) with fresh id 99 creates a text node 99 carrying
`"hi"` and puts it after the existing child. -/
theorem c9_string_conversion_witness :
    (insert 10 (storeOf exAnc) 1 0 (some (.sstr "hi")) 99 =
      insert 10 (upd (storeOf exAnc) 99
          (fun _ => { kind := Kind.textK, value := "hi" }))
        1 0 (some (.snode 99)) 99)
    ∧ (∃ s', appendNode 10 (storeOf exAnc) 1 (some (.sstr "hi")) 99 = .ok s'
        ∧ (s' 99).kind = Kind.textK ∧ (s' 99).value = "hi"
        ∧ (s' 1).contents = [2, 99]) := by
  refine ⟨c9_string_conversion.1 10 (storeOf exAnc) 1 0 99 "hi" (by decide), ?_⟩
  obtain ⟨s', hok, hk, hv, hp, hc⟩ :=
    c9_string_conversion.2.2 10 (storeOf exAnc) 1 99 "hi" (by decide)
  refine ⟨s', hok, hk, hv, ?_⟩
  rw [hc]
  decide

/-- The example document `<div><p>a<b>c</b></p>d</div>` of the
specification: positions are `div ↦ 0`, `p ↦ 1`, `"a" ↦ 2`, `b ↦ 3`,
`"c" ↦ 4`, `"d" ↦ 5`. -/
def exDivDoc : PTree :=
  PTree.tagN "div" []
    [PTree.tagN "p" [] [PTree.textN "a", PTree.tagN "b" [] [PTree.textN "c"]],
     PTree.textN "d"]

theorem c2_descendants_preorder_witness :
    descendants (storeOf exDivDoc) 7 0 = some [1, 2, 3, 4, 5]
    ∧ ([1, 2, 3, 4, 5].map fun j => nodeLabel (storeOf exDivDoc j))
        = [(Kind.tagK, "p", [], ""), (Kind.textK, "", [], "a"),
           (Kind.tagK, "b", [], ""), (Kind.textK, "", [], "c"),
           (Kind.textK, "", [], "d")] := by
  have h := (c2_descendants_preorder (At.root (t := exDivDoc))
    (show size exDivDoc < 7 by decide)).2 (by exact List.cons_ne_nil _ _)
  have hr : List.range' 1 (sizeL
      [PTree.tagN "p" [] [PTree.textN "a", PTree.tagN "b" [] [PTree.textN "c"]],
       PTree.textN "d"]) = [1, 2, 3, 4, 5] := by decide
  obtain ⟨h1, h2⟩ := h
  rw [hr] at h1 h2
  refine ⟨h1, ?_⟩
  rw [h2]
  decide

/-! ### The query engine: `BaseSoupStrainer._matches` and `search_tag`

(`element/tag_core/soup_strainer.py`).  A markup value handed to `_matches`
is `None`, a string, a `Tag` (carrying a name and an optional namespace
prendant), or a multi-valued attribute list; a normalized filter value is
`None`, a boolean, a string, a list of filters, or a callable.  String
filters are fixed points of `_normalize_search_value`, so a strainer built
from literal strings stores them unchanged. -/

/-- A markup value passed to `_matches`: `None`, a plain string, a tag
(name and optional namespace prelude), or a multi-valued attribute. -/
inductive MVal where
  | mnone : MVal
  | mstr : String → MVal
  | mtag : String → Option String → MVal
  | mlist : List String → MVal
deriving DecidableEq, Repr

/-- A normalized search filter (`SoupStrainer` field). -/
inductive Filt where
  | fnone : Filt
  | fbool : Bool → Filt
  | fstr : String → Filt
  | flist : List Filt → Filt
  | fpred : (MVal → Bool) → Filt

/-- Python truthiness of a normalized filter value (`not self.name`,
`if match_against`, …): `None`, `False`, `""` and `[]` are falsy. -/
def truthyF : Filt → Bool
  | .fnone => false
  | .fbool b => b
  | .fstr s => !(s == "")
  | .flist fs => !fs.isEmpty
  | .fpred _ => true

/-- Recursion rank of a markup value, used for termination of `matchesF`:
a list is unpacked to strings, a tag name retried as a prefixed string. -/
def mrank : MVal → Nat
  | .mlist _ => 2
  | .mtag _ _ => 1
  | _ => 0

/-- `BaseSoupStrainer._matches` (soup_strainer.py lines 214-288), minus the
regex branch (no compiled patterns in the model).  The `already_tried` guard
of the list-filter branch only skips duplicate items, and re-testing a
duplicate of a pure filter returns the same answer, so the branch is the
plain `any`. -/
def matchesF (m : MVal) (f : Filt) : Bool :=
  match m, f with
  | .mlist vs, f =>
      (vs.any fun v => matchesF (.mstr v) f) ||
        matchesF (.mstr (String.intercalate " " vs)) f
  | m, .fbool true => !(m == .mnone)
  | m, .fpred p => p m
  | .mnone, f => !truthyF f
  | m, .flist fs => fs.attach.any fun it => matchesF m it.1
  | .mstr s, .fstr fs => s == fs
  | .mstr _, _ => false
  | .mtag n pre, f =>
      let m1 : Bool :=
        match f with
        | .fstr fs => n == fs
        | _ => false
      if m1 then true
      else
        match pre with
        | some px => matchesF (.mstr (px ++ ":" ++ n)) f
        | none => false
termination_by (sizeOf f, mrank m)
decreasing_by
  all_goals simp_wf
  · exact Prod.Lex.right _ (by simp [mrank])
  · exact Prod.Lex.right _ (by simp [mrank])
  · exact Prod.Lex.left _ _ (by
      have := List.sizeOf_lt_of_mem it.2
      omega)
  · exact Prod.Lex.right _ (by simp [mrank])

/-- The view of a `Tag` consulted by `search_tag`: its name, namespace
particle, attribute map, and its `.string` property (for string filters). -/
structure TagView where
  name : String
  nsPre : Option String := none
  attrs : List (String × MVal) := []
  tstring : MVal := MVal.mnone
deriving Repr

/-- A normalized `SoupStrainer`: `name`, `attrs` and `string` filters. -/
structure Strainer where
  name : Filt := Filt.fnone
  attrs : List (String × Filt) := []
  string : Filt := Filt.fnone

/-- `markup_attr_map.get(attr)`: a missing attribute behaves as `None`. -/
def attrLookup (attrs : List (String × MVal)) (k : String) : MVal :=
  match attrs.find? (fun kv => kv.1 == k) with
  | some kv => kv.2
  | none => .mnone

/-- `BaseSoupStrainer.search_tag` (soup_strainer.py lines 113-174) applied
to a `Tag` markup object (so `call_function_with_tag_data` is false and the
result, a tag or `None`, is reported as its truthiness). -/
def searchTag (st : Strainer) (tag : TagView) : Bool :=
  let fastReject : Bool :=
    match st.name with
    | .fstr s => tag.nsPre.isNone && !(s == tag.name)
    | _ => false
  if fastReject then false
  else
    let nameOk := !truthyF st.name || matchesF (.mtag tag.name tag.nsPre) st.name
    let found :=
      if nameOk then
        st.attrs.all fun kv => matchesF (attrLookup tag.attrs kv.1) kv.2
      else false
    if found && truthyF st.string && !(matchesF tag.tstring st.string) then false
    else found

/-- The strainer `SoupStrainer(name="a", attrs={"class": "x"})`: literal
strings are unchanged by `_normalize_search_value`. -/
def strainerAX : Strainer :=
  { name := Filt.fstr "a", attrs := [("class", Filt.fstr "x")] }

/-- C6: `SoupStrainer(name="a", attrs={"class": "x"})` matches an `<a>`
whose class list is `["x", "y"]` and one whose list is `["y", "x", "z"]`,
rejects an `<a>` with class list `["y"]` and a `<b>` with class list
`["x"]`; and in general a multi-valued attribute matches a filter exactly
when some individual value matches or the space-joined whole value does. -/
theorem c6_strainer_matching :
    (searchTag strainerAX
        { name := "a", attrs := [("class", MVal.mlist ["x", "y"])] } = true)
    ∧ (searchTag strainerAX
        { name := "a", attrs := [("class", MVal.mlist ["y", "x", "z"])] } = true)
    ∧ (searchTag strainerAX
        { name := "a", attrs := [("class", MVal.mlist ["y"])] } = false)
    ∧ (searchTag strainerAX
        { name := "b", attrs := [("class", MVal.mlist ["x"])] } = false)
    ∧ ∀ (f : Filt) (vs : List String),
        matchesF (.mlist vs) f =
          ((vs.any fun v => matchesF (.mstr v) f) ||
            matchesF (.mstr (String.intercalate " " vs)) f) := by
  refine ⟨?_, ?_, ?_, ?_, ?_⟩
  · simp [searchTag, strainerAX, matchesF, attrLookup, truthyF]
  · simp [searchTag, strainerAX, matchesF, attrLookup, truthyF]
  · simp [searchTag, strainerAX, matchesF, attrLookup, truthyF]
    decide
  · simp [searchTag, strainerAX, matchesF, attrLookup, truthyF]
  · intro f vs
    rw [matchesF]

/-! ### `find_all` with a `limit`: `BasePageElement._find_all`
(`element/tag_core/page_element.py` lines 691-758). -/

/-- Python truthiness of a page element (`if i:` in `_find_all`'s loop):
`BaseTag.__bool__` is always `True` (tag.py lines 480-482); a
`NavigableString` inherits `StrMixIn.__len__` (models.py lines 61-62), so
it is falsy exactly when its string is empty. -/
def elemTruthy (nd : Node) : Bool :=
  match nd.kind with
  | Kind.tagK => true
  | Kind.textK => !(nd.value == "")

/-- The `TagView` consulted by `search_tag` for a stored tag node.  The
model's tags carry no namespace particle, and `tstring` is only read by
`search_tag` when the strainer has a truthy `string` filter, which the
strainers of this development never have. -/
def tagViewOf (nd : Node) : TagView :=
  { name := nd.name,
    attrs := nd.attrs.map (fun kv => (kv.1, MVal.mstr kv.2)),
    tstring := MVal.mnone }

/-- `BaseSoupStrainer.search` (soup_strainer.py lines 176-212) on a single
page element, reported as the truthiness of `found`: a tag is tried
against `search_tag` unless the strainer is string-only with no name and
no attrs; a text node matches only a name-less, attr-less strainer whose
`string` filter accepts it (the loop's own `if found:` re-checks the
element's truthiness, handled at the call site). -/
def searchNode (st : Strainer) (nd : Node) : Bool :=
  match nd.kind with
  | Kind.tagK =>
      if !truthyF st.string || truthyF st.name || !st.attrs.isEmpty then
        searchTag st (tagViewOf nd)
      else false
  | Kind.textK =>
      !truthyF st.name && st.attrs.isEmpty
        && matchesF (.mstr nd.value) st.string

/-- The `while True:` loop of `_find_all` (page_element.py lines 746-757),
returning the collected results together with the list of elements
actually drawn from the generator: each drawn element that is truthy is
searched, a match is appended, and with a truthy `limit` the loop breaks —
drawing nothing further — as soon as `limit` results are collected. -/
def findAllLoop (s : Store) (st : Strainer) (limit : Nat) :
    List Nat → List Nat → List Nat × List Nat
  | acc, [] => (acc, [])
  | acc, i :: rest =>
      if elemTruthy (s i) && searchNode st (s i) then
        let acc2 := acc ++ [i]
        if limit ≠ 0 ∧ limit ≤ acc2.length then (acc2, [i])
        else
          let r := findAllLoop s st limit acc2 rest
          (r.1, i :: r.2)
      else
        let r := findAllLoop s st limit acc rest
        (r.1, i :: r.2)

/-- `BaseTag.find_all` (tag.py lines 899-936) with `recursive=True` and a
truthy `limit`: the generator is `descendants`, and a truthy `limit`
disables `_find_all`'s all-tags fast paths (their guard requires
`not limit`, page_element.py line 716), so the call runs the main loop. -/
def findAll (fuel : Nat) (s : Store) (root : Nat) (st : Strainer)
    (limit : Nat) : Option (List Nat × List Nat) :=
  match descendants s fuel root with
  | none => none
  | some gen => some (findAllLoop s st limit [] gen)

/-- Elements that fail the truthy-and-matching test are drawn and skipped:
they appear in the visited trace but change neither the results nor the
rest of the run. -/
theorem findAllLoop_skip (s : Store) (st : Strainer) (limit : Nat) :
    ∀ (pre l acc : List Nat),
    (∀ x ∈ pre, (elemTruthy (s x) && searchNode st (s x)) = false) →
    findAllLoop s st limit acc (pre ++ l) =
      ((findAllLoop s st limit acc l).1,
        pre ++ (findAllLoop s st limit acc l).2)
  | [], l, acc, h => by simp
  | p :: pre, l, acc, h => by
      have hp := h p (List.mem_cons_self p pre)
      have ih := findAllLoop_skip s st limit pre l acc
        (fun x hx => h x (List.mem_cons_of_mem p hx))
      simp [findAllLoop, hp, ih]

/-- C5: with the truthy limit 2, `find_all` runs `_find_all`'s main loop
over `descendants`; when the generator's sequence is two stretches of
non-matching elements around the first two matches, the loop returns
exactly those two matches in document order, breaks as soon as the second
is appended, and draws nothing beyond it — any later element (in
particular the third matching tag) is never visited. -/
theorem c5_find_all_limit (fuel : Nat) (s : Store) (root : Nat)
    (st : Strainer) (pre1 pre2 rest : List Nat) (m1 m2 : Nat)
    (hdesc : descendants s fuel root =
      some (pre1 ++ m1 :: (pre2 ++ m2 :: rest)))
    (h1 : ∀ x ∈ pre1, (elemTruthy (s x) && searchNode st (s x)) = false)
    (h2 : ∀ x ∈ pre2, (elemTruthy (s x) && searchNode st (s x)) = false)
    (hm1 : (elemTruthy (s m1) && searchNode st (s m1)) = true)
    (hm2 : (elemTruthy (s m2) && searchNode st (s m2)) = true) :
    findAll fuel s root st 2 =
      some ([m1, m2], pre1 ++ m1 :: (pre2 ++ [m2]))
    ∧ ∀ x ∈ rest, x ∉ pre1 → x ∉ pre2 → x ≠ m1 → x ≠ m2 →
        x ∉ pre1 ++ m1 :: (pre2 ++ [m2]) := by
  have hm2step : findAllLoop s st 2 [m1] (m2 :: rest) = ([m1, m2], [m2]) := by
    simp [findAllLoop, hm2]
  have hinner : findAllLoop s st 2 [m1] (pre2 ++ m2 :: rest)
      = ([m1, m2], pre2 ++ [m2]) := by
    rw [findAllLoop_skip s st 2 pre2 (m2 :: rest) [m1] h2, hm2step]
  have houter : findAllLoop s st 2 [] (m1 :: (pre2 ++ m2 :: rest))
      = ([m1, m2], m1 :: (pre2 ++ [m2])) := by
    simp [findAllLoop, hm1, hinner]
  constructor
  · simp only [findAll, hdesc]
    rw [findAllLoop_skip s st 2 pre1 (m1 :: (pre2 ++ m2 :: rest)) [] h1,
      houter]
  · intro x hx hx1 hx2 hx3 hx4 hmem
    rcases List.mem_append.mp hmem with h | h
    · exact hx1 h
    · rcases List.mem_cons.mp h with h | h
      · exact hx3 h
      · rcases List.mem_append.mp h with h | h
        · exact hx2 h
        · exact hx4 (List.mem_singleton.mp h)

/-- The document `<r><a/><b/><a/><a/><a/></r>`: four `<a>` tags at
positions 1, 3, 4 and 5, a `<b>` at position 2. -/
def exFourA : PTree :=
  PTree.tagN "r" []
    [PTree.tagN "a" [] [], PTree.tagN "b" [] [],
     PTree.tagN "a" [] [], PTree.tagN "a" [] [], PTree.tagN "a" [] []]

/-- The strainer `SoupStrainer(name="a")`. -/
def strainerA : Strainer := { name := Filt.fstr "a" }

/-- Witness for C5 on `<r><a/><b/><a/><a/><a/></r>`:
`find_all("a", limit=2)` on the root returns the first two `<a>` tags
(positions 1 and 3), visits only positions 1, 2 and 3, and the third
`<a>` (position 4) is not visited. -/
theorem c5_find_all_limit_witness :
    findAll 10 (storeOf exFourA) 0 strainerA 2 = some ([1, 3], [1, 2, 3])
    ∧ (4 : Nat) ∉ ([1, 2, 3] : List Nat) := by
  have hcond : ∀ nd : Node, nd.kind = Kind.tagK → nd.name = "a" →
      nd.attrs = [] → (elemTruthy nd && searchNode strainerA nd) = true := by
    intro nd hk hn ha
    simp [elemTruthy, searchNode, searchTag, strainerA, tagViewOf, hk, hn,
      ha, truthyF, matchesF]
  have hcondb : ∀ nd : Node, nd.kind = Kind.tagK → nd.name = "b" →
      (elemTruthy nd && searchNode strainerA nd) = false := by
    intro nd hk hn
    simp [elemTruthy, searchNode, searchTag, strainerA, tagViewOf, hk, hn,
      truthyF]
  have h := c5_find_all_limit 10 (storeOf exFourA) 0 strainerA [] [2] [4, 5]
    1 3 (by decide) (by simp)
    (by
      intro x hx
      have hx2 : x = 2 := by simpa using hx
      subst hx2
      exact hcondb _ (by decide) (by decide))
    (hcond _ (by decide) (by decide) (by decide))
    (hcond _ (by decide) (by decide) (by decide))
  refine ⟨?_, ?_⟩
  · rw [h.1]
    rfl
  · exact h.2 4 (by decide) (by decide) (by decide) (by decide) (by decide)

/-! ### Tag equality: `BaseTag.__eq__` (`element/tag_core/tag.py` lines
509-531) and `StrMixIn.__eq__` (`models.py` lines 52-53). -/

/-- Keyed lookup in an attribute map embedded as an association list. -/
def alookup (a : List (String × String)) (k : String) : Option String :=
  match a.find? (fun kv => kv.1 == k) with
  | some kv => some kv.2
  | none => none

/-- Python dict equality (`self.attrs != other.attrs`) on attribute maps
embedded as association lists with pairwise-distinct keys, as a Python
dict's items always are: the two maps agree on every key of either. -/
def attrsEq (a b : List (String × String)) : Bool :=
  (a.all fun kv => alookup b kv.1 == some kv.2)
    && (b.all fun kv => alookup a kv.1 == some kv.2)

mutual
/-- The embedding invariant of attribute maps: every tag's `attrs`
association list has pairwise-distinct keys, as a Python dict does. -/
def attrsOk : PTree → Bool
  | .textN _ => true
  | .tagN _ a cs => decide ((a.map Prod.fst).Nodup) && attrsOkL cs
/-- `attrsOk` over a forest of children. -/
def attrsOkL : List PTree → Bool
  | [] => true
  | c :: cs => attrsOk c && attrsOkL cs
end

mutual
/-- Structural tag equality as the specification words it: same kind of
node, equal names, equal attribute maps, the same number of children and
pairwise-equal children, recursively — no reference to positions or
navigation pointers. -/
def ptreeEqB : PTree → PTree → Bool
  | .tagN n1 a1 cs1, .tagN n2 a2 cs2 =>
      n1 == n2 && attrsEq a1 a2 && decide (cs1.length = cs2.length)
        && ptreeEqBL cs1 cs2
  | .textN v1, .textN v2 => v1 == v2
  | _, _ => false
/-- Pairwise equality of two child lists, compared up to the shorter list
(the enclosing `ptreeEqB` also compares the lengths). -/
def ptreeEqBL : List PTree → List PTree → Bool
  | [], _ => true
  | _ :: _, [] => true
  | c1 :: cs1, c2 :: cs2 => ptreeEqB c1 c2 && ptreeEqBL cs1 cs2
end

/-- `BaseTag.__eq__` / `StrMixIn.__eq__` on the heap, with fuel bounding
the recursion into `contents`: identity (`self is other`) short-circuits;
a tag then equals only a tag with the same name, an equal attribute dict,
the same number of children (`len(self) != len(other)`) and pairwise-equal
children; a `NavigableString` equals a string-like with the same string
value; a tag and a string never compare equal (`hasattr(other, "attrs")`
is false on a string, and a plain string fails `hasattr(other, "name")`
the other way around). -/
def nodeEq (s : Store) : Nat → Nat → Nat → Bool
  | 0, _, _ => false
  | fuel + 1, a, b =>
      if a = b then true
      else
        match (s a).kind, (s b).kind with
        | Kind.tagK, Kind.tagK =>
            (s a).name == (s b).name
              && attrsEq (s a).attrs (s b).attrs
              && decide ((s a).contents.length = (s b).contents.length)
              && ((s a).contents.zip (s b).contents).all
                  (fun pr => nodeEq s fuel pr.1 pr.2)
        | Kind.textK, Kind.textK => (s a).value == (s b).value
        | _, _ => false

/-- In a unique-key association list, lookup of a member's key returns
that member's value. -/
theorem alookup_mem : ∀ (a : List (String × String)) (kv : String × String),
    (a.map Prod.fst).Nodup → kv ∈ a → alookup a kv.1 = some kv.2
  | [], kv, _, hm => by simp at hm
  | kv0 :: rest, kv, hnd, hm => by
      rw [List.map_cons, List.nodup_cons] at hnd
      rcases List.mem_cons.mp hm with h | h
      · subst h
        simp [alookup]
      · have hmem : kv.1 ∈ rest.map Prod.fst :=
          List.mem_map_of_mem Prod.fst h
        have hne : ¬(kv0.1 == kv.1) = true := by
          simp only [beq_iff_eq]
          intro he
          exact hnd.1 (he ▸ hmem)
        have ih := alookup_mem rest kv hnd.2 h
        have hstep : List.find? (fun x => x.1 == kv.1) (kv0 :: rest)
            = List.find? (fun x => x.1 == kv.1) rest :=
          List.find?_cons_of_neg _ hne
        simp only [alookup] at ih ⊢
        rw [hstep]
        exact ih

/-- `attrsEq` is reflexive on unique-key attribute maps. -/
theorem attrsEq_refl (a : List (String × String))
    (h : (a.map Prod.fst).Nodup) : attrsEq a a = true := by
  have hh : a.all (fun kv => alookup a kv.1 == some kv.2) = true := by
    rw [List.all_eq_true]
    intro kv hkv
    simp [alookup_mem a kv h hkv]
  simp [attrsEq, hh]

/-- Every member of an `attrsOkL` forest is itself `attrsOk`. -/
theorem attrsOkL_mem : ∀ (cs : List PTree), attrsOkL cs = true →
    ∀ u ∈ cs, attrsOk u = true
  | [], _, u, hm => by simp at hm
  | c :: cs, h, u, hm => by
      have h2 : attrsOk c = true ∧ attrsOkL cs = true := by
        simpa [attrsOkL, Bool.and_eq_true] using h
      rcases List.mem_cons.mp hm with h3 | h3
      · exact h3 ▸ h2.1
      · exact attrsOkL_mem cs h2.2 u h3

mutual
/-- Structural equality is reflexive on trees with well-formed attribute
maps. -/
theorem ptreeEqB_refl : ∀ u : PTree, attrsOk u = true → ptreeEqB u u = true
  | .textN v, _ => by simp [ptreeEqB]
  | .tagN n a cs, h => by
      have h2 : decide ((a.map Prod.fst).Nodup) = true ∧ attrsOkL cs = true := by
        simpa [attrsOk, Bool.and_eq_true] using h
      simp [ptreeEqB, attrsEq_refl a (by simpa using h2.1),
        ptreeEqBL_refl cs h2.2]
/-- Pairwise structural equality is reflexive on well-formed forests. -/
theorem ptreeEqBL_refl : ∀ cs : List PTree, attrsOkL cs = true →
    ptreeEqBL cs cs = true
  | [], _ => by simp [ptreeEqBL]
  | c :: cs, h => by
      have h2 : attrsOk c = true ∧ attrsOkL cs = true := by
        simpa [attrsOkL, Bool.and_eq_true] using h
      simp [ptreeEqBL, ptreeEqB_refl c h2.1, ptreeEqBL_refl cs h2.2]
end

/-- A tree of a forest is no larger than the whole forest. -/
theorem size_le_sizeL : ∀ (cs : List PTree) (u : PTree), u ∈ cs →
    size u ≤ sizeL cs
  | [], u, hm => by simp at hm
  | c :: cs, u, hm => by
      rcases List.mem_cons.mp hm with h | h
      · subst h
        simp [sizeL]
      · have := size_le_sizeL cs u h
        simp [sizeL]
        omega

/-- The payload of a located subtree's root record. -/
theorem At.rootLabel {t : PTree} {d p : Nat} {par ps ns : Option Nat}
    {u : PTree} (h : At t d p par ps ns u) :
    nodeLabel (storeOf t p) =
      (match u with
       | .tagN nm a _ => (Kind.tagK, nm, a, "")
       | .textN v => (Kind.textK, "", [], v)) := by
  have hl := h.label 0 (size_pos u)
  rw [Nat.add_zero] at hl
  cases u with
  | tagN nm a cs =>
      have hz : (preorderLabels (.tagN nm a cs))[0]? =
          some ((Kind.tagK, nm, a, "")) := by
        simp [preorderLabels]
      rw [hz] at hl
      exact (Option.some_inj.mp hl).symm
  | textN v =>
      have hz : (preorderLabels (.textN v))[0]? =
          some ((Kind.textK, "", [], v)) := by
        simp [preorderLabels]
      rw [hz] at hl
      exact (Option.some_inj.mp hl).symm

/-- The canonical layout is injective: two subtrees located at the same
pre-order position are the same tree. -/
theorem At_inj (t : PTree) : ∀ (n : Nat) (u v : PTree) (d1 p : Nat)
    (par1 ps1 ns1 : Option Nat) (d2 : Nat) (par2 ps2 ns2 : Option Nat),
    size u ≤ n →
    At t d1 p par1 ps1 ns1 u → At t d2 p par2 ps2 ns2 v → u = v := by
  intro n
  induction n with
  | zero =>
      intro u v d1 p par1 ps1 ns1 d2 par2 ps2 ns2 hsz _ _
      have := size_pos u
      omega
  | succ n ih =>
      intro u v d1 p par1 ps1 ns1 d2 par2 ps2 ns2 hsz h1 h2
      have hL1 := h1.rootLabel
      have hL2 := h2.rootLabel
      cases u with
      | textN v1 =>
          cases v with
          | textN v2 =>
              have hlab := hL1.symm.trans hL2
              have : v1 = v2 := by simpa [Prod.ext_iff] using hlab
              rw [this]
          | tagN n2 a2 cs2 =>
              have hlab := hL1.symm.trans hL2
              simp [Prod.ext_iff] at hlab
      | tagN n1 a1 cs1 =>
          cases v with
          | textN v2 =>
              have hlab := hL1.symm.trans hL2
              simp [Prod.ext_iff] at hlab
          | tagN n2 a2 cs2 =>
              have hlab := hL1.symm.trans hL2
              have hna : n1 = n2 ∧ a1 = a2 := by
                simpa [Prod.ext_iff] using hlab
              have hcp : childPositions cs1 (p + 1) =
                  childPositions cs2 (p + 1) :=
                h1.contents_eq.symm.trans h2.contents_eq
              have hlen : cs1.length = cs2.length := by
                have := congrArg List.length hcp
                rwa [childPositions_length, childPositions_length] at this
              have hszL : sizeL cs1 ≤ n := by
                have : size (PTree.tagN n1 a1 cs1) = 1 + sizeL cs1 := by
                  simp [size]
                omega
              have hcs : cs1 = cs2 := by
                apply List.ext_getElem?
                intro i
                by_cases hi : i < cs1.length
                · obtain ⟨u1, hu1⟩ : ∃ x, cs1[i]? = some x := by
                    rw [List.getElem?_eq_getElem hi]
                    exact ⟨_, rfl⟩
                  obtain ⟨u2, hu2⟩ : ∃ x, cs2[i]? = some x := by
                    rw [List.getElem?_eq_getElem (hlen ▸ hi)]
                    exact ⟨_, rfl⟩
                  have hcpi := childPositions_get cs1 (p + 1) i hi
                  have hcpi2 : (childPositions cs2 (p + 1))[i]? =
                      some (p + 1 + sizeL (cs1.take i)) := by
                    rw [← hcp]
                    exact hcpi
                  have ha1 := At.child h1 hu1 hcpi
                  have ha2 := At.child h2 hu2 hcpi2
                  have hszu : size u1 ≤ n := by
                    have := size_le_sizeL cs1 u1 (List.getElem?_mem hu1)
                    omega
                  have := ih u1 u2 _ _ _ _ _ _ _ _ _ hszu ha1 ha2
                  rw [hu1, hu2, this]
                · rw [List.getElem?_eq_none (by omega),
                    List.getElem?_eq_none (by rw [← hlen]; omega)]
              rw [hna.1, hna.2, hcs]

/-- An `all` over the zip of two position lists equals the pairwise
structural equality of the corresponding forests, given a pointwise
correspondence.  Both sides stop at the shorter list. -/
theorem all_zip_eq (s : Store) (n : Nat) :
    ∀ (m1 m2 : List PTree) (l1 l2 : List Nat),
    l1.length = m1.length → l2.length = m2.length →
    (∀ (i c1 c2 : Nat) (u1 u2 : PTree), l1[i]? = some c1 → l2[i]? = some c2 →
      m1[i]? = some u1 → m2[i]? = some u2 →
      nodeEq s n c1 c2 = ptreeEqB u1 u2) →
    (l1.zip l2).all (fun pr => nodeEq s n pr.1 pr.2) = ptreeEqBL m1 m2
  | [], m2, l1, l2, hl1, hl2, hp => by
      have h0 : l1 = [] := List.eq_nil_of_length_eq_zero (by simpa using hl1)
      subst h0
      simp [ptreeEqBL]
  | u1 :: m1, [], l1, l2, hl1, hl2, hp => by
      have h0 : l2 = [] := List.eq_nil_of_length_eq_zero (by simpa using hl2)
      subst h0
      simp [List.zip_nil_right, ptreeEqBL]
  | u1 :: m1, u2 :: m2, l1, l2, hl1, hl2, hp => by
      cases l1 with
      | nil => simp at hl1
      | cons c1 l1 =>
          cases l2 with
          | nil => simp at hl2
          | cons c2 l2 =>
              have h0 := hp 0 c1 c2 u1 u2 (by simp) (by simp) (by simp)
                (by simp)
              have ih := all_zip_eq s n m1 m2 l1 l2 (by simpa using hl1)
                (by simpa using hl2)
                (fun i a b x y ha hb hx hy =>
                  hp (i + 1) a b x y (by simpa using ha) (by simpa using hb)
                    (by simpa using hx) (by simpa using hy))
              simp only [List.zip_cons_cons, List.all_cons, h0, ih]
              rfl

/-- On the canonical store, the heap-level `__eq__` agrees with
identity-or-structural equality of the located subtrees. -/
theorem nodeEq_at (t : PTree) : ∀ (fuel : Nat) (u v : PTree) (d1 p : Nat)
    (par1 ps1 ns1 : Option Nat) (d2 q : Nat) (par2 ps2 ns2 : Option Nat),
    size u < fuel → attrsOk u = true → attrsOk v = true →
    At t d1 p par1 ps1 ns1 u → At t d2 q par2 ps2 ns2 v →
    nodeEq (storeOf t) fuel p q = (decide (p = q) || ptreeEqB u v) := by
  intro fuel
  induction fuel with
  | zero =>
      intro u _ _ _ _ _ _ _ _ _ _ _ hsz
      omega
  | succ n ih =>
      intro u v d1 p par1 ps1 ns1 d2 q par2 ps2 ns2 hsz hok1 hok2 h1 h2
      by_cases hpq : p = q
      · subst hpq
        simp [nodeEq]
      · have hL1 := h1.rootLabel
        have hL2 := h2.rootLabel
        rw [show nodeEq (storeOf t) (n + 1) p q =
          (if p = q then true
           else
             match (storeOf t p).kind, (storeOf t q).kind with
             | Kind.tagK, Kind.tagK =>
                 (storeOf t p).name == (storeOf t q).name
                   && attrsEq (storeOf t p).attrs (storeOf t q).attrs
                   && decide ((storeOf t p).contents.length =
                       (storeOf t q).contents.length)
                   && ((storeOf t p).contents.zip (storeOf t q).contents).all
                       (fun pr => nodeEq (storeOf t) n pr.1 pr.2)
             | Kind.textK, Kind.textK =>
                 (storeOf t p).value == (storeOf t q).value
             | _, _ => false) from rfl]
        rw [if_neg hpq, decide_eq_false hpq, Bool.false_or]
        cases u with
        | textN v1 =>
            have hk1 : (storeOf t p).kind = Kind.textK :=
              congrArg Prod.fst hL1
            have hv1 : (storeOf t p).value = v1 :=
              congrArg (fun x => x.2.2.2) hL1
            cases v with
            | textN v2 =>
                have hk2 : (storeOf t q).kind = Kind.textK :=
                  congrArg Prod.fst hL2
                have hv2 : (storeOf t q).value = v2 :=
                  congrArg (fun x => x.2.2.2) hL2
                simp only [hk1, hk2, hv1, hv2]
                rfl
            | tagN n2 a2 cs2 =>
                have hk2 : (storeOf t q).kind = Kind.tagK :=
                  congrArg Prod.fst hL2
                simp only [hk1, hk2]
                rfl
        | tagN n1 a1 cs1 =>
            have hk1 : (storeOf t p).kind = Kind.tagK :=
              congrArg Prod.fst hL1
            have hn1 : (storeOf t p).name = n1 :=
              congrArg (fun x => x.2.1) hL1
            have ha1 : (storeOf t p).attrs = a1 :=
              congrArg (fun x => x.2.2.1) hL1
            cases v with
            | textN v2 =>
                have hk2 : (storeOf t q).kind = Kind.textK :=
                  congrArg Prod.fst hL2
                simp only [hk1, hk2]
                rfl
            | tagN n2 a2 cs2 =>
                have hk2 : (storeOf t q).kind = Kind.tagK :=
                  congrArg Prod.fst hL2
                have hn2 : (storeOf t q).name = n2 :=
                  congrArg (fun x => x.2.1) hL2
                have ha2 : (storeOf t q).attrs = a2 :=
                  congrArg (fun x => x.2.2.1) hL2
                have hc1 := h1.contents_eq
                have hc2 := h2.contents_eq
                have hok1c : attrsOkL cs1 = true := by
                  simpa [attrsOk, Bool.and_eq_true] using
                    (And.right (by simpa [attrsOk, Bool.and_eq_true] using hok1))
                have hok2c : attrsOkL cs2 = true := by
                  simpa [attrsOk, Bool.and_eq_true] using
                    (And.right (by simpa [attrsOk, Bool.and_eq_true] using hok2))
                have hzip : ((childPositions cs1 (p + 1)).zip
                    (childPositions cs2 (q + 1))).all
                    (fun pr => nodeEq (storeOf t) n pr.1 pr.2)
                    = ptreeEqBL cs1 cs2 := by
                  apply all_zip_eq (storeOf t) n cs1 cs2
                  · exact childPositions_length cs1 (p + 1)
                  · exact childPositions_length cs2 (q + 1)
                  · intro i c1 c2 u1 u2 hpc1 hpc2 hu1 hu2
                    have hA1 := At.child h1 hu1 hpc1
                    have hA2 := At.child h2 hu2 hpc2
                    have hszu : size u1 < n := by
                      have hle := size_le_sizeL cs1 u1 (List.getElem?_mem hu1)
                      have : size (PTree.tagN n1 a1 cs1) = 1 + sizeL cs1 := by
                        simp [size]
                      omega
                    have hoku1 : attrsOk u1 = true :=
                      attrsOkL_mem cs1 hok1c u1 (List.getElem?_mem hu1)
                    have hoku2 : attrsOk u2 = true :=
                      attrsOkL_mem cs2 hok2c u2 (List.getElem?_mem hu2)
                    have heq := ih u1 u2 _ c1 _ _ _ _ c2 _ _ _ hszu hoku1
                      hoku2 hA1 hA2
                    by_cases hcc : c1 = c2
                    · subst hcc
                      have hu12 : u1 = u2 := At_inj t n u1 u2 _ c1 _ _ _ _
                        _ _ _ (le_of_lt hszu) hA1 hA2
                      rw [heq]
                      simp [hu12, ptreeEqB_refl u2 hoku2]
                    · rw [heq, decide_eq_false hcc, Bool.false_or]
                simp only [hk1, hk2]
                rw [hn1, hn2, ha1, ha2, hc1, hc2, childPositions_length,
                  childPositions_length, hzip]
                rfl

/-- C10: tag equality is structural, not positional.  `__eq__` returns
true when the two operands are the same object (heap identity always
compares equal), and otherwise exactly when the located subtrees are
structurally equal — same kind, equal names, equal attribute maps, the
same number of children and pairwise-equal children — where `ptreeEqB`
mentions no position or navigation pointer, so two tags at different
tree positions can compare equal. -/
theorem c10_tag_equality :
    (∀ (s : Store) (fuel a : Nat), 0 < fuel → nodeEq s fuel a a = true)
    ∧ (∀ (t : PTree) (fuel : Nat) (u v : PTree) (d1 p : Nat)
        (par1 ps1 ns1 : Option Nat) (d2 q : Nat) (par2 ps2 ns2 : Option Nat),
        At t d1 p par1 ps1 ns1 u → At t d2 q par2 ps2 ns2 v →
        size u < fuel → attrsOk u = true → attrsOk v = true →
        (nodeEq (storeOf t) fuel p q = true ↔ p = q ∨ ptreeEqB u v = true)) := by
  constructor
  · intro s fuel a hf
    cases fuel with
    | zero => omega
    | succ n => simp [nodeEq]
  · intro t fuel u v d1 p par1 ps1 ns1 d2 q par2 ps2 ns2 h1 h2 hsz hok1 hok2
    rw [nodeEq_at t fuel u v d1 p par1 ps1 ns1 d2 q par2 ps2 ns2 hsz hok1
      hok2 h1 h2]
    simp

/-- A small tag subtree used twice in `exTwin`. -/
def exTwinA : PTree := PTree.tagN "a" [("k", "1")] [PTree.textN "x"]

/-- `<r><a k="1">x</a><a k="1">x</a></r>`: two structurally identical
subtrees at the distinct pre-order positions 1 and 3. -/
def exTwin : PTree := PTree.tagN "r" [] [exTwinA, exTwinA]

/-- Witness for C10 on `exTwin`: the distinct positions 1 and 3 carry
structurally equal tags, and `__eq__` reports them equal. -/
theorem c10_tag_equality_witness :
    nodeEq (storeOf exTwin) 10 1 3 = true
    ∧ (1 : Nat) ≠ 3
    ∧ ptreeEqB exTwinA exTwinA = true := by
  have hroot : At exTwin 0 0 none none none
      (PTree.tagN "r" [] [exTwinA, exTwinA]) := At.root
  have h1 := At.child hroot
    (show [exTwinA, exTwinA][0]? = some exTwinA from rfl)
    (show (childPositions [exTwinA, exTwinA] (0 + 1))[0]? = some 1 from rfl)
  have h2 := At.child hroot
    (show [exTwinA, exTwinA][1]? = some exTwinA from rfl)
    (show (childPositions [exTwinA, exTwinA] (0 + 1))[1]? = some 3 from rfl)
  have hpeq : ptreeEqB exTwinA exTwinA = true :=
    ptreeEqB_refl exTwinA (by decide)
  have hiff := c10_tag_equality.2 exTwin 10 exTwinA exTwinA _ 1 _ _ _ _ 3
    _ _ _ h1 h2 (by decide) (by decide) (by decide)
  exact ⟨hiff.mpr (Or.inr hpeq), by decide, hpeq⟩

/-! ### The builder's end-tag path: `Bisque.handle_endtag`, `_popToTag`,
`popTag` and `endData` (`main.py`).

The builder state is modelled by the fields these methods read and write:
the open-tag stack (bottom element the `[document]` root), the
`open_tag_counter` dict, the whitespace-preserving tag stack, the pending
`current_data` buffer, and a log of the strings handed to
`object_was_parsed` (the tree-integration side of `object_was_parsed` is
the `insert`/linkage machinery embedded earlier; for the end-tag path only
the creation order of the strings matters).  `currentTag` is derived: it
is the top of the stack.  `parse_only` is `None` and
`string_container_stack` only selects the class of the created string, so
neither is carried. -/

/-- An open tag as the stack discipline distinguishes it: its name and
namespace particle. -/
structure BTag where
  name : String
  nsPre : Option String := none
deriving DecidableEq, Repr

/-- The builder state (see the section comment). -/
structure BState where
  tagStack : List BTag := []
  counter : List (String × Int) := []
  preserveStack : List BTag := []
  currentData : List String := []
  parsedStrings : List String := []
deriving DecidableEq, Repr

/-- `Bisque.ASCII_SPACES`: space, newline, tab, form feed, carriage
return. -/
def asciiSpaces : List Char := [' ', '\n', '\t', Char.ofNat 12, Char.ofNat 13]

/-- `self.open_tag_counter.get(name)` with Python falsiness folded in:
a missing entry reads as `0` (`None` and `0` are equally falsy at the one
place the builder reads the counter). -/
def cGet (counter : List (String × Int)) (name : String) : Int :=
  match counter.find? (fun kv => kv.1 == name) with
  | some kv => kv.2
  | none => 0

/-- `Bisque.endData` (main.py lines 592-628) on the builder state: a
nonempty buffer is joined, collapsed to a single newline or space when it
is all-whitespace and no whitespace-preserving tag is open, the buffer is
reset, and the resulting string becomes a `NavigableString` handed to
`object_was_parsed` (appended to the log). -/
def endData (st : BState) : BState :=
  match st.currentData with
  | [] => st
  | _ =>
      let cd0 := String.join st.currentData
      let cd :=
        if st.preserveStack.isEmpty then
          if cd0.toList.all (fun c => c ∈ asciiSpaces) then
            (if ('\n' ∈ cd0.toList) then "\n" else " ")
          else cd0
        else cd0
      { st with currentData := [],
                parsedStrings := st.parsedStrings ++ [cd] }

/-- `Bisque.popTag` (main.py lines 561-576) on the builder state: pop the
top of `tagStack`, decrement the popped name's counter entry when one
exists, and pop the whitespace-preserving stack when the popped tag is
its top. -/
def popTag (st : BState) : BState :=
  match st.tagStack.getLast? with
  | none => st
  | some tag =>
      let counter2 :=
        if (st.counter.find? (fun kv => kv.1 == tag.name)).isSome then
          st.counter.map (fun kv =>
            if kv.1 == tag.name then (kv.1, kv.2 - 1) else kv)
        else st.counter
      let pws2 :=
        match st.preserveStack.getLast? with
        | some pt => if pt = tag then st.preserveStack.dropLast
                     else st.preserveStack
        | none => st.preserveStack
      { st with tagStack := st.tagStack.dropLast, counter := counter2,
                preserveStack := pws2 }

/-- The loop of `Bisque._popToTag` (main.py lines 714-726).  The index
`i` of `for i in range(stack_size - 1, 0, -1)` always points at the
current top of the stack (each earlier iteration popped exactly one
element), so the loop repeatedly examines the top: it stops when the
name's counter is falsy, pops and stops on a tag matching both `name`
and `nsprefix`, and otherwise pops and continues; the fuel is the
iteration count `stack_size - 1`, which keeps index `0` (the root) out
of reach.  The `most_recently_popped` return value is dropped: the
claim concerns the stack. -/
def popToTagAux (name : String) (ns : Option String) : Nat → BState → BState
  | 0, st => st
  | fuel + 1, st =>
      if cGet st.counter name = 0 then st
      else
        match st.tagStack.getLast? with
        | none => st
        | some t =>
            if name = t.name ∧ ns = t.nsPre then popTag st
            else popToTagAux name ns fuel (popTag st)

/-- `Bisque._popToTag` (main.py lines 697-726) with the default
`inclusivePop=True`: the `[document]` root name returns immediately,
otherwise the loop above runs for at most `stack_size - 1` iterations. -/
def popToTag (st : BState) (name : String) (ns : Option String) : BState :=
  if name = "[document]" then st
  else popToTagAux name ns (st.tagStack.length - 1) st

/-- `Bisque.handle_endtag` (main.py lines 789-797): flush pending text,
then pop to the tag. -/
def handle_endtag (st : BState) (name : String) (ns : Option String) :
    BState :=
  popToTag (endData st) name ns

/-- The counter invariant the builder maintains: the counter entry of
every name reads as the number of open (non-root) stack entries with that
name. -/
def counterAcc (st : BState) : Prop :=
  ∀ nm : String, cGet st.counter nm =
    ((st.tagStack.drop 1).countP (fun t => t.name == nm) : Int)

/-- Reading `cGet` past a non-matching head entry. -/
theorem cGet_cons_ne (y : String × Int) (l : List (String × Int))
    (nm : String) (h : ¬y.1 = nm) : cGet (y :: l) nm = cGet l nm := by
  unfold cGet
  rw [List.find?_cons_of_neg _ (by simp [h])]

/-- Reading `cGet` at a matching head entry. -/
theorem cGet_cons_eq (y : String × Int) (l : List (String × Int))
    (nm : String) (h : y.1 = nm) : cGet (y :: l) nm = y.2 := by
  unfold cGet
  rw [List.find?_cons_of_pos _ (by simp [h])]

/-- Decrementing every entry of one key changes only that key's reading,
and only when an entry exists. -/
theorem cGet_map_decr : ∀ (counter : List (String × Int)) (key nm : String),
    cGet (counter.map (fun kv =>
        if kv.1 == key then (kv.1, kv.2 - 1) else kv)) nm
      = (if nm = key ∧ (counter.find? (fun kv => kv.1 == key)).isSome
         then cGet counter nm - 1 else cGet counter nm)
  | [], key, nm => by simp [cGet]
  | kv0 :: rest, key, nm => by
      have ih := cGet_map_decr rest key nm
      by_cases hk : kv0.1 = key
      · have hmap : (kv0 :: rest).map (fun kv =>
            if kv.1 == key then (kv.1, kv.2 - 1) else kv)
            = (kv0.1, kv0.2 - 1) :: rest.map (fun kv =>
                if kv.1 == key then (kv.1, kv.2 - 1) else kv) := by
          simp [hk]
        have hfind : ((kv0 :: rest).find? (fun kv => kv.1 == key)).isSome := by
          rw [List.find?_cons_of_pos _ (by simp [hk])]
          rfl
        by_cases hn : kv0.1 = nm
        · have hnk : nm = key := by rw [← hn]; exact hk
          rw [hmap, cGet_cons_eq (kv0.1, kv0.2 - 1) _ nm hn,
            cGet_cons_eq kv0 rest nm hn, if_pos ⟨hnk, hfind⟩]
        · have hnk : ¬(nm = key) := by
            intro he
            exact hn (by rw [hk, ← he])
          rw [hmap, cGet_cons_ne (kv0.1, kv0.2 - 1) _ nm hn,
            cGet_cons_ne kv0 rest nm hn, if_neg (fun hcon => hnk hcon.1)]
          simpa [hnk] using ih
      · have hmap : (kv0 :: rest).map (fun kv =>
            if kv.1 == key then (kv.1, kv.2 - 1) else kv)
            = kv0 :: rest.map (fun kv =>
                if kv.1 == key then (kv.1, kv.2 - 1) else kv) := by
          simp [hk]
        have hfind : (kv0 :: rest).find? (fun kv => kv.1 == key)
            = rest.find? (fun kv => kv.1 == key) :=
          List.find?_cons_of_neg _ (by simp [hk])
        by_cases hn : kv0.1 = nm
        · have hnk : ¬(nm = key) := by
            intro he
            exact hk (by rw [hn, he])
          rw [hmap, cGet_cons_eq kv0 (rest.map (fun kv =>
              if kv.1 == key then (kv.1, kv.2 - 1) else kv)) nm hn,
            cGet_cons_eq kv0 rest nm hn,
            if_neg (fun hcon => hnk hcon.1)]
        · rw [hmap, cGet_cons_ne kv0 (rest.map (fun kv =>
              if kv.1 == key then (kv.1, kv.2 - 1) else kv)) nm hn,
            cGet_cons_ne kv0 rest nm hn, hfind]
          exact ih

/-- Popping the top of a nonempty stack: the stack loses its last
element and the counter reading drops by one exactly at the popped name
(when an entry exists). -/
theorem popTag_stack (st : BState) (l : List BTag) (x : BTag)
    (h : st.tagStack = l ++ [x]) :
    (popTag st).tagStack = l
    ∧ (∀ nm, cGet (popTag st).counter nm =
        (if nm = x.name ∧
            (st.counter.find? (fun kv => kv.1 == x.name)).isSome
         then cGet st.counter nm - 1 else cGet st.counter nm))
    ∧ (popTag st).currentData = st.currentData
    ∧ (popTag st).parsedStrings = st.parsedStrings := by
  have hgl : st.tagStack.getLast? = some x := by
    rw [h]
    exact List.getLast?_concat _
  unfold popTag
  rw [hgl]
  refine ⟨?_, ?_, rfl, rfl⟩
  · show st.tagStack.dropLast = l
    rw [h]
    exact List.dropLast_concat
  · intro nm
    show cGet (if (st.counter.find? (fun kv => kv.1 == x.name)).isSome then
        st.counter.map (fun kv =>
          if kv.1 == x.name then (kv.1, kv.2 - 1) else kv)
      else st.counter) nm = _
    by_cases hs : (st.counter.find? (fun kv => kv.1 == x.name)).isSome
    · rw [if_pos hs, cGet_map_decr st.counter x.name nm]
    · rw [if_neg hs, if_neg (fun hcon => hs hcon.2)]

/-- `popTag` preserves the counter invariant. -/
theorem counterAcc_popTag (st : BState) (r : BTag) (rest : List BTag)
    (x : BTag) (h : st.tagStack = r :: rest ++ [x]) (hacc : counterAcc st) :
    counterAcc (popTag st) := by
  have hps := popTag_stack st (r :: rest) x (by simpa using h)
  intro nm
  rw [hps.2.1 nm, hps.1]
  have hold := hacc nm
  rw [h] at hold
  rw [show ((r :: rest ++ [x]).drop 1) = rest ++ [x] from rfl] at hold
  rw [show ((r :: rest).drop 1) = rest from rfl]
  rw [List.countP_append, List.countP_cons, List.countP_nil] at hold
  by_cases hnm : nm = x.name
  · have hbx : (x.name == nm) = true := by simp [hnm]
    rw [hbx, if_pos rfl] at hold
    have hsome : (st.counter.find? (fun kv => kv.1 == x.name)).isSome := by
      by_contra hns
      have h0 : cGet st.counter x.name = 0 := by
        unfold cGet
        cases hfind : st.counter.find? (fun kv => kv.1 == x.name) with
        | none => rfl
        | some kv => rw [hfind] at hns; simp at hns
      rw [← hnm] at h0
      rw [h0] at hold
      omega
    rw [if_pos ⟨hnm, hsome⟩, hold]
    push_cast
    omega
  · have hbx : (x.name == nm) = false := by
      simp
      intro he
      exact hnm he.symm
    rw [hbx, if_neg (by simp)] at hold
    rw [if_neg (fun hcon => hnm hcon.1), hold]
    push_cast
    omega

/-- The `_popToTag` loop pops exactly the elements above the most recent
tag matching both the name and the namespace particle, and that tag
itself. -/
theorem popToTagAux_spec (name : String) (ns : Option String) :
    ∀ (post : List BTag) (fuel : Nat) (st : BState) (r : BTag)
      (pre : List BTag) (t : BTag),
    st.tagStack = r :: pre ++ t :: post →
    counterAcc st →
    t.name = name → t.nsPre = ns →
    (∀ x ∈ post, ¬(name = x.name ∧ ns = x.nsPre)) →
    post.length < fuel →
    (popToTagAux name ns fuel st).tagStack = r :: pre := by
  intro post
  induction post using List.reverseRecOn with
  | nil =>
      intro fuel st r pre t hst hacc hn hns hpost hfuel
      cases fuel with
      | zero => omega
      | succ f =>
          have hc := hacc name
          rw [hst] at hc
          rw [show ((r :: pre ++ [t]).drop 1) = pre ++ [t] from rfl] at hc
          have hpos : 0 < (pre ++ [t]).countP (fun u => u.name == name) :=
            List.countP_pos.mpr ⟨t, by simp, by simp [hn]⟩
          have hcnt : ¬(cGet st.counter name = 0) := by
            rw [hc]
            intro h0
            have : (pre ++ [t]).countP (fun u => u.name == name) = 0 := by
              exact_mod_cast h0
            omega
          have hgl : st.tagStack.getLast? = some t := by
            rw [hst, show r :: pre ++ [t] = (r :: pre) ++ [t] from by simp]
            exact List.getLast?_concat _
          have hstep : popToTagAux name ns (f + 1) st =
              (if name = t.name ∧ ns = t.nsPre then popTag st
               else popToTagAux name ns f (popTag st)) := by
            rw [popToTagAux, if_neg hcnt, hgl]
          rw [hstep, if_pos ⟨hn.symm, hns.symm⟩]
          exact (popTag_stack st (r :: pre) t (by simpa using hst)).1
  | append_singleton post x ih =>
      intro fuel st r pre t hst hacc hn hns hpost hfuel
      cases fuel with
      | zero => omega
      | succ f =>
          have hc := hacc name
          rw [hst] at hc
          rw [show ((r :: pre ++ t :: (post ++ [x])).drop 1)
            = pre ++ t :: (post ++ [x]) from rfl] at hc
          have hpos : 0 <
              (pre ++ t :: (post ++ [x])).countP (fun u => u.name == name) :=
            List.countP_pos.mpr ⟨t, by simp, by simp [hn]⟩
          have hcnt : ¬(cGet st.counter name = 0) := by
            rw [hc]
            intro h0
            have : (pre ++ t :: (post ++ [x])).countP
                (fun u => u.name == name) = 0 := by
              exact_mod_cast h0
            omega
          have hgl : st.tagStack.getLast? = some x := by
            rw [hst, show r :: pre ++ t :: (post ++ [x]) =
              (r :: pre ++ t :: post) ++ [x] from by simp]
            exact List.getLast?_concat _
          have hxne : ¬(name = x.name ∧ ns = x.nsPre) := hpost x (by simp)
          have hstep : popToTagAux name ns (f + 1) st =
              (if name = x.name ∧ ns = x.nsPre then popTag st
               else popToTagAux name ns f (popTag st)) := by
            rw [popToTagAux, if_neg hcnt, hgl]
          rw [hstep, if_neg hxne]
          have hps := popTag_stack st (r :: pre ++ t :: post) x
            (by simpa using hst)
          have hacc2 : counterAcc (popTag st) :=
            counterAcc_popTag st r (pre ++ t :: post) x (by simpa using hst)
              hacc
          exact ih f (popTag st) r pre t (by simpa using hps.1) hacc2 hn hns
            (fun y hy => hpost y (by simp [hy])) (by simp at hfuel; omega)

/-- The loop never touches the data fields. -/
theorem popToTagAux_data (name : String) (ns : Option String) :
    ∀ (fuel : Nat) (st : BState),
    (popToTagAux name ns fuel st).currentData = st.currentData
    ∧ (popToTagAux name ns fuel st).parsedStrings = st.parsedStrings
  | 0, st => ⟨rfl, rfl⟩
  | fuel + 1, st => by
      by_cases hc : cGet st.counter name = 0
      · rw [popToTagAux, if_pos hc]
        exact ⟨rfl, rfl⟩
      · cases hgl : st.tagStack.getLast? with
        | none =>
            rw [popToTagAux, if_neg hc, hgl]
            exact ⟨rfl, rfl⟩
        | some t =>
            have hstep : popToTagAux name ns (fuel + 1) st =
                (if name = t.name ∧ ns = t.nsPre then popTag st
                 else popToTagAux name ns fuel (popTag st)) := by
              rw [popToTagAux, if_neg hc, hgl]
            have hpt : (popTag st).currentData = st.currentData ∧
                (popTag st).parsedStrings = st.parsedStrings := by
              unfold popTag
              rw [hgl]
              exact ⟨rfl, rfl⟩
            rw [hstep]
            by_cases hm : name = t.name ∧ ns = t.nsPre
            · rw [if_pos hm]
              exact hpt
            · rw [if_neg hm]
              have ih := popToTagAux_data name ns fuel (popTag st)
              exact ⟨ih.1.trans hpt.1, ih.2.trans hpt.2⟩

/-- C7 counterexample: the builder stack holds the root, an open `N`
with no namespace particle, and on top an open `N` with particle `p` —
so the most recent open element *named* `N` is the top of the stack.
`end_tag("N")` (no particle) does not stop at it: the match in
`_popToTag` requires name *and* particle to agree, so the loop pops past
the top tag and also pops the lower `N`, leaving only the root instead
of the claim's predicted `[root, N]`. -/
theorem c7_end_tag_counterexample :
    (({ tagStack := [⟨"[document]", none⟩, ⟨"N", none⟩, ⟨"N", some "p"⟩],
        counter := [("N", 2)] } : BState).tagStack.getLast?).map BTag.name
      = some "N"
    ∧ (handle_endtag
        { tagStack := [⟨"[document]", none⟩, ⟨"N", none⟩, ⟨"N", some "p"⟩],
          counter := [("N", 2)] } "N" none).tagStack
      = [⟨"[document]", none⟩]
    ∧ (handle_endtag
        { tagStack := [⟨"[document]", none⟩, ⟨"N", none⟩, ⟨"N", some "p"⟩],
          counter := [("N", 2)] } "N" none).tagStack
      ≠ [⟨"[document]", none⟩, ⟨"N", none⟩] := by
  refine ⟨by decide, by decide, by decide⟩

/-- C7 as amended: `end_tag(name, nsprefix)` first flushes the pending
text buffer (the pops never touch the data fields); when the counter is
accurate and no open (non-root) tag bears the name, the stack is left
unchanged — a no-op, not an error; and otherwise it pops the open-tag
stack up to and including the most recent open element matching *both*
the name and the namespace particle (not merely the name), implicitly
closing every tag opened after it. -/
theorem c7_end_tag_amended :
    (∀ (st : BState) (name : String) (ns : Option String),
      (handle_endtag st name ns).currentData = []
      ∧ (handle_endtag st name ns).parsedStrings =
          (endData st).parsedStrings)
    ∧ (∀ (st : BState) (name : String) (ns : Option String),
      name ≠ "[document]" → counterAcc st →
      (∀ x ∈ st.tagStack.drop 1, x.name ≠ name) →
      (popToTag st name ns).tagStack = st.tagStack)
    ∧ (∀ (st : BState) (name : String) (ns : Option String) (r t : BTag)
        (pre post : List BTag),
      name ≠ "[document]" → counterAcc st →
      st.tagStack = r :: pre ++ t :: post →
      t.name = name → t.nsPre = ns →
      (∀ x ∈ post, ¬(name = x.name ∧ ns = x.nsPre)) →
      (popToTag st name ns).tagStack = r :: pre) := by
  refine ⟨?_, ?_, ?_⟩
  · intro st name ns
    unfold handle_endtag popToTag
    by_cases hroot : name = "[document]"
    · rw [if_pos hroot]
      constructor
      · unfold endData
        cases hcd : st.currentData with
        | nil => exact hcd
        | cons a l => rfl
      · rfl
    · rw [if_neg hroot]
      have hdata := popToTagAux_data name ns
        ((endData st).tagStack.length - 1) (endData st)
      constructor
      · rw [hdata.1]
        unfold endData
        cases hcd : st.currentData with
        | nil => exact hcd
        | cons a l => rfl
      · exact hdata.2
  · intro st name ns hroot hacc hnone
    unfold popToTag
    rw [if_neg hroot]
    have hc0 : cGet st.counter name = 0 := by
      rw [hacc name]
      have : (st.tagStack.drop 1).countP (fun t => t.name == name) = 0 := by
        rw [List.countP_eq_zero]
        intro x hx
        simp only [beq_iff_eq]
        exact hnone x hx
      rw [this]
      rfl
    cases hf : st.tagStack.length - 1 with
    | zero => rfl
    | succ f =>
        rw [popToTagAux, if_pos hc0]
  · intro st name ns r t pre post hroot hacc hst hn hns hpost
    unfold popToTag
    rw [if_neg hroot]
    apply popToTagAux_spec name ns post (st.tagStack.length - 1) st r pre t
      hst hacc hn hns hpost
    rw [hst]
    simp
    omega

/-- Witness for C7: on the counterexample state, the buffer stays empty,
popping a name with no open tag (`"M"`) leaves the stack unchanged, and
`end_tag("N", "p")` pops exactly to the matching prefixed tag. -/
theorem c7_end_tag_amended_witness :
    ((handle_endtag
        { tagStack := [⟨"[document]", none⟩, ⟨"N", none⟩, ⟨"N", some "p"⟩],
          counter := [("N", 2)] } "N" none).currentData = [])
    ∧ (popToTag
        { tagStack := [⟨"[document]", none⟩, ⟨"N", none⟩, ⟨"N", some "p"⟩],
          counter := [("N", 2)] } "M" none).tagStack
      = [⟨"[document]", none⟩, ⟨"N", none⟩, ⟨"N", some "p"⟩]
    ∧ (popToTag
        { tagStack := [⟨"[document]", none⟩, ⟨"N", none⟩, ⟨"N", some "p"⟩],
          counter := [("N", 2)] } "N" (some "p")).tagStack
      = [⟨"[document]", none⟩, ⟨"N", none⟩] := by
  have hacc : counterAcc
      { tagStack := [⟨"[document]", none⟩, ⟨"N", none⟩, ⟨"N", some "p"⟩],
        counter := [("N", 2)] } := by
    intro nm
    by_cases h : nm = "N"
    · subst h
      decide
    · have hne : ("N" == nm) = false := by
        simp only [beq_eq_false_iff_ne, ne_eq]
        exact fun he => h he.symm
      simp [cGet, hne, List.countP_cons, List.countP_nil]
  refine ⟨(c7_end_tag_amended.1 _ "N" none).1, ?_, ?_⟩
  · exact c7_end_tag_amended.2.1 _ "M" none (by decide) hacc (by decide)
  · exact c7_end_tag_amended.2.2 _ "N" (some "p") ⟨"[document]", none⟩
      ⟨"N", some "p"⟩ [⟨"N", none⟩] [] (by decide) hacc (by decide) rfl rfl
      (by simp)

/-! ### The round trip: `extract` then `insert` at the original index -/

/-! Field-projection views of a pointwise store update: a write that does
not touch a field preserves it everywhere; a write splits into the two
index cases. -/

theorem updC (s : Store) (idx : Nat) (f : Node → Node) (j : Nat)
    (hf : ∀ n, (f n).contents = n.contents) :
    ((upd s idx f) j).contents = (s j).contents := by
  by_cases h : j = idx <;> simp [upd, h, hf]

theorem updC_s (s : Store) (idx : Nat) (f : Node → Node) (j : Nat) :
    ((upd s idx f) j).contents =
      (if j = idx then (f (s j)).contents else (s j).contents) := by
  by_cases h : j = idx <;> simp [upd, h]

theorem updP (s : Store) (idx : Nat) (f : Node → Node) (j : Nat)
    (hf : ∀ n, (f n).parent = n.parent) :
    ((upd s idx f) j).parent = (s j).parent := by
  by_cases h : j = idx <;> simp [upd, h, hf]

theorem updP_s (s : Store) (idx : Nat) (f : Node → Node) (j : Nat) :
    ((upd s idx f) j).parent =
      (if j = idx then (f (s j)).parent else (s j).parent) := by
  by_cases h : j = idx <;> simp [upd, h]

theorem updPE (s : Store) (idx : Nat) (f : Node → Node) (j : Nat)
    (hf : ∀ n, (f n).previousElement = n.previousElement) :
    ((upd s idx f) j).previousElement = (s j).previousElement := by
  by_cases h : j = idx <;> simp [upd, h, hf]

theorem updPE_s (s : Store) (idx : Nat) (f : Node → Node) (j : Nat) :
    ((upd s idx f) j).previousElement =
      (if j = idx then (f (s j)).previousElement
       else (s j).previousElement) := by
  by_cases h : j = idx <;> simp [upd, h]

theorem updNE (s : Store) (idx : Nat) (f : Node → Node) (j : Nat)
    (hf : ∀ n, (f n).nextElement = n.nextElement) :
    ((upd s idx f) j).nextElement = (s j).nextElement := by
  by_cases h : j = idx <;> simp [upd, h, hf]

theorem updNE_s (s : Store) (idx : Nat) (f : Node → Node) (j : Nat) :
    ((upd s idx f) j).nextElement =
      (if j = idx then (f (s j)).nextElement else (s j).nextElement) := by
  by_cases h : j = idx <;> simp [upd, h]

theorem updPS (s : Store) (idx : Nat) (f : Node → Node) (j : Nat)
    (hf : ∀ n, (f n).previousSibling = n.previousSibling) :
    ((upd s idx f) j).previousSibling = (s j).previousSibling := by
  by_cases h : j = idx <;> simp [upd, h, hf]

theorem updPS_s (s : Store) (idx : Nat) (f : Node → Node) (j : Nat) :
    ((upd s idx f) j).previousSibling =
      (if j = idx then (f (s j)).previousSibling
       else (s j).previousSibling) := by
  by_cases h : j = idx <;> simp [upd, h]

theorem updNS (s : Store) (idx : Nat) (f : Node → Node) (j : Nat)
    (hf : ∀ n, (f n).nextSibling = n.nextSibling) :
    ((upd s idx f) j).nextSibling = (s j).nextSibling := by
  by_cases h : j = idx <;> simp [upd, h, hf]

theorem updNS_s (s : Store) (idx : Nat) (f : Node → Node) (j : Nat) :
    ((upd s idx f) j).nextSibling =
      (if j = idx then (f (s j)).nextSibling else (s j).nextSibling) := by
  by_cases h : j = idx <;> simp [upd, h]

theorem updK (s : Store) (idx : Nat) (f : Node → Node) (j : Nat)
    (hf : ∀ n, (f n).kind = n.kind) :
    ((upd s idx f) j).kind = (s j).kind := by
  by_cases h : j = idx <;> simp [upd, h, hf]

theorem updNm (s : Store) (idx : Nat) (f : Node → Node) (j : Nat)
    (hf : ∀ n, (f n).name = n.name) :
    ((upd s idx f) j).name = (s j).name := by
  by_cases h : j = idx <;> simp [upd, h, hf]

theorem updA (s : Store) (idx : Nat) (f : Node → Node) (j : Nat)
    (hf : ∀ n, (f n).attrs = n.attrs) :
    ((upd s idx f) j).attrs = (s j).attrs := by
  by_cases h : j = idx <;> simp [upd, h, hf]

theorem updV (s : Store) (idx : Nat) (f : Node → Node) (j : Nat)
    (hf : ∀ n, (f n).value = n.value) :
    ((upd s idx f) j).value = (s j).value := by
  by_cases h : j = idx <;> simp [upd, h, hf]

theorem updD (s : Store) (idx : Nat) (f : Node → Node) (j : Nat)
    (hf : ∀ n, (f n).decomposed = n.decomposed) :
    ((upd s idx f) j).decomposed = (s j).decomposed := by
  by_cases h : j = idx <;> simp [upd, h, hf]

/-- `extract` on the canonical store of a located child `c` (the `i`-th
child of the tag at `p`): it succeeds, and the result differs from the
canonical store exactly by the documented field surgery — the child's
pointers cleared, the parent's `contents` entry removed, and the
document/sibling chains stitched around the extracted slice
`[c, c + size u)`. -/
theorem extract_full {t : PTree} {d p i c : Nat} {par ps ns : Option Nat}
    {nm : String} {a : List (String × String)} {cs : List PTree} {u : PTree}
    (fuel : Nat)
    (h : At t d p par ps ns (.tagN nm a cs))
    (hcs : cs[i]? = some u)
    (hcp : (childPositions cs (p + 1))[i]? = some c)
    (hfuel : size t ≤ fuel) :
    ∃ s1, extract fuel (storeOf t) c = some s1
      ∧ (∀ j, (s1 j).kind = (storeOf t j).kind
          ∧ (s1 j).name = (storeOf t j).name
          ∧ (s1 j).attrs = (storeOf t j).attrs
          ∧ (s1 j).value = (storeOf t j).value
          ∧ (s1 j).decomposed = (storeOf t j).decomposed)
      ∧ (∀ j, (s1 j).contents = (if j = p
          then (childPositions cs (p + 1)).eraseIdx i
          else (storeOf t j).contents))
      ∧ (∀ j, (s1 j).parent = (if j = c then none else (storeOf t j).parent))
      ∧ (∀ j, (s1 j).previousElement = (if j = c then none
          else if j = c + size u ∧ c + size u < size t then some (c - 1)
          else (storeOf t j).previousElement))
      ∧ (∀ j, (s1 j).nextElement = (if j = c + size u - 1 then none
          else if j = c - 1
          then (if c + size u = size t then none else some (c + size u))
          else (storeOf t j).nextElement))
      ∧ (∀ j, (s1 j).previousSibling = (if j = c then none
          else if j = c + size u ∧ i + 1 < cs.length
          then (if i = 0 then none
                else some (p + 1 + sizeL (cs.take (i - 1))))
          else (storeOf t j).previousSibling))
      ∧ (∀ j, (s1 j).nextSibling = (if j = c then none
          else if 0 < i ∧ j = p + 1 + sizeL (cs.take (i - 1))
          then (if i + 1 < cs.length then some (c + size u) else none)
          else (storeOf t j).nextSibling)) := by
  have hilt : i < cs.length := by
    by_contra hge
    rw [List.getElem?_eq_none (by omega)] at hcs
    simp at hcs
  have hAc0 := At.child h hcs hcp
  have hcval : c = p + 1 + sizeL (cs.take i) := by
    rw [childPositions_get cs (p + 1) i hilt] at hcp
    simp at hcp
    omega
  have hm1 : 1 ≤ size u := size_pos u
  have hple : p + 1 ≤ c := by omega
  have hcmle : c + size u ≤ size t := hAc0.size_le
  have hclt : c < size t := hAc0.pos_lt
  have hpsL : (if i = 0 then none
      else (childPositions cs (p + 1))[i - 1]?) =
      (if i = 0 then none
       else some (p + 1 + sizeL (cs.take (i - 1)))) := by
    by_cases h0 : i = 0
    · rw [if_pos h0, if_pos h0]
    · rw [if_neg h0, if_neg h0, childPositions_get cs (p + 1) (i - 1)
        (by omega)]
  have hnsL : (childPositions cs (p + 1))[i + 1]? =
      (if i + 1 < cs.length then some (c + size u) else none) := by
    by_cases hl : i + 1 < cs.length
    · rw [if_pos hl, childPositions_get cs (p + 1) (i + 1) hl]
      have := sizeL_take_succ cs i u hcs
      congr 1
      omega
    · rw [if_neg hl, childPositions_get_none cs (p + 1) (i + 1) (by omega)]
  rw [hpsL, hnsL] at hAc0
  have hpar_c : (storeOf t c).parent = some p := hAc0.parent_eq
  have hps_c : (storeOf t c).previousSibling =
      (if i = 0 then none else some (p + 1 + sizeL (cs.take (i - 1)))) :=
    hAc0.prevSib_eq
  have hns_c : (storeOf t c).nextSibling =
      (if i + 1 < cs.length then some (c + size u) else none) :=
    hAc0.nextSib_eq
  have hcontents_p : (storeOf t p).contents = childPositions cs (p + 1) :=
    h.contents_eq
  have hfind : (childPositions cs (p + 1)).findIdx? (· = c) = some i :=
    childPositions_findIdx cs (p + 1) i c hcp
  unfold extract
  simp only [hpar_c, hcontents_p, hfind]
  set fA := (fun n : Node => { n with contents := n.contents.eraseIdx i })
    with hfA
  set fD := (fun n : Node => { n with previousElement := none }) with hfD
  set fE := (fun n : Node => { n with nextElement := none }) with hfE
  set fF := (fun n : Node => { n with parent := none }) with hfF
  set fZ := (fun n : Node =>
    { n with previousSibling := none, nextSibling := none }) with hfZ
  set sA := upd (storeOf t) p fA with hsA
  have hkcA : AgreeKC sA t c (c + size u) := by
    intro x hx1 hx2
    rw [hsA, upd_other _ _ _ _ (by omega)]
    exact ⟨rfl, rfl⟩
  have hld : lastDescendant sA fuel true true c = some (c + size u - 1) := by
    apply lastDescendant_at sA fuel true hAc0 (by omega) hkcA
    · rw [hsA, upd_other _ _ _ _ (by omega)]
      exact hAc0.nextSib_eq
    · intro nsp hnsp
      have hnv : nsp = c + size u := by
        by_cases hl : i + 1 < cs.length
        · rw [if_pos hl] at hnsp
          exact (Option.some_inj.mp hnsp).symm
        · rw [if_neg hl] at hnsp
          simp at hnsp
      rw [hsA, upd_other _ _ _ _ (by omega)]
  simp only [hld]
  have htl_ne : (sA (c + size u - 1)).nextElement =
      (if c + size u = size t then none else some (c + size u)) := by
    rw [hsA, upd_other _ _ _ _ (by omega), storeOf_nextEl t _ (by omega)]
    have hx : c + size u - 1 + 1 = c + size u := by omega
    rw [hx]
  simp only [htl_ne]
  have hprevEl_c0 : (storeOf t c).previousElement = some (c - 1) := by
    rw [storeOf_prevEl t c hclt, prevOf, if_neg (by omega)]
  have hprevEl_cA : (sA c).previousElement = some (c - 1) := by
    rw [hsA, upd_other _ _ _ _ (by omega)]
    exact hprevEl_c0
  set NE := (if c + size u = size t then (none : Option Nat)
    else some (c + size u)) with hNE
  set fB := (fun n : Node => { n with nextElement := NE }) with hfB
  have hg1 : extGuard1 sA c NE = upd sA (c - 1) fB := by
    unfold extGuard1
    simp only [hprevEl_cA]
    rw [if_pos]
    rw [hNE]
    by_cases hq : c + size u = size t
    · rw [if_pos hq]
      simp
    · rw [if_neg hq]
      simp
      omega
  rw [hg1]
  set sB := upd sA (c - 1) fB with hsB
  have hprevEl_cB : (sB c).previousElement = some (c - 1) := by
    rw [hsB, updPE _ _ fB _ (fun n => rfl)]
    exact hprevEl_cA
  have hg2 : extGuard2 sB c NE =
      (if c + size u < size t
       then upd sB (c + size u)
         (fun n => { n with previousElement := some (c - 1) })
       else sB) := by
    unfold extGuard2
    by_cases hcm : c + size u = size t
    · rw [hNE, if_pos hcm, if_neg (by omega)]
    · rw [hNE, if_neg hcm]
      simp only [hprevEl_cB]
      rw [if_pos (show some (c + size u) ≠ some (c - 1) by simp; omega),
        if_pos (show c + size u < size t by omega)]
  rw [hg2]
  set sC := (if c + size u < size t
    then upd sB (c + size u)
      (fun n => { n with previousElement := some (c - 1) })
    else sB) with hsC
  set sD := upd sC c fD with hsD
  set sE := upd sD (c + size u - 1) fE with hsE
  set sF := upd sE c fF with hsF
  have hC_any : ∀ {α : Type} (F : Node → α),
      (∀ n, F { n with previousElement := some (c - 1) } = F n) →
      ∀ j, F (sC j) = F (sB j) := by
    intro α F hF j
    rw [hsC]
    split
    · by_cases hj : j = c + size u <;> simp [upd, hj, hF]
    · rfl
  have hC_pe : ∀ j, (sC j).previousElement =
      (if j = c + size u ∧ c + size u < size t then some (c - 1)
       else (sB j).previousElement) := by
    intro j
    rw [hsC]
    by_cases hcm : c + size u < size t
    · rw [if_pos hcm, updPE_s]
      by_cases hj : j = c + size u
      · rw [if_pos hj, if_pos (show j = c + size u ∧ c + size u < size t
          from ⟨hj, hcm⟩)]
      · rw [if_neg hj, if_neg (show ¬(j = c + size u ∧ c + size u < size t)
          from fun hh => hj hh.1)]
    · rw [if_neg hcm, if_neg (show ¬(j = c + size u ∧ c + size u < size t)
        from fun hh => hcm hh.2)]
  have hpv_lt : 0 < i → p + 1 + sizeL (cs.take (i - 1)) < c := by
    intro h0
    have hlt1 : i - 1 < cs.length := by omega
    obtain ⟨w, hw⟩ : ∃ x, cs[i - 1]? = some x := by
      rw [List.getElem?_eq_getElem hlt1]
      exact ⟨_, rfl⟩
    have hsw := sizeL_take_succ cs (i - 1) w hw
    have hi1 : i - 1 + 1 = i := by omega
    rw [hi1] at hsw
    have hw1 := size_pos w
    omega
  have hps_cF : (sF c).previousSibling =
      (if i = 0 then none else some (p + 1 + sizeL (cs.take (i - 1)))) := by
    rw [hsF, updPS _ _ fF _ (fun n => rfl),
      hsE, updPS _ _ fE _ (fun n => rfl),
      hsD, updPS _ _ fD _ (fun n => rfl),
      hC_any Node.previousSibling (fun n => rfl) c,
      hsB, updPS _ _ fB _ (fun n => rfl),
      hsA, upd_other _ _ _ _ (by omega)]
    exact hps_c
  have hns_cF : (sF c).nextSibling =
      (if i + 1 < cs.length then some (c + size u) else none) := by
    rw [hsF, updNS _ _ fF _ (fun n => rfl),
      hsE, updNS _ _ fE _ (fun n => rfl),
      hsD, updNS _ _ fD _ (fun n => rfl),
      hC_any Node.nextSibling (fun n => rfl) c,
      hsB, updNS _ _ fB _ (fun n => rfl),
      hsA, upd_other _ _ _ _ (by omega)]
    exact hns_c
  have hg3 : extGuard3 sF c =
      (if 0 < i
       then upd sF (p + 1 + sizeL (cs.take (i - 1)))
         (fun n => { n with nextSibling :=
           (if i + 1 < cs.length then some (c + size u) else none) })
       else sF) := by
    unfold extGuard3
    by_cases h0 : i = 0
    · rw [hps_cF, if_pos h0, if_neg (by omega)]
    · have hpv := hpv_lt (by omega)
      have hcond : some (p + 1 + sizeL (cs.take (i - 1))) ≠
          (if i + 1 < cs.length then some (c + size u) else none) := by
        by_cases hl : i + 1 < cs.length
        · rw [if_pos hl]
          intro hcon
          have := Option.some_inj.mp hcon
          omega
        · rw [if_neg hl]
          simp
      rw [hps_cF, if_neg h0]
      simp only [hns_cF]
      rw [if_pos hcond, if_pos (show 0 < i by omega)]
  rw [hg3]
  set sG := (if 0 < i
    then upd sF (p + 1 + sizeL (cs.take (i - 1)))
      (fun n => { n with nextSibling :=
        (if i + 1 < cs.length then some (c + size u) else none) })
    else sF) with hsG
  have hG_any : ∀ {α : Type} (F : Node → α),
      (∀ n, F { n with nextSibling :=
        (if i + 1 < cs.length then some (c + size u) else none) } = F n) →
      ∀ j, F (sG j) = F (sF j) := by
    intro α F hF j
    rw [hsG]
    split
    · by_cases hj : j = p + 1 + sizeL (cs.take (i - 1)) <;>
        simp [upd, hj, hF]
    · rfl
  have hG_ns : ∀ j, (sG j).nextSibling =
      (if 0 < i ∧ j = p + 1 + sizeL (cs.take (i - 1))
       then (if i + 1 < cs.length then some (c + size u) else none)
       else (sF j).nextSibling) := by
    intro j
    rw [hsG]
    by_cases h0 : 0 < i
    · rw [if_pos h0, updNS_s]
      by_cases hj : j = p + 1 + sizeL (cs.take (i - 1))
      · rw [if_pos hj, if_pos (show 0 < i ∧
          j = p + 1 + sizeL (cs.take (i - 1)) from ⟨h0, hj⟩)]
      · rw [if_neg hj, if_neg (show ¬(0 < i ∧
          j = p + 1 + sizeL (cs.take (i - 1))) from fun hh => hj hh.2)]
    · rw [if_neg h0, if_neg (show ¬(0 < i ∧
        j = p + 1 + sizeL (cs.take (i - 1))) from fun hh => h0 hh.1)]
  have hps_cG : (sG c).previousSibling =
      (if i = 0 then none else some (p + 1 + sizeL (cs.take (i - 1)))) := by
    rw [hG_any Node.previousSibling (fun n => rfl) c]
    exact hps_cF
  have hns_cG : (sG c).nextSibling =
      (if i + 1 < cs.length then some (c + size u) else none) := by
    rw [hG_ns c]
    by_cases h0 : 0 < i
    · rw [if_neg (show ¬(0 < i ∧ c = p + 1 + sizeL (cs.take (i - 1))) from
        fun hcon => by have := hpv_lt h0; omega), hns_cF]
    · rw [if_neg (show ¬(0 < i ∧ c = p + 1 + sizeL (cs.take (i - 1))) from
        fun hh => h0 hh.1), hns_cF]
  have hg4 : extGuard4 sG c =
      (if i + 1 < cs.length
       then upd sG (c + size u)
         (fun n => { n with previousSibling :=
           (if i = 0 then none
            else some (p + 1 + sizeL (cs.take (i - 1)))) })
       else sG) := by
    unfold extGuard4
    by_cases hl : i + 1 < cs.length
    · have hcond : some (c + size u) ≠
          (if i = 0 then none
           else some (p + 1 + sizeL (cs.take (i - 1)))) := by
        by_cases h0 : i = 0
        · rw [if_pos h0]
          simp
        · rw [if_neg h0]
          intro hcon
          have hpv := hpv_lt (by omega)
          have := Option.some_inj.mp hcon
          omega
      rw [hns_cG, if_pos hl]
      simp only [hps_cG]
      rw [if_pos hcond, if_pos hl]
    · rw [hns_cG, if_neg hl, if_neg hl]
  rw [hg4]
  set sH := (if i + 1 < cs.length
    then upd sG (c + size u)
      (fun n => { n with previousSibling :=
        (if i = 0 then none
         else some (p + 1 + sizeL (cs.take (i - 1)))) })
    else sG) with hsH
  have hH_any : ∀ {α : Type} (F : Node → α),
      (∀ n, F { n with previousSibling :=
        (if i = 0 then none
         else some (p + 1 + sizeL (cs.take (i - 1)))) } = F n) →
      ∀ j, F (sH j) = F (sG j) := by
    intro α F hF j
    rw [hsH]
    split
    · by_cases hj : j = c + size u <;> simp [upd, hj, hF]
    · rfl
  have hH_ps : ∀ j, (sH j).previousSibling =
      (if j = c + size u ∧ i + 1 < cs.length
       then (if i = 0 then none
             else some (p + 1 + sizeL (cs.take (i - 1))))
       else (sG j).previousSibling) := by
    intro j
    rw [hsH]
    by_cases hl : i + 1 < cs.length
    · rw [if_pos hl, updPS_s]
      by_cases hj : j = c + size u
      · rw [if_pos hj, if_pos (show j = c + size u ∧ i + 1 < cs.length
          from ⟨hj, hl⟩)]
      · rw [if_neg hj, if_neg (show ¬(j = c + size u ∧ i + 1 < cs.length)
          from fun hh => hj hh.1)]
    · rw [if_neg hl, if_neg (show ¬(j = c + size u ∧ i + 1 < cs.length)
        from fun hh => hl hh.2)]
  refine ⟨upd sH c fZ, rfl, ?_, ?_, ?_, ?_, ?_, ?_, ?_⟩
  · intro j
    refine ⟨?_, ?_, ?_, ?_, ?_⟩
    · rw [updK _ _ fZ _ (fun n => rfl), hH_any Node.kind (fun n => rfl) j,
        hG_any Node.kind (fun n => rfl) j, hsF,
        updK _ _ fF _ (fun n => rfl), hsE, updK _ _ fE _ (fun n => rfl),
        hsD, updK _ _ fD _ (fun n => rfl),
        hC_any Node.kind (fun n => rfl) j, hsB,
        updK _ _ fB _ (fun n => rfl), hsA, updK _ _ fA _ (fun n => rfl)]
    · rw [updNm _ _ fZ _ (fun n => rfl), hH_any Node.name (fun n => rfl) j,
        hG_any Node.name (fun n => rfl) j, hsF,
        updNm _ _ fF _ (fun n => rfl), hsE, updNm _ _ fE _ (fun n => rfl),
        hsD, updNm _ _ fD _ (fun n => rfl),
        hC_any Node.name (fun n => rfl) j, hsB,
        updNm _ _ fB _ (fun n => rfl), hsA, updNm _ _ fA _ (fun n => rfl)]
    · rw [updA _ _ fZ _ (fun n => rfl), hH_any Node.attrs (fun n => rfl) j,
        hG_any Node.attrs (fun n => rfl) j, hsF,
        updA _ _ fF _ (fun n => rfl), hsE, updA _ _ fE _ (fun n => rfl),
        hsD, updA _ _ fD _ (fun n => rfl),
        hC_any Node.attrs (fun n => rfl) j, hsB,
        updA _ _ fB _ (fun n => rfl), hsA, updA _ _ fA _ (fun n => rfl)]
    · rw [updV _ _ fZ _ (fun n => rfl), hH_any Node.value (fun n => rfl) j,
        hG_any Node.value (fun n => rfl) j, hsF,
        updV _ _ fF _ (fun n => rfl), hsE, updV _ _ fE _ (fun n => rfl),
        hsD, updV _ _ fD _ (fun n => rfl),
        hC_any Node.value (fun n => rfl) j, hsB,
        updV _ _ fB _ (fun n => rfl), hsA, updV _ _ fA _ (fun n => rfl)]
    · rw [updD _ _ fZ _ (fun n => rfl),
        hH_any Node.decomposed (fun n => rfl) j,
        hG_any Node.decomposed (fun n => rfl) j, hsF,
        updD _ _ fF _ (fun n => rfl), hsE, updD _ _ fE _ (fun n => rfl),
        hsD, updD _ _ fD _ (fun n => rfl),
        hC_any Node.decomposed (fun n => rfl) j, hsB,
        updD _ _ fB _ (fun n => rfl), hsA, updD _ _ fA _ (fun n => rfl)]
  · intro j
    rw [updC _ _ fZ _ (fun n => rfl), hH_any Node.contents (fun n => rfl) j,
      hG_any Node.contents (fun n => rfl) j, hsF,
      updC _ _ fF _ (fun n => rfl), hsE, updC _ _ fE _ (fun n => rfl),
      hsD, updC _ _ fD _ (fun n => rfl),
      hC_any Node.contents (fun n => rfl) j, hsB,
      updC _ _ fB _ (fun n => rfl), hsA, updC_s]
    by_cases hj : j = p
    · rw [if_pos hj, if_pos hj, hj]
      show (storeOf t p).contents.eraseIdx i =
        (childPositions cs (p + 1)).eraseIdx i
      rw [hcontents_p]
    · rw [if_neg hj, if_neg hj]
  · intro j
    rw [updP _ _ fZ _ (fun n => rfl), hH_any Node.parent (fun n => rfl) j,
      hG_any Node.parent (fun n => rfl) j, hsF, updP_s,
      hsE, updP _ _ fE _ (fun n => rfl), hsD, updP _ _ fD _ (fun n => rfl),
      hC_any Node.parent (fun n => rfl) j, hsB,
      updP _ _ fB _ (fun n => rfl), hsA, updP _ _ fA _ (fun n => rfl)]
  · intro j
    rw [updPE _ _ fZ _ (fun n => rfl),
      hH_any Node.previousElement (fun n => rfl) j,
      hG_any Node.previousElement (fun n => rfl) j, hsF,
      updPE _ _ fF _ (fun n => rfl), hsE, updPE _ _ fE _ (fun n => rfl),
      hsD, updPE_s, hC_pe j, hsB,
      updPE _ _ fB _ (fun n => rfl), hsA, updPE _ _ fA _ (fun n => rfl)]
  · intro j
    rw [updNE _ _ fZ _ (fun n => rfl),
      hH_any Node.nextElement (fun n => rfl) j,
      hG_any Node.nextElement (fun n => rfl) j, hsF,
      updNE _ _ fF _ (fun n => rfl), hsE, updNE_s, hsD,
      updNE _ _ fD _ (fun n => rfl),
      hC_any Node.nextElement (fun n => rfl) j, hsB, updNE_s, hsA,
      updNE _ _ fA _ (fun n => rfl)]
  · intro j
    rw [updPS_s, hH_ps j, hG_any Node.previousSibling (fun n => rfl) j,
      hsF, updPS _ _ fF _ (fun n => rfl), hsE,
      updPS _ _ fE _ (fun n => rfl), hsD, updPS _ _ fD _ (fun n => rfl),
      hC_any Node.previousSibling (fun n => rfl) j, hsB,
      updPS _ _ fB _ (fun n => rfl), hsA, updPS _ _ fA _ (fun n => rfl)]
  · intro j
    rw [updNS_s, hH_any Node.nextSibling (fun n => rfl) j, hG_ns j,
      hsF, updNS _ _ fF _ (fun n => rfl), hsE,
      updNS _ _ fE _ (fun n => rfl), hsD, updNS _ _ fD _ (fun n => rfl),
      hC_any Node.nextSibling (fun n => rfl) j, hsB,
      updNS _ _ fB _ (fun n => rfl), hsA, updNS _ _ fA _ (fun n => rfl)]


/-- Two nodes with equal fields are equal. -/
theorem node_fields_ext {n m : Node} (h1 : n.kind = m.kind)
    (h2 : n.name = m.name) (h3 : n.attrs = m.attrs) (h4 : n.value = m.value)
    (h5 : n.contents = m.contents) (h6 : n.parent = m.parent)
    (h7 : n.previousElement = m.previousElement)
    (h8 : n.nextElement = m.nextElement)
    (h9 : n.previousSibling = m.previousSibling)
    (h10 : n.nextSibling = m.nextSibling)
    (h11 : n.decomposed = m.decomposed) : n = m := by
  cases n
  cases m
  simp_all

/-- Depth never exceeds pre-order position. -/
theorem At.depth_le {t : PTree} {d p : Nat} {par ps ns : Option Nat}
    {u : PTree} (h : At t d p par ps ns u) : d ≤ p := by
  induction h with
  | root => exact Nat.le_refl 0
  | @child d' p' par' ps' ns' nm a cs i c u' hpar hcs hcp ih =>
      have hilt : i < cs.length := by
        by_contra hge
        rw [List.getElem?_eq_none (by omega)] at hcs
        simp at hcs
      have hc : c = p' + 1 + sizeL (cs.take i) := by
        rw [childPositions_get cs (p' + 1) i hilt] at hcp
        simp at hcp
        omega
      omega

/-- `_last_descendant` with `is_initialized=False` (the form `insert` uses)
is the plain last-child walk: it lands on the last position of the slice. -/
theorem lastDescendant_at_false {t : PTree} {d p : Nat}
    {par ps ns : Option Nat} {u : PTree} (s : Store) (fuel : Nat)
    (h : At t d p par ps ns u) (hf : size u ≤ fuel)
    (hkc : AgreeKC s t p (p + size u)) :
    lastDescendant s fuel false true p = some (p + size u - 1) := by
  unfold lastDescendant
  rw [if_neg (show ¬((false : Bool) = true ∧ (s p).nextSibling ≠ none) by
    simp)]
  rw [lastDescLoop_at fuel s h hf hkc]
  simp

theorem eraseIdx_getElem? : ∀ (l : List Nat) (i j : Nat),
    (l.eraseIdx i)[j]? = if j < i then l[j]? else l[j + 1]?
  | [], i, j => by cases i <;> simp [List.eraseIdx]
  | a :: l, 0, j => by simp [List.eraseIdx]
  | a :: l, i + 1, 0 => by simp [List.eraseIdx]
  | a :: l, i + 1, j + 1 => by
      simp only [List.eraseIdx, List.getElem?_cons_succ]
      rw [eraseIdx_getElem? l i j]
      by_cases h : j < i
      · rw [if_pos h, if_pos (by omega)]
      · rw [if_neg h, if_neg (by omega)]

theorem eraseIdx_length : ∀ (l : List Nat) (i : Nat), i < l.length →
    (l.eraseIdx i).length = l.length - 1
  | [], i, h => by simp at h
  | a :: l, 0, _ => by simp [List.eraseIdx]
  | a :: l, i + 1, h => by
      simp only [List.eraseIdx, List.length_cons]
      rw [eraseIdx_length l i (by simpa using h)]
      simp at h
      omega

/-- Removing the `i`-th entry and re-inserting it at `i` is the identity. -/
theorem insertIdx_eraseIdx_self : ∀ (l : List Nat) (i x : Nat),
    l[i]? = some x → (l.eraseIdx i).insertIdx i x = l
  | [], i, x, h => by simp at h
  | a :: l, 0, x, h => by
      simp only [List.getElem?_cons_zero, Option.some_inj] at h
      simp [List.eraseIdx, List.insertIdx_zero, h]
  | a :: l, i + 1, x, h => by
      simp only [List.getElem?_cons_succ] at h
      simp only [List.eraseIdx, List.insertIdx_succ_cons]
      rw [insertIdx_eraseIdx_self l i x h]


/-- `insert` on the parent at the original index, applied to any store
matching the post-`extract` field surgery of `extract_full`, rebuilds the
canonical store of the document exactly. -/
theorem insert_restores {t : PTree} {d p i c : Nat} {par ps ns : Option Nat}
    {nm : String} {a : List (String × String)} {cs : List PTree} {u : PTree}
    (fuel : Nat) (s1 : Store)
    (h : At t d p par ps ns (.tagN nm a cs))
    (hcs : cs[i]? = some u)
    (hcp : (childPositions cs (p + 1))[i]? = some c)
    (hfuel : size t ≤ fuel)
    (hKD : ∀ j, (s1 j).kind = (storeOf t j).kind
        ∧ (s1 j).name = (storeOf t j).name
        ∧ (s1 j).attrs = (storeOf t j).attrs
        ∧ (s1 j).value = (storeOf t j).value
        ∧ (s1 j).decomposed = (storeOf t j).decomposed)
    (hC : ∀ j, (s1 j).contents = (if j = p
        then (childPositions cs (p + 1)).eraseIdx i
        else (storeOf t j).contents))
    (hP : ∀ j, (s1 j).parent = (if j = c then none else (storeOf t j).parent))
    (hPE : ∀ j, (s1 j).previousElement = (if j = c then none
        else if j = c + size u ∧ c + size u < size t then some (c - 1)
        else (storeOf t j).previousElement))
    (hNE : ∀ j, (s1 j).nextElement = (if j = c + size u - 1 then none
        else if j = c - 1
        then (if c + size u = size t then none else some (c + size u))
        else (storeOf t j).nextElement))
    (hPS : ∀ j, (s1 j).previousSibling = (if j = c then none
        else if j = c + size u ∧ i + 1 < cs.length
        then (if i = 0 then none
              else some (p + 1 + sizeL (cs.take (i - 1))))
        else (storeOf t j).previousSibling))
    (hNS : ∀ j, (s1 j).nextSibling = (if j = c then none
        else if 0 < i ∧ j = p + 1 + sizeL (cs.take (i - 1))
        then (if i + 1 < cs.length then some (c + size u) else none)
        else (storeOf t j).nextSibling)) :
    insert fuel s1 p i (some (.snode c)) 0 = .ok (storeOf t) := by
  have hilt : i < cs.length := by
    by_contra hge
    rw [List.getElem?_eq_none (by omega)] at hcs
    simp at hcs
  have hAc0 := At.child h hcs hcp
  have hcval : c = p + 1 + sizeL (cs.take i) := by
    rw [childPositions_get cs (p + 1) i hilt] at hcp
    simp at hcp
    omega
  have hm1 : 1 ≤ size u := size_pos u
  have hple : p + 1 ≤ c := by omega
  have hcmle : c + size u ≤ size t := hAc0.size_le
  have hclt : c < size t := hAc0.pos_lt
  have hpsL : (if i = 0 then none
      else (childPositions cs (p + 1))[i - 1]?) =
      (if i = 0 then none
       else some (p + 1 + sizeL (cs.take (i - 1)))) := by
    by_cases h0 : i = 0
    · rw [if_pos h0, if_pos h0]
    · rw [if_neg h0, if_neg h0, childPositions_get cs (p + 1) (i - 1)
        (by omega)]
  have hnsL : (childPositions cs (p + 1))[i + 1]? =
      (if i + 1 < cs.length then some (c + size u) else none) := by
    by_cases hl : i + 1 < cs.length
    · rw [if_pos hl, childPositions_get cs (p + 1) (i + 1) hl]
      have := sizeL_take_succ cs i u hcs
      congr 1
      omega
    · rw [if_neg hl, childPositions_get_none cs (p + 1) (i + 1) (by omega)]
  rw [hpsL, hnsL] at hAc0
  have hpar_c : (storeOf t c).parent = some p := hAc0.parent_eq
  have hps_c : (storeOf t c).previousSibling =
      (if i = 0 then none else some (p + 1 + sizeL (cs.take (i - 1)))) :=
    hAc0.prevSib_eq
  have hns_c : (storeOf t c).nextSibling =
      (if i + 1 < cs.length then some (c + size u) else none) :=
    hAc0.nextSib_eq
  have hcontents_p : (storeOf t p).contents = childPositions cs (p + 1) :=
    h.contents_eq
  have hprevEl_c0 : (storeOf t c).previousElement = some (c - 1) := by
    rw [storeOf_prevEl t c hclt, prevOf, if_neg (by omega)]
  have hNE_cm1 : (storeOf t (c - 1)).nextElement = some c := by
    rw [storeOf_nextEl t (c - 1) (by omega),
      show c - 1 + 1 = c by omega, if_neg (by omega)]
  have hNE_tl : (storeOf t (c + size u - 1)).nextElement =
      (if c + size u = size t then none else some (c + size u)) := by
    rw [storeOf_nextEl t (c + size u - 1) (by omega),
      show c + size u - 1 + 1 = c + size u by omega]
  have hPE_nx : c + size u < size t →
      (storeOf t (c + size u)).previousElement =
        some (c + size u - 1) := by
    intro hlt
    rw [storeOf_prevEl t (c + size u) hlt, prevOf, if_neg (by omega)]
  have hnext_facts : i + 1 < cs.length →
      c + size u < size t ∧
      (storeOf t (c + size u)).previousSibling = some c := by
    intro hl
    obtain ⟨u2, hu2⟩ : ∃ x, cs[i + 1]? = some x := by
      rw [List.getElem?_eq_getElem hl]
      exact ⟨_, rfl⟩
    have hcp2 : (childPositions cs (p + 1))[i + 1]? = some (c + size u) := by
      rw [childPositions_get cs (p + 1) (i + 1) hl]
      have := sizeL_take_succ cs i u hcs
      congr 1
      omega
    have hA2 := At.child h hu2 hcp2
    refine ⟨hA2.pos_lt, ?_⟩
    rw [hA2.prevSib_eq, if_neg (by omega),
      show i + 1 - 1 = i from rfl]
    exact hcp
  have hAw_facts : 0 < i →
      (storeOf t (p + 1 + sizeL (cs.take (i - 1)))).nextSibling = some c := by
    intro h0
    have hlt1 : i - 1 < cs.length := by omega
    obtain ⟨w, hw⟩ : ∃ x, cs[i - 1]? = some x := by
      rw [List.getElem?_eq_getElem hlt1]
      exact ⟨_, rfl⟩
    have hcpw : (childPositions cs (p + 1))[i - 1]? =
        some (p + 1 + sizeL (cs.take (i - 1))) := by
      rw [childPositions_get cs (p + 1) (i - 1) hlt1]
    have hAw := At.child h hw hcpw
    rw [hAw.nextSib_eq, show i - 1 + 1 = i by omega]
    exact hcp
  have hpar_c1 : (s1 c).parent = none := by rw [hP c, if_pos rfl]
  have hself : c ≠ p := by omega
  set fP1 := (fun n : Node => { n with parent := some p }) with hfP1
  set f20 := (fun n : Node =>
    { n with previousSibling := none, previousElement := some p }) with hf20
  set fPS2 := (fun n : Node =>
    { n with previousSibling := some (p + 1 + sizeL (cs.take (i - 1))) })
    with hfPS2
  set fNS2 := (fun n : Node => { n with nextSibling := some c }) with hfNS2
  set fPE2 := (fun n : Node => { n with previousElement := some (c - 1) })
    with hfPE2
  set fNE3 := (fun n : Node => { n with nextElement := some c }) with hfNE3
  set fNSn := (fun n : Node => { n with nextSibling := none }) with hfNSn
  set fNSx := (fun n : Node => { n with nextSibling := some (c + size u) })
    with hfNSx
  set fPS4 := (fun n : Node => { n with previousSibling := some c })
    with hfPS4
  set fNEa := (fun n : Node => { n with nextElement :=
    (if c + size u = size t then none else some (c + size u)) }) with hfNEa
  set fNEx := (fun n : Node => { n with nextElement := some (c + size u) })
    with hfNEx
  set fPE5 := (fun n : Node =>
    { n with previousElement := some (c + size u - 1) }) with hfPE5
  set f6 := (fun n : Node =>
    { n with contents := n.contents.insertIdx i c }) with hf6
  unfold insert
  simp only [hpar_c1, hself, if_neg, ite_false, reduceCtorEq, decide_False,
    Bool.false_eq_true]
  have hPi : i ⊓ (s1 p).contents.length = i := by
    rw [hC p, if_pos rfl, eraseIdx_length _ _ (by
      rw [childPositions_length]; omega)]
    rw [childPositions_length]
    omega
  rw [hPi]
  set s2 := insLink1 s1 p c with hs2
  set s3 := insLink2 fuel s2 p i c with hs3
  set s4 := insLink3 s3 c with hs4
  have hL1 : s2 = upd s1 c fP1 := rfl
  have h2C : ∀ j, (s2 j).contents = (s1 j).contents := fun j => by
    rw [hL1, updC s1 c fP1 j (fun n => rfl)]
  have hprevChild : 0 < i →
      (s2 p).contents.getD (i - 1) 0 = p + 1 + sizeL (cs.take (i - 1)) := by
    intro h0
    rw [h2C p, hC p, if_pos rfl, List.getD_eq_getElem?_getD,
      eraseIdx_getElem?, if_pos (by omega),
      childPositions_get cs (p + 1) (i - 1) (by omega)]
    rfl
  have hld_pv : 0 < i → lastDescendant
      (upd (upd s2 c fPS2) (p + 1 + sizeL (cs.take (i - 1))) fNS2)
      fuel false true (p + 1 + sizeL (cs.take (i - 1))) = some (c - 1) := by
    intro h0
    have hlt1 : i - 1 < cs.length := by omega
    obtain ⟨w, hw⟩ : ∃ x, cs[i - 1]? = some x := by
      rw [List.getElem?_eq_getElem hlt1]
      exact ⟨_, rfl⟩
    have hcpw : (childPositions cs (p + 1))[i - 1]? =
        some (p + 1 + sizeL (cs.take (i - 1))) := by
      rw [childPositions_get cs (p + 1) (i - 1) hlt1]
    have hAw := At.child h hw hcpw
    have hsum : p + 1 + sizeL (cs.take (i - 1)) + size w = c := by
      have hsw := sizeL_take_succ cs (i - 1) w hw
      rw [show i - 1 + 1 = i by omega] at hsw
      omega
    have hkcW : AgreeKC
        (upd (upd s2 c fPS2) (p + 1 + sizeL (cs.take (i - 1))) fNS2) t
        (p + 1 + sizeL (cs.take (i - 1)))
        (p + 1 + sizeL (cs.take (i - 1)) + size w) := by
      intro x hx1 hx2
      constructor
      · rw [updK _ _ fNS2 _ (fun n => rfl), updK _ _ fPS2 _ (fun n => rfl),
          hL1, updK _ _ fP1 _ (fun n => rfl)]
        exact (hKD x).1
      · rw [updC _ _ fNS2 _ (fun n => rfl), updC _ _ fPS2 _ (fun n => rfl),
          hL1, updC _ _ fP1 _ (fun n => rfl), hC x,
          if_neg (show ¬x = p by omega)]
    have hres := lastDescendant_at_false _ fuel hAw (by omega) hkcW
    rw [hres, show p + 1 + sizeL (cs.take (i - 1)) + size w - 1 = c - 1
      by omega]
  have hL2_0 : i = 0 → s3 = upd s2 c f20 := by
    intro h0
    rw [hs3]
    unfold insLink2
    rw [if_pos h0]
  have hL2_pos : 0 < i → s3 =
      upd (upd (upd s2 c fPS2) (p + 1 + sizeL (cs.take (i - 1))) fNS2) c
        fPE2 := by
    intro h0
    rw [hs3]
    unfold insLink2
    rw [if_neg (by omega)]
    simp only [hprevChild h0]
    simp only [hld_pv h0]
  have h3fix : ∀ j, (s3 j).kind = (s1 j).kind ∧ (s3 j).name = (s1 j).name
      ∧ (s3 j).attrs = (s1 j).attrs ∧ (s3 j).value = (s1 j).value
      ∧ (s3 j).contents = (s1 j).contents
      ∧ (s3 j).nextElement = (s1 j).nextElement
      ∧ (s3 j).decomposed = (s1 j).decomposed := by
    intro j
    by_cases h0 : i = 0
    · rw [hL2_0 h0, hL1]
      exact ⟨by rw [updK _ _ f20 _ (fun n => rfl), updK _ _ fP1 _ (fun n => rfl)],
        by rw [updNm _ _ f20 _ (fun n => rfl), updNm _ _ fP1 _ (fun n => rfl)],
        by rw [updA _ _ f20 _ (fun n => rfl), updA _ _ fP1 _ (fun n => rfl)],
        by rw [updV _ _ f20 _ (fun n => rfl), updV _ _ fP1 _ (fun n => rfl)],
        by rw [updC _ _ f20 _ (fun n => rfl), updC _ _ fP1 _ (fun n => rfl)],
        by rw [updNE _ _ f20 _ (fun n => rfl), updNE _ _ fP1 _ (fun n => rfl)],
        by rw [updD _ _ f20 _ (fun n => rfl), updD _ _ fP1 _ (fun n => rfl)]⟩
    · rw [hL2_pos (by omega), hL1]
      exact ⟨by rw [updK _ _ fPE2 _ (fun n => rfl), updK _ _ fNS2 _ (fun n => rfl),
          updK _ _ fPS2 _ (fun n => rfl), updK _ _ fP1 _ (fun n => rfl)],
        by rw [updNm _ _ fPE2 _ (fun n => rfl), updNm _ _ fNS2 _ (fun n => rfl),
          updNm _ _ fPS2 _ (fun n => rfl), updNm _ _ fP1 _ (fun n => rfl)],
        by rw [updA _ _ fPE2 _ (fun n => rfl), updA _ _ fNS2 _ (fun n => rfl),
          updA _ _ fPS2 _ (fun n => rfl), updA _ _ fP1 _ (fun n => rfl)],
        by rw [updV _ _ fPE2 _ (fun n => rfl), updV _ _ fNS2 _ (fun n => rfl),
          updV _ _ fPS2 _ (fun n => rfl), updV _ _ fP1 _ (fun n => rfl)],
        by rw [updC _ _ fPE2 _ (fun n => rfl), updC _ _ fNS2 _ (fun n => rfl),
          updC _ _ fPS2 _ (fun n => rfl), updC _ _ fP1 _ (fun n => rfl)],
        by rw [updNE _ _ fPE2 _ (fun n => rfl), updNE _ _ fNS2 _ (fun n => rfl),
          updNE _ _ fPS2 _ (fun n => rfl), updNE _ _ fP1 _ (fun n => rfl)],
        by rw [updD _ _ fPE2 _ (fun n => rfl), updD _ _ fNS2 _ (fun n => rfl),
          updD _ _ fPS2 _ (fun n => rfl), updD _ _ fP1 _ (fun n => rfl)]⟩
  have h3P : ∀ j, (s3 j).parent =
      (if j = c then some p else (s1 j).parent) := by
    intro j
    by_cases h0 : i = 0
    · rw [hL2_0 h0, hL1, updP _ _ f20 _ (fun n => rfl), updP_s]
    · rw [hL2_pos (by omega), hL1, updP _ _ fPE2 _ (fun n => rfl),
        updP _ _ fNS2 _ (fun n => rfl), updP _ _ fPS2 _ (fun n => rfl),
        updP_s]
  have h3PE : ∀ j, (s3 j).previousElement =
      (if j = c then some (c - 1) else (s1 j).previousElement) := by
    intro j
    by_cases h0 : i = 0
    · have hcp1 : c - 1 = p := by
        rw [hcval, h0]
        simp [sizeL]
      rw [hL2_0 h0, hL1, updPE_s]
      by_cases hj : j = c
      · rw [if_pos hj, if_pos hj]
        show some p = some (c - 1)
        rw [hcp1]
      · rw [if_neg hj, if_neg hj, updPE _ _ fP1 _ (fun n => rfl)]
    · rw [hL2_pos (by omega), hL1, updPE_s]
      by_cases hj : j = c
      · rw [if_pos hj, if_pos hj]
      · rw [if_neg hj, if_neg hj, updPE _ _ fNS2 _ (fun n => rfl),
          updPE _ _ fPS2 _ (fun n => rfl), updPE _ _ fP1 _ (fun n => rfl)]
  have h3PS : ∀ j, (s3 j).previousSibling =
      (if j = c then (if i = 0 then none
        else some (p + 1 + sizeL (cs.take (i - 1))))
       else (s1 j).previousSibling) := by
    intro j
    by_cases h0 : i = 0
    · rw [hL2_0 h0, hL1, updPS_s]
      by_cases hj : j = c
      · rw [if_pos hj, if_pos hj, if_pos h0]
      · rw [if_neg hj, if_neg hj, updPS _ _ fP1 _ (fun n => rfl)]
    · rw [hL2_pos (by omega), hL1, updPS _ _ fPE2 _ (fun n => rfl),
        updPS _ _ fNS2 _ (fun n => rfl), updPS_s]
      by_cases hj : j = c
      · rw [if_pos hj, if_pos hj, if_neg h0]
      · rw [if_neg hj, if_neg hj, updPS _ _ fP1 _ (fun n => rfl)]
  have h3NS : ∀ j, (s3 j).nextSibling =
      (if 0 < i ∧ j = p + 1 + sizeL (cs.take (i - 1)) then some c
       else (s1 j).nextSibling) := by
    intro j
    by_cases h0 : i = 0
    · rw [hL2_0 h0, hL1, updNS _ _ f20 _ (fun n => rfl),
        updNS _ _ fP1 _ (fun n => rfl),
        if_neg (show ¬(0 < i ∧ j = p + 1 + sizeL (cs.take (i - 1)))
          from fun hh => by omega)]
    · have h0' : 0 < i := by omega
      rw [hL2_pos h0', hL1, updNS _ _ fPE2 _ (fun n => rfl), updNS_s]
      by_cases hj2 : j = p + 1 + sizeL (cs.take (i - 1))
      · rw [if_pos hj2, if_pos (show 0 < i ∧
          j = p + 1 + sizeL (cs.take (i - 1)) from ⟨h0', hj2⟩)]
      · rw [if_neg hj2, if_neg (show ¬(0 < i ∧
          j = p + 1 + sizeL (cs.take (i - 1))) from fun hh => hj2 hh.2),
          updNS _ _ fPS2 _ (fun n => rfl), updNS _ _ fP1 _ (fun n => rfl)]
  have h3PE_c : (s3 c).previousElement = some (c - 1) := by
    rw [h3PE c, if_pos rfl]
  have hL3 : s4 = upd s3 (c - 1) fNE3 := by
    rw [hs4]
    unfold insLink3
    rw [h3PE_c]
  have h4fix : ∀ j, (s4 j).kind = (s3 j).kind ∧ (s4 j).name = (s3 j).name
      ∧ (s4 j).attrs = (s3 j).attrs ∧ (s4 j).value = (s3 j).value
      ∧ (s4 j).contents = (s3 j).contents
      ∧ (s4 j).parent = (s3 j).parent
      ∧ (s4 j).previousElement = (s3 j).previousElement
      ∧ (s4 j).previousSibling = (s3 j).previousSibling
      ∧ (s4 j).nextSibling = (s3 j).nextSibling
      ∧ (s4 j).decomposed = (s3 j).decomposed := by
    intro j
    rw [hL3]
    exact ⟨by rw [updK _ _ fNE3 _ (fun n => rfl)],
      by rw [updNm _ _ fNE3 _ (fun n => rfl)],
      by rw [updA _ _ fNE3 _ (fun n => rfl)],
      by rw [updV _ _ fNE3 _ (fun n => rfl)],
      by rw [updC _ _ fNE3 _ (fun n => rfl)],
      by rw [updP _ _ fNE3 _ (fun n => rfl)],
      by rw [updPE _ _ fNE3 _ (fun n => rfl)],
      by rw [updPS _ _ fNE3 _ (fun n => rfl)],
      by rw [updNS _ _ fNE3 _ (fun n => rfl)],
      by rw [updD _ _ fNE3 _ (fun n => rfl)]⟩
  have h4NE : ∀ j, (s4 j).nextElement =
      (if j = c - 1 then some c else (s1 j).nextElement) := by
    intro j
    rw [hL3, updNE_s]
    by_cases hj : j = c - 1
    · rw [if_pos hj, if_pos hj]
    · rw [if_neg hj, if_neg hj, (h3fix j).2.2.2.2.2.1]
  have hkc4 : AgreeKC s4 t c (c + size u) := by
    intro x hx1 hx2
    constructor
    · rw [(h4fix x).1, (h3fix x).1]
      exact (hKD x).1
    · rw [(h4fix x).2.2.2.2.1, (h3fix x).2.2.2.2.1, hC x,
        if_neg (show ¬x = p by omega)]
  have hld_c : lastDescendant s4 fuel false true c =
      some (c + size u - 1) :=
    lastDescendant_at_false s4 fuel hAc0 (by omega) hkc4
  rw [hld_c, Option.getD_some]
  set s5 := insLink4 fuel s4 p i c (c + size u - 1) with hs5
  set s6 := insLink5 s5 (c + size u - 1) with hs6
  have hlen4 : (s4 p).contents.length = cs.length - 1 := by
    rw [(h4fix p).2.2.2.2.1, (h3fix p).2.2.2.2.1, hC p, if_pos rfl,
      eraseIdx_length _ _ (by rw [childPositions_length]; omega),
      childPositions_length]
  have hnextChild : i + 1 < cs.length →
      (s4 p).contents.getD i 0 = c + size u := by
    intro hl
    rw [(h4fix p).2.2.2.2.1, (h3fix p).2.2.2.2.1, hC p, if_pos rfl,
      List.getD_eq_getElem?_getD, eraseIdx_getElem?, if_neg (by omega),
      childPositions_get cs (p + 1) (i + 1) hl, Option.getD_some]
    have := sizeL_take_succ cs i u hcs
    omega
  have hL4_app : ¬(i + 1 < cs.length) →
      s5 = upd (upd s4 c fNSn) (c + size u - 1) fNEa := by
    intro hl
    have hagree : ∀ x, x ≤ p →
        ((upd s4 c fNSn) x).nextSibling = (storeOf t x).nextSibling ∧
        ((upd s4 c fNSn) x).parent = (storeOf t x).parent := by
      intro x hx
      have hxc : x ≠ c := by omega
      constructor
      · rw [upd_other _ _ _ _ hxc, (h4fix x).2.2.2.2.2.2.2.2.1, h3NS x,
          if_neg (show ¬(0 < i ∧ x = p + 1 + sizeL (cs.take (i - 1)))
            from fun hh => by omega),
          hNS x, if_neg hxc,
          if_neg (show ¬(0 < i ∧ x = p + 1 + sizeL (cs.take (i - 1)))
            from fun hh => by omega)]
      · rw [upd_other _ _ _ _ hxc, (h4fix x).2.2.2.2.2.1, h3P x,
          if_neg hxc, hP x, if_neg hxc]
    have hsz : c + size u = p + size (PTree.tagN nm a cs) := by
      have hsw := sizeL_take_succ cs i u hcs
      rw [show cs.take (i + 1) = cs from by
        rw [show i + 1 = cs.length by omega]; simp] at hsw
      simp [size]
      omega
    have hpns : ancestorNextSibling (upd s4 c fNSn) fuel (some p) =
        (if c + size u = size t then none else some (c + size u)) := by
      rw [ancestorNextSib_at h fuel (upd s4 c fNSn)
        (by have h1 := h.depth_le; have h2 := h.pos_lt; omega) hagree]
      rw [hsz]
    rw [hs5]
    unfold insLink4
    rw [if_pos (show i ≥ (s4 p).contents.length by rw [hlen4]; omega)]
    simp only [hpns]
  have hL4_non : i + 1 < cs.length →
      s5 = upd (upd (upd s4 c fNSx) (c + size u) fPS4) (c + size u - 1)
        fNEx := by
    intro hl
    rw [hs5]
    unfold insLink4
    rw [if_neg (show ¬(i ≥ (s4 p).contents.length) by rw [hlen4]; omega)]
    simp only [hnextChild hl]
  have h5fix : ∀ j, (s5 j).kind = (s4 j).kind ∧ (s5 j).name = (s4 j).name
      ∧ (s5 j).attrs = (s4 j).attrs ∧ (s5 j).value = (s4 j).value
      ∧ (s5 j).contents = (s4 j).contents
      ∧ (s5 j).parent = (s4 j).parent
      ∧ (s5 j).previousElement = (s4 j).previousElement
      ∧ (s5 j).decomposed = (s4 j).decomposed := by
    intro j
    by_cases hl : i + 1 < cs.length
    · rw [hL4_non hl]
      exact ⟨by rw [updK _ _ fNEx _ (fun n => rfl), updK _ _ fPS4 _ (fun n => rfl),
          updK _ _ fNSx _ (fun n => rfl)],
        by rw [updNm _ _ fNEx _ (fun n => rfl), updNm _ _ fPS4 _ (fun n => rfl),
          updNm _ _ fNSx _ (fun n => rfl)],
        by rw [updA _ _ fNEx _ (fun n => rfl), updA _ _ fPS4 _ (fun n => rfl),
          updA _ _ fNSx _ (fun n => rfl)],
        by rw [updV _ _ fNEx _ (fun n => rfl), updV _ _ fPS4 _ (fun n => rfl),
          updV _ _ fNSx _ (fun n => rfl)],
        by rw [updC _ _ fNEx _ (fun n => rfl), updC _ _ fPS4 _ (fun n => rfl),
          updC _ _ fNSx _ (fun n => rfl)],
        by rw [updP _ _ fNEx _ (fun n => rfl), updP _ _ fPS4 _ (fun n => rfl),
          updP _ _ fNSx _ (fun n => rfl)],
        by rw [updPE _ _ fNEx _ (fun n => rfl), updPE _ _ fPS4 _ (fun n => rfl),
          updPE _ _ fNSx _ (fun n => rfl)],
        by rw [updD _ _ fNEx _ (fun n => rfl), updD _ _ fPS4 _ (fun n => rfl),
          updD _ _ fNSx _ (fun n => rfl)]⟩
    · rw [hL4_app hl]
      exact ⟨by rw [updK _ _ fNEa _ (fun n => rfl), updK _ _ fNSn _ (fun n => rfl)],
        by rw [updNm _ _ fNEa _ (fun n => rfl), updNm _ _ fNSn _ (fun n => rfl)],
        by rw [updA _ _ fNEa _ (fun n => rfl), updA _ _ fNSn _ (fun n => rfl)],
        by rw [updV _ _ fNEa _ (fun n => rfl), updV _ _ fNSn _ (fun n => rfl)],
        by rw [updC _ _ fNEa _ (fun n => rfl), updC _ _ fNSn _ (fun n => rfl)],
        by rw [updP _ _ fNEa _ (fun n => rfl), updP _ _ fNSn _ (fun n => rfl)],
        by rw [updPE _ _ fNEa _ (fun n => rfl), updPE _ _ fNSn _ (fun n => rfl)],
        by rw [updD _ _ fNEa _ (fun n => rfl), updD _ _ fNSn _ (fun n => rfl)]⟩
  have h5NS : ∀ j, (s5 j).nextSibling =
      (if j = c then (if i + 1 < cs.length then some (c + size u) else none)
       else (s4 j).nextSibling) := by
    intro j
    by_cases hl : i + 1 < cs.length
    · rw [hL4_non hl, updNS _ _ fNEx _ (fun n => rfl),
        updNS _ _ fPS4 _ (fun n => rfl), updNS_s]
      by_cases hj : j = c
      · rw [if_pos hj, if_pos hj, if_pos hl]
      · rw [if_neg hj, if_neg hj]
    · rw [hL4_app hl, updNS _ _ fNEa _ (fun n => rfl), updNS_s]
      by_cases hj : j = c
      · rw [if_pos hj, if_pos hj, if_neg hl]
      · rw [if_neg hj, if_neg hj]
  have h5PS : ∀ j, (s5 j).previousSibling =
      (if j = c + size u ∧ i + 1 < cs.length then some c
       else (s4 j).previousSibling) := by
    intro j
    by_cases hl : i + 1 < cs.length
    · rw [hL4_non hl, updPS _ _ fNEx _ (fun n => rfl), updPS_s]
      by_cases hj2 : j = c + size u
      · rw [if_pos hj2, if_pos (show j = c + size u ∧ i + 1 < cs.length
          from ⟨hj2, hl⟩)]
      · rw [if_neg hj2, if_neg (show ¬(j = c + size u ∧ i + 1 < cs.length)
          from fun hh => hj2 hh.1), updPS _ _ fNSx _ (fun n => rfl)]
    · rw [hL4_app hl, updPS _ _ fNEa _ (fun n => rfl),
        updPS _ _ fNSn _ (fun n => rfl),
        if_neg (show ¬(j = c + size u ∧ i + 1 < cs.length)
          from fun hh => hl hh.2)]
  have h5NE : ∀ j, (s5 j).nextElement =
      (if j = c + size u - 1
       then (if c + size u = size t then none else some (c + size u))
       else (s4 j).nextElement) := by
    intro j
    by_cases hl : i + 1 < cs.length
    · have hxlt : c + size u < size t := (hnext_facts hl).1
      rw [hL4_non hl, updNE_s]
      by_cases hj3 : j = c + size u - 1
      · rw [if_pos hj3, if_pos hj3,
          if_neg (show ¬(c + size u = size t) from by omega)]
      · rw [if_neg hj3, if_neg hj3, updNE _ _ fPS4 _ (fun n => rfl),
          updNE _ _ fNSx _ (fun n => rfl)]
    · rw [hL4_app hl, updNE_s]
      by_cases hj3 : j = c + size u - 1
      · rw [if_pos hj3, if_pos hj3]
      · rw [if_neg hj3, if_neg hj3, updNE _ _ fNSn _ (fun n => rfl)]
  have h5NE_tl : (s5 (c + size u - 1)).nextElement =
      (if c + size u = size t then none else some (c + size u)) := by
    rw [h5NE (c + size u - 1), if_pos rfl]
  have hL5 : s6 = (if c + size u = size t then s5
      else upd s5 (c + size u) fPE5) := by
    rw [hs6]
    unfold insLink5
    rw [h5NE_tl]
    by_cases hq : c + size u = size t
    · rw [if_pos hq, if_pos hq]
    · rw [if_neg hq, if_neg hq]
  have h6fix : ∀ j, (s6 j).kind = (s5 j).kind ∧ (s6 j).name = (s5 j).name
      ∧ (s6 j).attrs = (s5 j).attrs ∧ (s6 j).value = (s5 j).value
      ∧ (s6 j).contents = (s5 j).contents
      ∧ (s6 j).parent = (s5 j).parent
      ∧ (s6 j).nextElement = (s5 j).nextElement
      ∧ (s6 j).previousSibling = (s5 j).previousSibling
      ∧ (s6 j).nextSibling = (s5 j).nextSibling
      ∧ (s6 j).decomposed = (s5 j).decomposed := by
    intro j
    rw [hL5]
    by_cases hq : c + size u = size t
    · rw [if_pos hq]
      exact ⟨rfl, rfl, rfl, rfl, rfl, rfl, rfl, rfl, rfl, rfl⟩
    · rw [if_neg hq]
      exact ⟨by rw [updK _ _ fPE5 _ (fun n => rfl)],
        by rw [updNm _ _ fPE5 _ (fun n => rfl)],
        by rw [updA _ _ fPE5 _ (fun n => rfl)],
        by rw [updV _ _ fPE5 _ (fun n => rfl)],
        by rw [updC _ _ fPE5 _ (fun n => rfl)],
        by rw [updP _ _ fPE5 _ (fun n => rfl)],
        by rw [updNE _ _ fPE5 _ (fun n => rfl)],
        by rw [updPS _ _ fPE5 _ (fun n => rfl)],
        by rw [updNS _ _ fPE5 _ (fun n => rfl)],
        by rw [updD _ _ fPE5 _ (fun n => rfl)]⟩
  have h6PE : ∀ j, (s6 j).previousElement =
      (if j = c + size u ∧ c + size u < size t then some (c + size u - 1)
       else (s5 j).previousElement) := by
    intro j
    rw [hL5]
    by_cases hq : c + size u = size t
    · rw [if_pos hq,
        if_neg (show ¬(j = c + size u ∧ c + size u < size t)
          from fun hh => by omega)]
    · rw [if_neg hq, updPE_s]
      by_cases hj : j = c + size u
      · rw [if_pos hj, if_pos (show j = c + size u ∧ c + size u < size t
          from ⟨hj, by omega⟩)]
      · rw [if_neg hj, if_neg (show ¬(j = c + size u ∧ c + size u < size t)
          from fun hh => hj hh.1)]
  have hL6 : insLink6 s6 p i c = upd s6 p f6 := rfl
  rw [hL6]
  refine congrArg Except.ok (funext fun j =>
    node_fields_ext ?_ ?_ ?_ ?_ ?_ ?_ ?_ ?_ ?_ ?_ ?_)
  · rw [updK s6 p f6 j (fun n => rfl), (h6fix j).1, (h5fix j).1,
      (h4fix j).1, (h3fix j).1]
    exact (hKD j).1
  · rw [updNm s6 p f6 j (fun n => rfl), (h6fix j).2.1, (h5fix j).2.1,
      (h4fix j).2.1, (h3fix j).2.1]
    exact (hKD j).2.1
  · rw [updA s6 p f6 j (fun n => rfl), (h6fix j).2.2.1, (h5fix j).2.2.1,
      (h4fix j).2.2.1, (h3fix j).2.2.1]
    exact (hKD j).2.2.1
  · rw [updV s6 p f6 j (fun n => rfl), (h6fix j).2.2.2.1,
      (h5fix j).2.2.2.1, (h4fix j).2.2.2.1, (h3fix j).2.2.2.1]
    exact (hKD j).2.2.2.1
  · rw [updC_s s6 p f6 j]
    by_cases hj : j = p
    · rw [if_pos hj, hj, hf6]
      show (s6 p).contents.insertIdx i c = (storeOf t p).contents
      rw [(h6fix p).2.2.2.2.1, (h5fix p).2.2.2.2.1, (h4fix p).2.2.2.2.1,
        (h3fix p).2.2.2.2.1, hC p, if_pos rfl,
        insertIdx_eraseIdx_self (childPositions cs (p + 1)) i c hcp,
        hcontents_p]
    · rw [if_neg hj, (h6fix j).2.2.2.2.1, (h5fix j).2.2.2.2.1,
        (h4fix j).2.2.2.2.1, (h3fix j).2.2.2.2.1, hC j, if_neg hj]
  · rw [updP s6 p f6 j (fun n => rfl), (h6fix j).2.2.2.2.2.1,
      (h5fix j).2.2.2.2.2.1, (h4fix j).2.2.2.2.2.1, h3P j]
    by_cases hj : j = c
    · rw [if_pos hj, hj]
      exact hpar_c.symm
    · rw [if_neg hj, hP j, if_neg hj]
  · rw [updPE s6 p f6 j (fun n => rfl), h6PE j]
    by_cases hq : j = c + size u ∧ c + size u < size t
    · rw [if_pos hq, hq.1]
      exact (hPE_nx hq.2).symm
    · rw [if_neg hq, (h5fix j).2.2.2.2.2.2.1, (h4fix j).2.2.2.2.2.2.1,
        h3PE j]
      by_cases hj : j = c
      · rw [if_pos hj, hj]
        exact hprevEl_c0.symm
      · rw [if_neg hj, hPE j, if_neg hj, if_neg hq]
  · rw [updNE s6 p f6 j (fun n => rfl), (h6fix j).2.2.2.2.2.2.1, h5NE j]
    by_cases hjt : j = c + size u - 1
    · rw [if_pos hjt, hjt]
      exact hNE_tl.symm
    · rw [if_neg hjt, h4NE j]
      by_cases hj1 : j = c - 1
      · rw [if_pos hj1, hj1]
        exact hNE_cm1.symm
      · rw [if_neg hj1, hNE j, if_neg hjt, if_neg hj1]
  · rw [updPS s6 p f6 j (fun n => rfl), (h6fix j).2.2.2.2.2.2.2.1, h5PS j]
    by_cases hq : j = c + size u ∧ i + 1 < cs.length
    · rw [if_pos hq, hq.1]
      exact (hnext_facts hq.2).2.symm
    · rw [if_neg hq, (h4fix j).2.2.2.2.2.2.2.1, h3PS j]
      by_cases hj : j = c
      · rw [if_pos hj, hj]
        exact hps_c.symm
      · rw [if_neg hj, hPS j, if_neg hj, if_neg hq]
  · rw [updNS s6 p f6 j (fun n => rfl), (h6fix j).2.2.2.2.2.2.2.2.1,
      h5NS j]
    by_cases hj : j = c
    · rw [if_pos hj, hj]
      exact hns_c.symm
    · rw [if_neg hj, (h4fix j).2.2.2.2.2.2.2.2.1, h3NS j]
      by_cases hq : 0 < i ∧ j = p + 1 + sizeL (cs.take (i - 1))
      · rw [if_pos hq, hq.2]
        exact (hAw_facts hq.1).symm
      · rw [if_neg hq, hNS j, if_neg hj, if_neg hq]
  · rw [updD s6 p f6 j (fun n => rfl), (h6fix j).2.2.2.2.2.2.2.2.2,
      (h5fix j).2.2.2.2.2.2.2, (h4fix j).2.2.2.2.2.2.2.2.2,
      (h3fix j).2.2.2.2.2.2]
    exact (hKD j).2.2.2.2

/-- A two-child document for the round-trip witness:
`<r>xy</r>` with text children `"x"` (position 1) and `"y"` (position 2). -/
def exRound : PTree :=
  PTree.tagN "r" [] [PTree.textN "x", PTree.textN "y"]

/-- **C1.** Extract-then-insert round-trip: for every attached node (the
`i`-th child, at pre-order position `c`, of the tag element at position
`p`), `extract` succeeds, and re-`insert`ing the extracted node into its
former parent at its original child index rebuilds the canonical store of
the document exactly — in particular the document-order chain
(`next_element` from the root) and every element's `contents` order are
restored. -/
theorem c1_extract_insert_roundtrip {t : PTree} {d p i c : Nat}
    {par ps ns : Option Nat} {nm : String} {a : List (String × String)}
    {cs : List PTree} {u : PTree} (fuel : Nat)
    (h : At t d p par ps ns (.tagN nm a cs))
    (hcs : cs[i]? = some u)
    (hcp : (childPositions cs (p + 1))[i]? = some c)
    (hfuel : size t ≤ fuel) :
    ∃ s1, extract fuel (storeOf t) c = some s1
      ∧ insert fuel s1 p i (some (.snode c)) 0 = .ok (storeOf t) := by
  obtain ⟨s1, hex, hKD, hC, hP, hPE, hNE, hPS, hNS⟩ :=
    extract_full fuel h hcs hcp hfuel
  exact ⟨s1, hex,
    insert_restores fuel s1 h hcs hcp hfuel hKD hC hP hPE hNE hPS hNS⟩

/-- Witness for C1: in `<r>xy</r>`, extracting the second child (the text
node `"y"` at position 2) and inserting it back at child index 1 of the
root restores the canonical store. -/
theorem c1_extract_insert_roundtrip_witness :
    ∃ s1, extract 3 (storeOf exRound) 2 = some s1
      ∧ insert 3 s1 0 1 (some (.snode 2)) 0 = .ok (storeOf exRound) :=
  c1_extract_insert_roundtrip 3
    (show At exRound 0 0 none none none
        (PTree.tagN "r" [] [PTree.textN "x", PTree.textN "y"])
      from At.root)
    (show [PTree.textN "x", PTree.textN "y"][1]? = some (PTree.textN "y")
      from rfl)
    (by decide)
    (by decide)

/-- Fuel monotonicity of the document-chain walk. -/
theorem chainUntil_mono : ∀ (f1 f2 : Nat) (s : Store) (cur stop : Option Nat)
    (l : List Nat), f1 ≤ f2 → chainUntil s f1 cur stop = some l →
    chainUntil s f2 cur stop = some l
  | 0, f2, s, cur, stop, l, hle, h => by
      rw [chainUntil.eq_def] at h
      simp at h
  | f1 + 1, f2, s, cur, stop, l, hle, h => by
      obtain ⟨g, rfl⟩ : ∃ g, f2 = g + 1 := ⟨f2 - 1, by omega⟩
      rw [chainUntil.eq_def] at h
      simp only [] at h
      rw [chainUntil.eq_def]
      simp only []
      by_cases hc : cur = stop
      · rw [if_pos hc] at h
        rw [if_pos hc]
        exact h
      · rw [if_neg hc] at h
        rw [if_neg hc]
        cases cur with
        | none => exact absurd h (by simp)
        | some x =>
            replace h : (chainUntil s f1 (s x).nextElement stop).map
              (x :: ·) = some l := h
            show (chainUntil s g (s x).nextElement stop).map (x :: ·) = some l
            obtain ⟨w, hw, heq⟩ : ∃ w,
                chainUntil s f1 (s x).nextElement stop = some w
                ∧ l = x :: w := by
              cases hv : chainUntil s f1 (s x).nextElement stop with
              | none => rw [hv] at h; simp at h
              | some w => rw [hv] at h; simp at h; exact ⟨w, rfl, h.symm⟩
            rw [chainUntil_mono f1 g s _ stop w (by omega) hw]
            simp [heq]

/-- Concatenating two chain walks: a clean walk from `cur` to `mid`
followed by a walk from `mid` to the end is a walk from `cur` to the end. -/
theorem chainUntil_append : ∀ (f1 : Nat) (s : Store) (cur mid : Option Nat)
    (l1 l2 : List Nat) (f2 : Nat),
    chainUntil s f1 cur mid = some l1 →
    chainUntil s f2 mid none = some l2 →
    chainUntil s (f1 + f2) cur none = some (l1 ++ l2)
  | 0, s, cur, mid, l1, l2, f2, h1, h2 => by
      rw [chainUntil.eq_def] at h1
      simp at h1
  | f1 + 1, s, cur, mid, l1, l2, f2, h1, h2 => by
      rw [chainUntil.eq_def] at h1
      simp only [] at h1
      by_cases hc : cur = mid
      · rw [if_pos hc] at h1
        have hl1 : l1 = [] := by
          have := h1.symm
          simpa using this
        rw [hc, hl1, List.nil_append]
        exact chainUntil_mono f2 (f1 + 1 + f2) s mid none l2 (by omega) h2
      · rw [if_neg hc] at h1
        cases cur with
        | none => exact absurd h1 (by simp)
        | some x =>
            replace h1 : (chainUntil s f1 (s x).nextElement mid).map
              (x :: ·) = some l1 := h1
            obtain ⟨w, hw, heq⟩ : ∃ w,
                chainUntil s f1 (s x).nextElement mid = some w
                ∧ l1 = x :: w := by
              cases hv : chainUntil s f1 (s x).nextElement mid with
              | none => rw [hv] at h1; simp at h1
              | some w => rw [hv] at h1; simp at h1; exact ⟨w, rfl, h1.symm⟩
            have ih := chainUntil_append f1 s (s x).nextElement mid w l2 f2
              hw h2
            rw [show f1 + 1 + f2 = (f1 + f2) + 1 by omega,
              chainUntil.eq_def]
            simp only []
            rw [if_neg (show ¬(some x = (none : Option Nat)) by simp)]
            show (chainUntil s (f1 + f2) (s x).nextElement none).map
              (x :: ·) = some (l1 ++ l2)
            rw [ih]
            simp [heq]

theorem decomposeStep_decomposed (nd : Node) :
    (decomposeStep nd).decomposed = true := by
  cases h : nd.kind <;> simp [decomposeStep, h]

theorem decomposeStep_contents (nd : Node) :
    (decomposeStep nd).contents = [] := by
  cases h : nd.kind <;> simp [decomposeStep, h]

theorem decomposeStep_parent (nd : Node) (hp : nd.parent = none) :
    (decomposeStep nd).parent = none := by
  cases h : nd.kind <;> simp [decomposeStep, h, hp]

theorem decomposeStep_nextSib (nd : Node) (hp : nd.nextSibling = none) :
    (decomposeStep nd).nextSibling = none := by
  cases h : nd.kind <;> simp [decomposeStep, h, hp]

/-- The clearing loop of `decompose` over a chain segment `[a, a + k)`
whose `next_element` links run `x ↦ x + 1` with `None` at the last node:
it clears exactly the nodes of the segment, one pass each. -/
theorem decomposeLoop_seg : ∀ (k : Nat) (s : Store) (fuel a : Nat),
    k ≤ fuel → 1 ≤ k →
    (∀ x, a ≤ x → x < a + k →
      (s x).nextElement = (if x = a + k - 1 then none else some (x + 1))) →
    ∀ j, decomposeLoop s fuel (some a) j =
      (if a ≤ j ∧ j < a + k then decomposeStep (s j) else s j)
  | 0, _, _, _, _, h1, _ => by omega
  | 1, s, fuel, a, hf, h1, hnext => by
      obtain ⟨f, rfl⟩ : ∃ f, fuel = f + 1 := ⟨fuel - 1, by omega⟩
      intro j
      have hstep : decomposeLoop s (f + 1) (some a) =
          decomposeLoop (upd s a decomposeStep) f ((s a).nextElement) := rfl
      rw [hstep, hnext a (Nat.le_refl a) (by omega),
        if_pos (show a = a + 1 - 1 from by omega),
        show decomposeLoop (upd s a decomposeStep) f none =
          upd s a decomposeStep from by cases f <;> rfl]
      by_cases hj : j = a
      · rw [hj, upd_same, if_pos (show a ≤ a ∧ a < a + 1 from by omega)]
      · rw [upd_other _ _ _ _ hj,
          if_neg (show ¬(a ≤ j ∧ j < a + 1) from fun hh => hj (by omega))]
  | k + 2, s, fuel, a, hf, h1, hnext => by
      obtain ⟨f, rfl⟩ : ∃ f, fuel = f + 1 := ⟨fuel - 1, by omega⟩
      intro j
      have hstep : decomposeLoop s (f + 1) (some a) =
          decomposeLoop (upd s a decomposeStep) f ((s a).nextElement) := rfl
      rw [hstep, hnext a (Nat.le_refl a) (by omega),
        if_neg (show ¬(a = a + (k + 2) - 1) from by omega)]
      have hnext' : ∀ x, a + 1 ≤ x → x < a + 1 + (k + 1) →
          ((upd s a decomposeStep) x).nextElement =
          (if x = a + 1 + (k + 1) - 1 then none else some (x + 1)) := by
        intro x hx1 hx2
        rw [upd_other _ _ _ _ (by omega), hnext x (by omega) (by omega)]
        by_cases hx : x = a + (k + 2) - 1
        · rw [if_pos hx, if_pos (show x = a + 1 + (k + 1) - 1 from by omega)]
        · rw [if_neg hx,
            if_neg (show ¬(x = a + 1 + (k + 1) - 1) from by omega)]
      rw [decomposeLoop_seg (k + 1) (upd s a decomposeStep) f (a + 1)
        (by omega) (by omega) hnext' j]
      by_cases hj : j = a
      · rw [hj, if_neg (show ¬(a + 1 ≤ a ∧ a < a + 1 + (k + 1))
            from fun hh => by omega), upd_same,
          if_pos (show a ≤ a ∧ a < a + (k + 2) from by omega)]
      · by_cases hin : a + 1 ≤ j ∧ j < a + 1 + (k + 1)
        · rw [if_pos hin, upd_other _ _ _ _ hj,
            if_pos (show a ≤ j ∧ j < a + (k + 2) from by omega)]
        · rw [if_neg hin, upd_other _ _ _ _ hj,
            if_neg (show ¬(a ≤ j ∧ j < a + (k + 2))
              from fun hh => hin (by omega))]

/-- **C8.** Decompose safety: for every attached node (the `i`-th child,
at pre-order position `c`, of the tag at `p`), `decompose` succeeds, marks
every node of the removed subtree slice `[c, c + size u)` as decomposed,
and calling `decompose` a second time on the same node also succeeds (no
error).  The remaining tree keeps its invariants: the document-order walk
from the root visits exactly the surviving positions in pre-order (I2/I3),
the parent's `contents` lose exactly the removed entry while every other
surviving node keeps its `contents` and `parent` (I1), and the sibling
links of the surviving nodes are unchanged except for the stitch around
the removed child (I4). -/
theorem c8_decompose_idempotent {t : PTree} {d p i c : Nat}
    {par ps ns : Option Nat} {nm : String} {a : List (String × String)}
    {cs : List PTree} {u : PTree} (fuel : Nat)
    (h : At t d p par ps ns (.tagN nm a cs))
    (hcs : cs[i]? = some u)
    (hcp : (childPositions cs (p + 1))[i]? = some c)
    (hfuel : size t ≤ fuel) :
    ∃ s1, decompose fuel (storeOf t) c = some s1
      ∧ (∀ x, c ≤ x → x < c + size u → hasDecomposed s1 x = true)
      ∧ (∃ s2, decompose fuel s1 c = some s2)
      ∧ chainUntil s1 (fuel + 1) (some 0) none =
          some (List.range' 0 c ++
            List.range' (c + size u) (size t - (c + size u)))
      ∧ (s1 p).contents = (childPositions cs (p + 1)).eraseIdx i
      ∧ (∀ j, j < c ∨ c + size u ≤ j → j ≠ p →
          (s1 j).contents = (storeOf t j).contents
          ∧ (s1 j).parent = (storeOf t j).parent)
      ∧ (0 < i → (s1 (p + 1 + sizeL (cs.take (i - 1)))).nextSibling =
          (if i + 1 < cs.length then some (c + size u) else none))
      ∧ (i + 1 < cs.length → (s1 (c + size u)).previousSibling =
          (if i = 0 then none
           else some (p + 1 + sizeL (cs.take (i - 1)))))
      ∧ (∀ j, j < c ∨ c + size u ≤ j →
          j ≠ p + 1 + sizeL (cs.take (i - 1)) → j ≠ c + size u →
          (s1 j).previousSibling = (storeOf t j).previousSibling
          ∧ (s1 j).nextSibling = (storeOf t j).nextSibling) := by
  obtain ⟨s1e, hex, hKD, hC, hP, hPE, hNE, hPS, hNS⟩ :=
    extract_full fuel h hcs hcp hfuel
  have hilt : i < cs.length := by
    by_contra hge
    rw [List.getElem?_eq_none (by omega)] at hcs
    simp at hcs
  have hAc0 := At.child h hcs hcp
  have hcval : c = p + 1 + sizeL (cs.take i) := by
    rw [childPositions_get cs (p + 1) i hilt] at hcp
    simp at hcp
    omega
  have hm1 : 1 ≤ size u := size_pos u
  have hple : p + 1 ≤ c := by omega
  have hcmle : c + size u ≤ size t := hAc0.size_le
  have hclt : c < size t := hAc0.pos_lt
  have hpv_lt : 0 < i → p + 1 + sizeL (cs.take (i - 1)) < c := by
    intro h0
    have hlt1 : i - 1 < cs.length := by omega
    obtain ⟨w, hw⟩ : ∃ x, cs[i - 1]? = some x := by
      rw [List.getElem?_eq_getElem hlt1]
      exact ⟨_, rfl⟩
    have hsw := sizeL_take_succ cs (i - 1) w hw
    rw [show i - 1 + 1 = i by omega] at hsw
    have hw1 := size_pos w
    omega
  have hdec1 : decompose fuel (storeOf t) c =
      some (decomposeLoop s1e fuel (some c)) := by
    unfold decompose
    rw [hex]
  set s1 := decomposeLoop s1e fuel (some c) with hs1
  have hnextseg : ∀ x, c ≤ x → x < c + size u →
      (s1e x).nextElement =
      (if x = c + size u - 1 then none else some (x + 1)) := by
    intro x hx1 hx2
    rw [hNE x]
    by_cases hxt : x = c + size u - 1
    · rw [if_pos hxt, if_pos hxt]
    · rw [if_neg hxt, if_neg hxt,
        if_neg (show ¬x = c - 1 from by omega),
        storeOf_nextEl t x (by omega),
        if_neg (show ¬(x + 1 = size t) from by omega)]
  have hseg : ∀ j, s1 j =
      (if c ≤ j ∧ j < c + size u then decomposeStep (s1e j) else s1e j) :=
    fun j => by
      rw [hs1]
      exact decomposeLoop_seg (size u) s1e fuel c (by omega) hm1 hnextseg j
  have hcin : c ≤ c ∧ c < c + size u := ⟨Nat.le_refl c, by omega⟩
  have hpar2 : (s1 c).parent = none := by
    rw [hseg c, if_pos hcin]
    exact decomposeStep_parent _ (by rw [hP c, if_pos rfl])
  have hNS2 : (s1 c).nextSibling = none := by
    rw [hseg c, if_pos hcin]
    exact decomposeStep_nextSib _ (by rw [hNS c, if_pos rfl])
  have hcont2 : (s1 c).contents = [] := by
    rw [hseg c, if_pos hcin]
    exact decomposeStep_contents _
  have hloop2 : lastDescendantLoop s1 fuel c = c := by
    cases fuel with
    | zero => rfl
    | succ f =>
        rw [lastDescendantLoop]
        exact if_neg (fun hcon => hcon.2 hcont2)
  have hld2 : lastDescendant s1 fuel true true c = some c := by
    unfold lastDescendant
    rw [if_neg (show ¬((true : Bool) = true ∧ (s1 c).nextSibling ≠ none)
      from fun hcon => hcon.2 hNS2)]
    rw [hloop2]
    simp
  have hNErem : ∀ x, x < c - 1 ∨ (c + size u ≤ x ∧ x < size t) →
      (s1 x).nextElement =
      (if x + 1 = size t then none else some (x + 1)) := by
    intro x hx
    have hx1 : ¬(c ≤ x ∧ x < c + size u) := by
      rcases hx with hx | hx <;> omega
    have hx2 : ¬(x = c + size u - 1) := by
      rcases hx with hx | hx <;> omega
    have hx3 : ¬(x = c - 1) := by
      rcases hx with hx | hx <;> omega
    have hx4 : x < size t := by
      rcases hx with hx | hx <;> omega
    rw [hseg x, if_neg hx1, hNE x, if_neg hx2, if_neg hx3,
      storeOf_nextEl t x hx4]
  have hNEc1 : (s1 (c - 1)).nextElement =
      (if c + size u = size t then none else some (c + size u)) := by
    rw [hseg (c - 1),
      if_neg (show ¬(c ≤ c - 1 ∧ c - 1 < c + size u) from fun hh => by omega),
      hNE (c - 1),
      if_neg (show ¬(c - 1 = c + size u - 1) from by omega), if_pos rfl]
  have hseg2 : chainUntil s1 (size t - (c + size u) + 1)
      (if c + size u = size t then none else some (c + size u)) none =
      some (List.range' (c + size u) (size t - (c + size u))) := by
    by_cases hq : c + size u = size t
    · rw [if_pos hq, show size t - (c + size u) = 0 from by omega]
      rw [chainUntil_self s1 _ none (by omega)]
      rfl
    · rw [if_neg hq]
      exact chainUntil_range (size t - (c + size u)) s1 (c + size u)
        (size t) none _ (by omega) (by omega) (by omega)
        (fun x hx1 hx2 => hNErem x (Or.inr ⟨hx1, by omega⟩))
        (by rw [if_pos (by omega)])
  have hstep1 : chainUntil s1 (size t - (c + size u) + 1 + 1)
      (some (c - 1)) none =
      some ((c - 1) :: List.range' (c + size u)
        (size t - (c + size u))) := by
    rw [chainUntil.eq_def]
    simp only []
    rw [if_neg (show ¬((some (c - 1) : Option Nat) = none) by simp)]
    show (chainUntil s1 (size t - (c + size u) + 1)
      (s1 (c - 1)).nextElement none).map ((c - 1) :: ·) = _
    rw [hNEc1, hseg2]
    rfl
  have hchain : chainUntil s1 (fuel + 1) (some 0) none =
      some (List.range' 0 c ++
        List.range' (c + size u) (size t - (c + size u))) := by
    have hr : ∀ (b : Nat) (L : List Nat),
        List.range' 0 b ++ b :: L = List.range' 0 (b + 1) ++ L := by
      intro b L
      rw [List.range'_1_concat, List.append_assoc]
      simp
    by_cases hc1 : c = 1
    · apply chainUntil_mono (size t - (c + size u) + 1 + 1) (fuel + 1) s1
        (some 0) none _ (by omega)
      have h10 : c - 1 = 0 := by omega
      rw [h10] at hstep1
      rw [hstep1, hc1]
      simp
    · have h1seg : chainUntil s1 c (some 0) (some (c - 1)) =
          some (List.range' 0 (c - 1)) :=
        chainUntil_range (c - 1) s1 0 (size t) (some (c - 1)) c
          (by omega) (by omega) (by omega)
          (fun x hx1 hx2 => hNErem x (Or.inl (by omega)))
          (by rw [if_neg (show ¬(0 + (c - 1) = size t) from by omega)]
              congr 1
              omega)
      have happ := chainUntil_append c s1 (some 0) (some (c - 1))
        (List.range' 0 (c - 1))
        ((c - 1) :: List.range' (c + size u) (size t - (c + size u)))
        (size t - (c + size u) + 1 + 1) h1seg hstep1
      apply chainUntil_mono (c + (size t - (c + size u) + 1 + 1)) (fuel + 1)
        s1 (some 0) none _ (by omega)
      rw [happ, hr (c - 1)
        (List.range' (c + size u) (size t - (c + size u))),
        show (c - 1) + 1 = c from by omega]
  refine ⟨s1, hdec1, ?_, ?_, hchain, ?_, ?_, ?_, ?_, ?_⟩
  · intro x hx1 hx2
    show (s1 x).decomposed = true
    rw [hseg x, if_pos ⟨hx1, hx2⟩]
    exact decomposeStep_decomposed _
  · unfold decompose
    unfold extract
    simp only [hpar2, hld2]
    exact ⟨_, rfl⟩
  · rw [hseg p,
      if_neg (show ¬(c ≤ p ∧ p < c + size u) from fun hh => by omega),
      hC p, if_pos rfl]
  · intro j hsur hjp
    have hnotin : ¬(c ≤ j ∧ j < c + size u) := by
      rcases hsur with hs | hs <;> omega
    have hjc : ¬(j = c) := by
      rcases hsur with hs | hs <;> omega
    constructor
    · rw [hseg j, if_neg hnotin, hC j, if_neg hjp]
    · rw [hseg j, if_neg hnotin, hP j, if_neg hjc]
  · intro h0
    have hpv := hpv_lt h0
    rw [hseg _,
      if_neg (show ¬(c ≤ p + 1 + sizeL (cs.take (i - 1)) ∧
        p + 1 + sizeL (cs.take (i - 1)) < c + size u)
        from fun hh => by omega),
      hNS _,
      if_neg (show ¬(p + 1 + sizeL (cs.take (i - 1)) = c) from by omega),
      if_pos (show 0 < i ∧ p + 1 + sizeL (cs.take (i - 1)) =
        p + 1 + sizeL (cs.take (i - 1)) from ⟨h0, rfl⟩)]
  · intro hl
    rw [hseg _,
      if_neg (show ¬(c ≤ c + size u ∧ c + size u < c + size u)
        from fun hh => by omega),
      hPS _,
      if_neg (show ¬(c + size u = c) from by omega),
      if_pos (show c + size u = c + size u ∧ i + 1 < cs.length
        from ⟨rfl, hl⟩)]
  · intro j hsur hjpv hjnx
    have hnotin : ¬(c ≤ j ∧ j < c + size u) := by
      rcases hsur with hs | hs <;> omega
    have hjc : ¬(j = c) := by
      rcases hsur with hs | hs <;> omega
    constructor
    · rw [hseg j, if_neg hnotin, hPS j, if_neg hjc,
        if_neg (show ¬(j = c + size u ∧ i + 1 < cs.length)
          from fun hh => hjnx hh.1)]
    · rw [hseg j, if_neg hnotin, hNS j, if_neg hjc,
        if_neg (show ¬(0 < i ∧ j = p + 1 + sizeL (cs.take (i - 1)))
          from fun hh => hjpv hh.2)]

/-- Witness for C8: in `<r>xy</r>`, decomposing the text node `"y"` at
position 2 succeeds, marks it decomposed, decomposing it again succeeds,
the remaining document chain is `0 → 1`, and the root keeps only the
other child. -/
theorem c8_decompose_idempotent_witness :
    ∃ s1, decompose 3 (storeOf exRound) 2 = some s1
      ∧ (∀ x, 2 ≤ x → x < 3 → hasDecomposed s1 x = true)
      ∧ (∃ s2, decompose 3 s1 2 = some s2)
      ∧ chainUntil s1 4 (some 0) none = some [0, 1]
      ∧ (s1 0).contents = [1]
      ∧ (∀ j, j < 2 ∨ 3 ≤ j → j ≠ 0 →
          (s1 j).contents = (storeOf exRound j).contents
          ∧ (s1 j).parent = (storeOf exRound j).parent)
      ∧ (0 < 1 → (s1 1).nextSibling = (if 2 < 2 then some 3 else none))
      ∧ (2 < 2 → (s1 3).previousSibling =
          (if (1 : Nat) = 0 then none else some 1))
      ∧ (∀ j, j < 2 ∨ 3 ≤ j → j ≠ 1 → j ≠ 3 →
          (s1 j).previousSibling = (storeOf exRound j).previousSibling
          ∧ (s1 j).nextSibling = (storeOf exRound j).nextSibling) :=
  c8_decompose_idempotent 3
    (show At exRound 0 0 none none none
        (PTree.tagN "r" [] [PTree.textN "x", PTree.textN "y"])
      from At.root)
    (show [PTree.textN "x", PTree.textN "y"][1]? = some (PTree.textN "y")
      from rfl)
    (by decide)
    (by decide)

end Bisque
